import Mathlib

/-!
Verification of the BibleHub lexicon importer core (fetcher, extractor,
crawler, writer) against its natural-language specification.

Strings are modelled as `List Char` (named `Str` below); JavaScript string
operations (`indexOf`, `slice`, `trim`, regex scans) are given explicit
executable definitions over `Str` that mirror the source semantics.
Times are modelled as `Int` milliseconds; the idealization is that
`setTimeout(ms)` wakes exactly `ms` milliseconds later and `Date.now()`
is exact, which is the timing model the spec itself uses.
-/

/-- Strings as lists of characters. -/
abbrev Str := List Char

/-- Conversion from Lean string literals, used for concrete inputs. -/
def str (s : String) : Str := s.toList

namespace Fetcher

/-- State of the `Fetcher` class (fetcher source file): the mutable
`rateLimitMs` field, the `lastFetchAt` clock, and the url-keyed in-memory
`cache` (a `Map<string, {at, text}>`, modelled as an association list where
the most recent binding for a key comes first). -/
structure State where
  rateLimitMs : Int
  lastFetchAt : Int
  cache : List (Str × Int × Str)
deriving Repr, DecidableEq

/-- Lookup in the modelled `Map`: first binding for the key wins. -/
def cacheGet (c : List (Str × Int × Str)) (url : Str) : Option (Int × Str) :=
  match c with
  | [] => none
  | (u, v) :: rest => if u = url then some v else cacheGet rest url

/-- The `Map.set` operation: a fresh binding shadows any older one. -/
def cacheSet (c : List (Str × Int × Str)) (url : Str) (v : Int × Str) :
    List (Str × Int × Str) :=
  (url, v) :: c

/-- Result of one `Fetcher.get` call, instrumented with the observable
timing events: whether a network request was issued, the instants the
request started and resolved, and the milliseconds spent sleeping in the
rate limiter. -/
structure GetResult where
  text : Str
  state : State
  networkFetched : Bool
  fetchStart : Option Int
  fetchEnd : Option Int
  waited : Int
deriving Repr, DecidableEq

/-- The private `rateLimit` method: reads `Date.now()` (the `now`
argument), computes `delta = now - lastFetchAt`, sleeps for
`rateLimitMs - delta` when `delta < rateLimitMs`, and then stores
`Date.now()` — the wake-up instant — into `lastFetchAt`.  Returns the
updated state together with the wake-up instant. -/
def rateLimit (s : State) (now : Int) : State × Int :=
  let delta := now - s.lastFetchAt
  let wake := if delta < s.rateLimitMs then now + (s.rateLimitMs - delta) else now
  ({ s with lastFetchAt := wake }, wake)

/-- The `get(url, useCache)` method.  `now` is `Date.now()` at entry,
`fetchDur` the duration of the `requestUrl` round trip, and `netText` the
text the network returns.  On a cache hit (only consulted when `useCache`)
the cached text is returned at once; otherwise the rate limiter runs, the
request is issued at the wake-up instant, and on resolution the text is
stored in the cache (keyed by `url`, stamped with the resolution instant)
and returned. -/
def get (s : State) (url : Str) (useCache : Bool) (now fetchDur : Int)
    (netText : Str) : GetResult :=
  match (if useCache then cacheGet s.cache url else none) with
  | some hit =>
      { text := hit.2, state := s, networkFetched := false,
        fetchStart := none, fetchEnd := none, waited := 0 }
  | none =>
      let s1w := rateLimit s now
      let fEnd := s1w.2 + fetchDur
      let s2 : State :=
        { s1w.1 with cache := cacheSet s1w.1.cache url (fEnd, netText) }
      { text := netText, state := s2, networkFetched := true,
        fetchStart := some s1w.2, fetchEnd := some fEnd,
        waited := s1w.2 - now }

/-- Freshly set bindings are found by lookup. -/
theorem cacheGet_cacheSet (c : List (Str × Int × Str)) (url : Str) (v : Int × Str) :
    cacheGet (cacheSet c url v) url = some v := by
  simp [cacheSet, cacheGet]

end Fetcher

/-- The wake-up instant of `rateLimit` entered at `now`: `now` plus the
remaining part of the minimum interval, if any. -/
def fetcherWake (s : Fetcher.State) (now : Int) : Int :=
  if now - s.lastFetchAt < s.rateLimitMs
  then now + (s.rateLimitMs - (now - s.lastFetchAt)) else now

/-- C1 counterexample helper: the concrete call examined below —
rate limit 100 ms, last fetch at 0, empty cache, call at t=1000 with a
50 ms network round trip. -/
def fetcherC1Run : Fetcher.GetResult :=
  Fetcher.get ⟨100, 0, []⟩ (str "https://biblehub.com/strongs/greek/25.htm")
    false 1000 50 (str "page")

/-- C1 (counterexample): the claim says the new "last fetch" timestamp is
recorded after the network fetch completes.  On the concrete call above
the fetch completes at t=1050 yet the recorded timestamp is t=1000 (the
instant the request started), so the recorded timestamp is not the
completion time. -/
theorem fetcher_get_timestamp_not_completion :
    fetcherC1Run.fetchEnd = some 1050 ∧
    fetcherC1Run.state.lastFetchAt = 1000 ∧
    ¬ fetcherC1Run.fetchEnd = some fetcherC1Run.state.lastFetchAt := by
  refine ⟨rfl, rfl, ?_⟩
  decide

/-- C1 (amended): `get` behaves as claimed except for where the timestamp
is recorded.  (a) If `useCache` is set and the cache holds an entry for
`url`, that entry's text is returned with no wait and no network request,
and the state is unchanged.  (b) Otherwise, when less than the configured
minimum interval has elapsed since the recorded last-fetch instant, the
call waits exactly the remaining difference (and otherwise does not wait);
the network request starts right after the wait, and the new "last fetch"
timestamp is recorded at that start instant — before the fetch completes —
so a slow fetch does shrink the delay imposed on the following call. -/
theorem fetcher_get_spec (s : Fetcher.State) (url : Str) (useCache : Bool)
    (now fetchDur : Int) (netText : Str) :
    (∀ at_ txt, useCache = true → Fetcher.cacheGet s.cache url = some (at_, txt) →
      Fetcher.get s url useCache now fetchDur netText =
        { text := txt, state := s, networkFetched := false,
          fetchStart := none, fetchEnd := none, waited := 0 }) ∧
    ((if useCache then Fetcher.cacheGet s.cache url else none) = none →
      (Fetcher.get s url useCache now fetchDur netText =
        { text := netText,
          state := { rateLimitMs := s.rateLimitMs,
                     lastFetchAt := fetcherWake s now,
                     cache := (url, (fetcherWake s now + fetchDur, netText)) :: s.cache },
          networkFetched := true,
          fetchStart := some (fetcherWake s now),
          fetchEnd := some (fetcherWake s now + fetchDur),
          waited := fetcherWake s now - now }) ∧
      fetcherWake s now - now =
        (if now - s.lastFetchAt < s.rateLimitMs
         then s.rateLimitMs - (now - s.lastFetchAt) else 0)) := by
  constructor
  · intro at_ txt hu hc
    subst hu
    simp [Fetcher.get, hc]
  · intro hmiss
    constructor
    · simp only [Fetcher.get, hmiss]
      rfl
    · simp only [fetcherWake]
      split <;> ring

/-- C1 (witness): the amended theorem applied at a concrete state and
call, discharging both hypotheses: a cache hit returns the cached text
unchanged, and a cache miss at t=1000 with 70 ms of the interval still
remaining waits exactly 70 ms and records t=1070 — the fetch start — as
the last-fetch instant, while the fetch only completes at t=1120. -/
theorem fetcher_get_spec_witness :
    (Fetcher.get ⟨100, 970, [(str "u", (1, str "cached"))]⟩ (str "u") true
        1000 50 (str "fresh")).text = str "cached" ∧
    (Fetcher.get ⟨100, 970, []⟩ (str "u") true 1000 50 (str "fresh")).waited = 70 ∧
    (Fetcher.get ⟨100, 970, []⟩ (str "u") true 1000 50 (str "fresh")).state.lastFetchAt = 1070 ∧
    (Fetcher.get ⟨100, 970, []⟩ (str "u") true 1000 50 (str "fresh")).fetchEnd = some 1120 := by
  have h1 := (fetcher_get_spec ⟨100, 970, [(str "u", (1, str "cached"))]⟩
    (str "u") true 1000 50 (str "fresh")).1 1 (str "cached") rfl (by decide)
  have h2 := (fetcher_get_spec ⟨100, 970, []⟩ (str "u") true 1000 50
    (str "fresh")).2 (by decide)
  refine ⟨by rw [h1], ?_, ?_, ?_⟩ <;> rw [h2.1] <;> decide

/-- C10: a cache-bypassing call `get(url, false)` still stores the freshly
fetched text in the cache keyed by `url`, and a subsequent
`get(url, true)` returns exactly that text immediately — no network
request, no wait, state untouched.  `useCache=false` disables cache reads
but never cache writes. -/
theorem fetcher_get_nocache_still_writes (s : Fetcher.State) (url : Str)
    (now fetchDur : Int) (netText : Str) (now2 fetchDur2 : Int) (netText2 : Str) :
    (Fetcher.get s url false now fetchDur netText).networkFetched = true ∧
    (∃ at_, Fetcher.cacheGet
        (Fetcher.get s url false now fetchDur netText).state.cache url =
        some (at_, netText)) ∧
    Fetcher.get (Fetcher.get s url false now fetchDur netText).state url true
        now2 fetchDur2 netText2 =
      { text := netText,
        state := (Fetcher.get s url false now fetchDur netText).state,
        networkFetched := false, fetchStart := none, fetchEnd := none,
        waited := 0 } := by
  have hget : Fetcher.cacheGet
      (Fetcher.get s url false now fetchDur netText).state.cache url =
      some ((Fetcher.rateLimit s now).2 + fetchDur, netText) := by
    simp [Fetcher.get, Fetcher.cacheGet_cacheSet]
  exact ⟨rfl, ⟨_, hget⟩, by simp [Fetcher.get, Fetcher.cacheGet_cacheSet]⟩

/-!  String primitives mirroring the JavaScript operations used by the
source: character classes of the regexes involved, `trim`, case mapping,
and decimal rendering of `parseInt` results. -/

/-- JavaScript regex `\d` and `[0-9]`. -/
def isDigitChar (c : Char) : Bool := decide (48 ≤ c.toNat ∧ c.toNat ≤ 57)

/-- JavaScript regex `\w`: ASCII letters, digits and underscore. -/
def isWordChar (c : Char) : Bool :=
  decide ((65 ≤ c.toNat ∧ c.toNat ≤ 90) ∨ (97 ≤ c.toNat ∧ c.toNat ≤ 122) ∨
    (48 ≤ c.toNat ∧ c.toNat ≤ 57) ∨ c.toNat = 95)

/-- JavaScript regex `\s` (and the `trim` character class): the white-space
and line-terminator characters (space, tab, LF, CR, VT, FF, NBSP, BOM).
The exotic Unicode spaces (ogham mark, en/em spaces, …) are omitted as
they occur in none of the inputs considered. -/
def isJsSpace (c : Char) : Bool :=
  decide (c.toNat = 32 ∨ c.toNat = 9 ∨ c.toNat = 10 ∨ c.toNat = 13 ∨
    c.toNat = 11 ∨ c.toNat = 12 ∨ c.toNat = 160 ∨ c.toNat = 65279)

/-- ASCII lower-casing, the effect of `toLowerCase` on the inputs used. -/
def toLowerChar (c : Char) : Char :=
  if 65 ≤ c.toNat ∧ c.toNat ≤ 90 then Char.ofNat (c.toNat + 32) else c

/-- ASCII upper-casing, the effect of `toUpperCase` on the inputs used. -/
def toUpperChar (c : Char) : Char :=
  if 97 ≤ c.toNat ∧ c.toNat ≤ 122 then Char.ofNat (c.toNat - 32) else c

/-- JavaScript `String.prototype.trim`. -/
def jsTrim (s : Str) : Str :=
  ((s.dropWhile isJsSpace).reverse.dropWhile isJsSpace).reverse

/-- Numeric value of a decimal digit character. -/
def digitVal (c : Char) : Nat := c.toNat - 48

/-- Value of a string of decimal digits (the effect of `parseInt(s, 10)`
on an all-digit string; `parseInt` also ignores leading zeros, which
changes nothing about the value). -/
def digitsToNat (ds : Str) : Nat := ds.foldl (fun a c => a * 10 + digitVal c) 0

/-- The decimal digit character for a value below ten. -/
def decDigit (d : Nat) : Char :=
  if d = 0 then '0' else if d = 1 then '1' else if d = 2 then '2'
  else if d = 3 then '3' else if d = 4 then '4' else if d = 5 then '5'
  else if d = 6 then '6' else if d = 7 then '7' else if d = 8 then '8' else '9'

/-- Big-endian decimal rendering, structurally recursive on a fuel that
dominates the digit count (the effect of JavaScript `String(n)` on a
non-negative integer).  Fuel `n + 1` always suffices. -/
def natToDecimalAux : Nat → Nat → Str
  | 0, _ => []
  | fuel + 1, n =>
    if n = 0 then [] else natToDecimalAux fuel (n / 10) ++ [decDigit (n % 10)]

/-- JavaScript `String(n)` for a natural number. -/
def natToDecimal (n : Nat) : Str :=
  if n = 0 then ['0'] else natToDecimalAux (n + 1) n

/-- Leftmost-match regex search: try the matcher at every start position,
left to right, carrying the previous character (for `\b` look-behind);
mirrors how `String.prototype.match` finds the first match. -/
def scanFirst {α : Type} (f : Option Char → Str → Option α) :
    Option Char → Str → Option α
  | _, [] => none
  | prev, c :: rest =>
    match f prev (c :: rest) with
    | some a => some a
    | none => scanFirst f (some c) rest

/-- Case-insensitive literal prefix test: `pat` (given lower-case) against
the start of `t`. -/
def ciIsPrefixOf (pat : Str) (t : Str) : Bool :=
  decide ((t.take pat.length).map toLowerChar = pat)

/-!  Model of the id/URL utilities (`normalize` source file) and of the
seed normalization in the plugin entry point (`main` source file). -/

/-- The two source languages, `Lang` in the types module. -/
inductive Lang where
  | greek
  | hebrew
deriving Repr, DecidableEq

/-- Matcher for `/\b([GH])\s*0*([0-9]{1,5})\b/i` at one start position.
A match needs: a word boundary, a `G`/`H` (either case), then — after the
greedy whitespace run, which cannot overlap the digits — a non-empty
digit run that is not followed by a word character (the trailing `\b`;
the digit block must be consumed whole, since there is no boundary inside
it), such that after the zeros `0*` can absorb, at most five digits
remain for `([0-9]{1,5})`.  Returns the matched letter and the numeric
value of the captured digits, which leading zeros do not affect. -/
def strongIdMatchAt (prev : Option Char) (t : Str) : Option (Char × Nat) :=
  match t with
  | [] => none
  | c :: rest =>
    if (prev.map isWordChar).getD false then none
    else if c = 'G' ∨ c = 'g' ∨ c = 'H' ∨ c = 'h' then
      let afterWs := rest.dropWhile isJsSpace
      let run := afterWs.takeWhile isDigitChar
      let tail := afterWs.drop run.length
      let z := (run.takeWhile (fun d => d = '0')).length
      if run.length = 0 then none
      else if (tail.head?.map isWordChar).getD false then none
      else if z = run.length ∨ run.length - z ≤ 5 then some (c, digitsToNat run)
      else none
    else none

/-- Matcher for `/\b0*([0-9]{1,5})\b/` at one start position (same digit
block analysis as `strongIdMatchAt`, without the letter). -/
def bareNumMatchAt (prev : Option Char) (t : Str) : Option Nat :=
  match t with
  | [] => none
  | c :: _ =>
    if ¬ isDigitChar c then none
    else if (prev.map isWordChar).getD false then none
    else
      let run := t.takeWhile isDigitChar
      let tail := t.drop run.length
      let z := (run.takeWhile (fun d => d = '0')).length
      if (tail.head?.map isWordChar).getD false then none
      else if z = run.length ∨ run.length - z ≤ 5 then some (digitsToNat run)
      else none

/-- The `normalizeStrongId(raw, langHint?)` function: trim, try the
`G`/`H`-prefixed form, then fall back to a bare number if a language hint
was given. -/
def normalizeStrongId (raw : Str) (langHint : Option Lang) : Option Str :=
  let s := jsTrim raw
  match scanFirst strongIdMatchAt none s with
  | some cv => some (toUpperChar cv.1 :: natToDecimal cv.2)
  | none =>
    match langHint, scanFirst bareNumMatchAt none s with
    | some hint, some v =>
        some ((if hint = Lang.greek then 'G' else 'H') :: natToDecimal v)
    | _, _ => none

/-- The `langFromStrong` function: ids starting with `G` (after
upper-casing) are Greek, everything else Hebrew. -/
def langFromStrong (strong : Str) : Lang :=
  if (strong.map toUpperChar).take 1 = ['G'] then Lang.greek else Lang.hebrew

/-- Rendering of a `Lang` into the URL path component. -/
def langStr : Lang → Str
  | Lang.greek => str "greek"
  | Lang.hebrew => str "hebrew"

/-- The `strongsUrl` function: primary entry page for an id. -/
def strongsUrl (strong : Str) : Str :=
  str "https://biblehub.com/strongs/" ++ langStr (langFromStrong strong) ++
    ['/'] ++ strong.drop 1 ++ str ".htm"

/-- Shared tail of the two URL regexes in `normalizeSeedToStrong`:
`(greek|hebrew)\/(\d+)\.htm` (case-insensitive) matched against the text
following the host/path prefix.  `\d+` is a maximal digit run (it cannot
contain the following literal dot), and `.htm` must follow it at once.
Returns whether the Greek alternative matched and the numeric value. -/
def urlLangNum (t : Str) : Option (Bool × Nat) :=
  if ciIsPrefixOf (str "greek/") t then
    let t2 := t.drop 6
    let run := t2.takeWhile isDigitChar
    if run.length ≠ 0 ∧ ciIsPrefixOf (str ".htm") (t2.drop run.length) then
      some (true, digitsToNat run)
    else none
  else if ciIsPrefixOf (str "hebrew/") t then
    let t2 := t.drop 7
    let run := t2.takeWhile isDigitChar
    if run.length ≠ 0 ∧ ciIsPrefixOf (str ".htm") (t2.drop run.length) then
      some (false, digitsToNat run)
    else none
  else none

/-- Matcher for `/\b(\d{1,5})\b/` at one start position: a word boundary,
then a digit run that must be consumed whole (no interior boundary), of
length at most five, followed by a non-word character or the end.
Returns the captured digit string itself (the source feeds it to
`normalizeStrongId`, zeros included). -/
def bareNum5MatchAt (prev : Option Char) (t : Str) : Option Str :=
  match t with
  | [] => none
  | c :: _ =>
    if ¬ isDigitChar c then none
    else if (prev.map isWordChar).getD false then none
    else
      let run := t.takeWhile isDigitChar
      if run.length ≤ 5 ∧ ¬ ((t.drop run.length).head?.map isWordChar).getD false
      then some run else none

/-- The private `normalizeSeedToStrong` method of the plugin: try the
Strong's-page URL shape, then the language-page URL shape, then a bare
id via `normalizeStrongId`, then a bare 1–5 digit number assumed Greek. -/
def normalizeSeedToStrong (seed : Str) : Option Str :=
  let s := jsTrim seed
  match scanFirst
      (fun _ t => if ciIsPrefixOf (str "biblehub.com/strongs/") t
                  then urlLangNum (t.drop 21) else none) none s with
  | some gv => some ((if gv.1 then 'G' else 'H') :: natToDecimal gv.2)
  | none =>
  match scanFirst
      (fun _ t => if ciIsPrefixOf (str "biblehub.com/") t
                  then urlLangNum (t.drop 13) else none) none s with
  | some gv => some ((if gv.1 then 'G' else 'H') :: natToDecimal gv.2)
  | none =>
  match normalizeStrongId s none with
  | some id => some id
  | none =>
  match scanFirst bareNum5MatchAt none s with
  | some run => normalizeStrongId run (some Lang.greek)
  | none => none

/-- C9 (counterexample): the full-URL seed shape accepts an unbounded
digit run (`\d+`), but `normalizeStrongId` only re-parses ids with at
most five digits after the zeros.  So the accepted raw seed
`https://biblehub.com/strongs/greek/123456.htm` normalizes to `G123456`,
and normalizing that already-normalized id does not return it unchanged —
it fails entirely. -/
theorem normalizeSeed_not_idempotent :
    normalizeSeedToStrong (str "https://biblehub.com/strongs/greek/123456.htm") =
      some (str "G123456") ∧
    normalizeSeedToStrong (str "G123456") = none := by
  constructor <;> decide

/-!  Facts about decimal rendering and the character classes, used to
re-parse an already-normalized id. -/

theorem decDigit_spec (d : Nat) (h : d < 10) :
    digitVal (decDigit d) = d ∧ 48 ≤ (decDigit d).toNat ∧ (decDigit d).toNat ≤ 57 ∧
    (d ≠ 0 → decDigit d ≠ '0') := by
  interval_cases d <;> exact ⟨by decide, by decide, by decide, by decide⟩

theorem digitsToNat_append_single (l : Str) (c : Char) :
    digitsToNat (l ++ [c]) = digitsToNat l * 10 + digitVal c := by
  simp [digitsToNat, List.foldl_append]

theorem natToDecimalAux_zero (fuel : Nat) : natToDecimalAux fuel 0 = [] := by
  cases fuel <;> simp [natToDecimalAux]

theorem natToDecimalAux_spec :
    ∀ fuel n, n < fuel →
      digitsToNat (natToDecimalAux fuel n) = n ∧
      (∀ c ∈ natToDecimalAux fuel n, 48 ≤ c.toNat ∧ c.toNat ≤ 57) ∧
      (n ≠ 0 → natToDecimalAux fuel n ≠ [] ∧
        ∀ c, (natToDecimalAux fuel n).head? = some c → c ≠ '0') := by
  intro fuel
  induction fuel with
  | zero => intro n hn; omega
  | succ fuel ih =>
    intro n hn
    by_cases h0 : n = 0
    · subst h0
      simp [natToDecimalAux, digitsToNat]
    · have hrec : natToDecimalAux (fuel + 1) n =
          natToDecimalAux fuel (n / 10) ++ [decDigit (n % 10)] := by
        simp [natToDecimalAux, h0]
      have hdiv : n / 10 < fuel := by
        have := Nat.div_lt_self (Nat.pos_of_ne_zero h0) (by omega : 1 < 10)
        omega
      obtain ⟨ihv, ihc, ihh⟩ := ih (n / 10) hdiv
      have hd := decDigit_spec (n % 10) (Nat.mod_lt n (by omega))
      refine ⟨?_, ?_, ?_⟩
      · rw [hrec, digitsToNat_append_single, ihv, hd.1]
        omega
      · intro c hc
        rw [hrec] at hc
        rcases List.mem_append.mp hc with h | h
        · exact ihc c h
        · have hcd : c = decDigit (n % 10) := by simpa using h
          subst hcd
          exact ⟨hd.2.1, hd.2.2.1⟩
      · intro _
        constructor
        · rw [hrec]
          simp
        · intro c hc
          rw [hrec] at hc
          by_cases hq : n / 10 = 0
          · rw [hq, natToDecimalAux_zero] at hc
            simp at hc
            subst hc
            exact hd.2.2.2 (by omega)
          · obtain ⟨hne, hhd⟩ := ihh hq
            obtain ⟨a, as, ha⟩ := List.exists_cons_of_ne_nil hne
            rw [ha] at hc
            simp at hc
            subst hc
            exact hhd a (by rw [ha]; rfl)

theorem natToDecimal_spec (n : Nat) :
    digitsToNat (natToDecimal n) = n ∧
    (∀ c ∈ natToDecimal n, 48 ≤ c.toNat ∧ c.toNat ≤ 57) ∧
    natToDecimal n ≠ [] ∧
    (n ≠ 0 → ∀ c, (natToDecimal n).head? = some c → c ≠ '0') := by
  by_cases h0 : n = 0
  · subst h0
    exact ⟨by decide, by decide, by decide, by simp⟩
  · have h := natToDecimalAux_spec (n + 1) n (by omega)
    unfold natToDecimal
    rw [if_neg h0]
    exact ⟨h.1, h.2.1, (h.2.2 h0).1, fun _ => (h.2.2 h0).2⟩

theorem isDigitChar_of_range {c : Char} (h1 : 48 ≤ c.toNat) (h2 : c.toNat ≤ 57) :
    isDigitChar c = true := by
  simp only [isDigitChar, decide_eq_true_eq]
  omega

theorem isJsSpace_eq_false_of_digit {c : Char} (h1 : 48 ≤ c.toNat) (h2 : c.toNat ≤ 57) :
    isJsSpace c = false := by
  simp only [isJsSpace, decide_eq_false_iff_not]
  omega

theorem toLowerChar_digit_ne_b {c : Char} (h1 : 48 ≤ c.toNat) (h2 : c.toNat ≤ 57) :
    toLowerChar c ≠ 'b' := by
  have hself : toLowerChar c = c := by
    unfold toLowerChar
    rw [if_neg (by omega)]
  rw [hself]
  intro hc
  subst hc
  exact absurd h2 (by decide)

theorem dropWhile_eq_self_of_all {p : Char → Bool} {l : Str}
    (h : ∀ c ∈ l, p c = false) : l.dropWhile p = l := by
  cases l with
  | nil => rfl
  | cons a as => simp [List.dropWhile_cons, h a (List.mem_cons_self a as)]

theorem jsTrim_eq_self {l : Str} (h : ∀ c ∈ l, isJsSpace c = false) : jsTrim l = l := by
  have h1 : l.dropWhile isJsSpace = l := dropWhile_eq_self_of_all h
  have h2 : l.reverse.dropWhile isJsSpace = l.reverse :=
    dropWhile_eq_self_of_all (fun c hc => h c (List.mem_reverse.mp hc))
  simp [jsTrim, h1, h2]

theorem scanFirst_eq_none {α : Type} {f : Option Char → Str → Option α} :
    ∀ {l : Str} {pr : Option Char},
      (∀ pr' t, t <:+ l → f pr' t = none) → scanFirst f pr l = none := by
  intro l
  induction l with
  | nil => intro pr _; rfl
  | cons c rest ih =>
    intro pr h
    have hc : f pr (c :: rest) = none := h pr (c :: rest) (List.suffix_refl _)
    simp only [scanFirst, hc]
    exact ih (fun pr' t ht => h pr' t (ht.trans (List.suffix_cons c rest)))

theorem scanFirst_some {α : Type} {f : Option Char → Str → Option α} :
    ∀ {l : Str} {pr : Option Char} {a : α},
      scanFirst f pr l = some a → ∃ pr' t, f pr' t = some a := by
  intro l
  induction l with
  | nil => intro pr a h; exact absurd h (by simp [scanFirst])
  | cons c rest ih =>
    intro pr a h
    simp only [scanFirst] at h
    cases hf : f pr (c :: rest) with
    | some b =>
      rw [hf] at h
      simp at h
      subst h
      exact ⟨pr, c :: rest, hf⟩
    | none =>
      rw [hf] at h
      exact ih h

theorem ciIsPrefixOf_cons_head {p0 : Char} {prest : Str} {c : Char} {t : Str}
    (h : ciIsPrefixOf (p0 :: prest) (c :: t) = true) : toLowerChar c = p0 := by
  simp only [ciIsPrefixOf, List.length_cons, List.take_succ_cons, List.map_cons,
    decide_eq_true_eq, List.cons.injEq] at h
  exact h.1

theorem ciIsPrefixOf_nil_none {p0 : Char} {prest : Str} :
    ciIsPrefixOf (p0 :: prest) [] = false := by
  simp [ciIsPrefixOf]

/-- The two URL matchers of `normalizeSeedToStrong` cannot match anywhere
in a string none of whose characters lower-cases to `b`. -/
theorem scanFirst_ciguard_none {α : Type} (r0 : Str) (g : Str → Option α)
    {l : Str} (h : ∀ c ∈ l, toLowerChar c ≠ 'b') (pr : Option Char) :
    scanFirst (fun _ t => if ciIsPrefixOf ('b' :: r0) t then g t else none) pr l
      = none := by
  apply scanFirst_eq_none
  intro pr' t ht
  cases t with
  | nil => simp [ciIsPrefixOf_nil_none]
  | cons c rest =>
    have hcb : toLowerChar c ≠ 'b' := h c (ht.subset (List.mem_cons_self c rest))
    have hci : ciIsPrefixOf ('b' :: r0) (c :: rest) = false := by
      cases hcase : ciIsPrefixOf ('b' :: r0) (c :: rest) with
      | false => rfl
      | true => exact absurd (ciIsPrefixOf_cons_head hcase) hcb
    simp [hci]

/-- A digit string preceded by `G`/`H` at the very start matches the
`/\b([GH])\s*0*([0-9]{1,5})\b/i` scanner, provided at most five digits
remain after the absorbable zeros. -/
theorem strongIdMatchAt_id (p : Char) (hp : p = 'G' ∨ p = 'H') (D : Str)
    (hD : ∀ c ∈ D, 48 ≤ c.toNat ∧ c.toNat ≤ 57) (hne : D ≠ [])
    (hz : (D.takeWhile (fun d => d = '0')).length = D.length ∨
          D.length - (D.takeWhile (fun d => d = '0')).length ≤ 5) :
    strongIdMatchAt none (p :: D) = some (p, digitsToNat D) := by
  have hGH : p = 'G' ∨ p = 'g' ∨ p = 'H' ∨ p = 'h' := by
    rcases hp with h | h <;> subst h <;> tauto
  have hws : D.dropWhile isJsSpace = D :=
    dropWhile_eq_self_of_all
      (fun c hc => isJsSpace_eq_false_of_digit (hD c hc).1 (hD c hc).2)
  have hrun : D.takeWhile isDigitChar = D :=
    List.takeWhile_eq_self_iff.mpr
      (fun c hc => isDigitChar_of_range (hD c hc).1 (hD c hc).2)
  have hlen0 : ¬ D.length = 0 := by
    simpa [List.length_eq_zero] using hne
  simp only [strongIdMatchAt, hws, hrun, List.drop_length, List.head?_nil,
    Option.map_none', Option.getD_none]
  rw [if_neg (by decide : ¬ ((false : Bool) = true)), if_pos hGH, if_neg hlen0,
    if_neg (by decide : ¬ ((false : Bool) = true)), if_pos hz]

/-- Re-parsing an id shaped `G`/`H` followed by the decimal rendering of
`v` (at most five digits) succeeds and returns the id unchanged, for any
language hint. -/
theorem normalizeStrongId_renorm (p : Char) (hp : p = 'G' ∨ p = 'H') (v : Nat)
    (hlen : (natToDecimal v).length ≤ 5) (hint : Option Lang) :
    normalizeStrongId (p :: natToDecimal v) hint = some (p :: natToDecimal v) := by
  obtain ⟨hval, hchars, hne, hhd⟩ := natToDecimal_spec v
  have htrim : jsTrim (p :: natToDecimal v) = p :: natToDecimal v := by
    apply jsTrim_eq_self
    intro c hc
    rcases List.mem_cons.mp hc with h | h
    · subst h
      rcases hp with h | h <;> subst h <;> decide
    · exact isJsSpace_eq_false_of_digit (hchars c h).1 (hchars c h).2
  have hz : ((natToDecimal v).takeWhile (fun d => d = '0')).length =
        (natToDecimal v).length ∨
      (natToDecimal v).length -
        ((natToDecimal v).takeWhile (fun d => d = '0')).length ≤ 5 := by
    by_cases h0 : v = 0
    · subst h0
      left
      decide
    · right
      have htw : (natToDecimal v).takeWhile (fun d => d = '0') = [] := by
        cases hD : natToDecimal v with
        | nil => rfl
        | cons a as =>
          have ha : a ≠ '0' := hhd h0 a (by rw [hD]; rfl)
          simp [List.takeWhile_cons, ha]
      rw [htw]
      simpa using hlen
  have hmatch := strongIdMatchAt_id p hp (natToDecimal v) hchars hne hz
  have hscan : scanFirst strongIdMatchAt none (p :: natToDecimal v) =
      some (p, digitsToNat (natToDecimal v)) := by
    simp only [scanFirst, hmatch]
  have hup : toUpperChar p = p := by
    rcases hp with h | h <;> subst h <;> decide
  unfold normalizeStrongId
  rw [htrim]
  simp only [hscan, hup, hval]

/-- Every result the id scanner can produce carries a `G`/`H`-class
letter. -/
theorem strongIdMatchAt_letter {pr : Option Char} {t : Str} {c : Char} {v : Nat}
    (h : strongIdMatchAt pr t = some (c, v)) :
    toUpperChar c = 'G' ∨ toUpperChar c = 'H' := by
  cases t with
  | nil => exact absurd h (by simp [strongIdMatchAt])
  | cons c0 rest =>
    simp only [strongIdMatchAt] at h
    split_ifs at h with h1 h2 h3 h4 h5 <;> simp at h
    obtain ⟨hc, -⟩ := h
    subst hc
    rcases h2 with hg | hg | hg | hg <;> subst hg <;> decide

/-- Every successful output of `normalizeStrongId` has the shape of a
`G`/`H` letter followed by the decimal rendering of some value. -/
theorem normalizeStrongId_shape {raw : Str} {hint : Option Lang} {id : Str}
    (h : normalizeStrongId raw hint = some id) :
    ∃ p v, (p = 'G' ∨ p = 'H') ∧ id = p :: natToDecimal v := by
  unfold normalizeStrongId at h
  cases hs : scanFirst strongIdMatchAt none (jsTrim raw) with
  | some cv =>
    simp only [hs, Option.some.injEq] at h
    obtain ⟨pr', t, hmt⟩ := scanFirst_some hs
    have hmt' : strongIdMatchAt pr' t = some (cv.1, cv.2) := hmt
    exact ⟨toUpperChar cv.1, cv.2, strongIdMatchAt_letter hmt', h.symm⟩
  | none =>
    simp only [hs] at h
    cases hint with
    | none => exact absurd h (by simp)
    | some hi =>
      cases hb : scanFirst bareNumMatchAt none (jsTrim raw) with
      | none => rw [hb] at h; exact absurd h (by simp)
      | some v =>
        rw [hb] at h
        simp only [Option.some.injEq] at h
        cases hi with
        | greek => exact ⟨'G', v, Or.inl rfl, by simpa using h.symm⟩
        | hebrew => exact ⟨'H', v, Or.inr rfl, by simpa using h.symm⟩

/-- Every successful output of `normalizeSeedToStrong` has the shape of a
`G`/`H` letter followed by the decimal rendering of some value. -/
theorem normalizeSeedToStrong_shape {seed : Str} {id : Str}
    (h : normalizeSeedToStrong seed = some id) :
    ∃ p v, (p = 'G' ∨ p = 'H') ∧ id = p :: natToDecimal v := by
  unfold normalizeSeedToStrong at h
  cases hs1 : scanFirst
      (fun _ t => if ciIsPrefixOf (str "biblehub.com/strongs/") t
                  then urlLangNum (t.drop 21) else none) none (jsTrim seed) with
  | some gv =>
    simp only [hs1, Option.some.injEq] at h
    cases hg : gv.1 with
    | true => exact ⟨'G', gv.2, Or.inl rfl, by rw [← h, hg]; simp⟩
    | false => exact ⟨'H', gv.2, Or.inr rfl, by rw [← h, hg]; simp⟩
  | none =>
    simp only [hs1] at h
    cases hs2 : scanFirst
        (fun _ t => if ciIsPrefixOf (str "biblehub.com/") t
                    then urlLangNum (t.drop 13) else none) none (jsTrim seed) with
    | some gv =>
      rw [hs2] at h
      simp only [Option.some.injEq] at h
      cases hg : gv.1 with
      | true => exact ⟨'G', gv.2, Or.inl rfl, by rw [← h, hg]; simp⟩
      | false => exact ⟨'H', gv.2, Or.inr rfl, by rw [← h, hg]; simp⟩
    | none =>
      rw [hs2] at h
      cases hs3 : normalizeStrongId (jsTrim seed) none with
      | some id' =>
        rw [hs3] at h
        simp only [Option.some.injEq] at h
        subst h
        exact normalizeStrongId_shape hs3
      | none =>
        rw [hs3] at h
        cases hs4 : scanFirst bareNum5MatchAt none (jsTrim seed) with
        | some run =>
          rw [hs4] at h
          exact normalizeStrongId_shape h
        | none =>
          rw [hs4] at h
          exact absurd h (by simp)

/-- Re-normalizing an id of the shape produced by `normalizeSeedToStrong`
with at most five digits succeeds and returns the id unchanged. -/
theorem normalizeSeedToStrong_renorm (p : Char) (hp : p = 'G' ∨ p = 'H') (v : Nat)
    (hlen : (natToDecimal v).length ≤ 5) :
    normalizeSeedToStrong (p :: natToDecimal v) = some (p :: natToDecimal v) := by
  obtain ⟨hval, hchars, hne, hhd⟩ := natToDecimal_spec v
  have hnob : ∀ c ∈ p :: natToDecimal v, toLowerChar c ≠ 'b' := by
    intro c hc
    rcases List.mem_cons.mp hc with h | h
    · subst h
      rcases hp with h | h <;> subst h <;> decide
    · exact toLowerChar_digit_ne_b (hchars c h).1 (hchars c h).2
  have htrim : jsTrim (p :: natToDecimal v) = p :: natToDecimal v := by
    apply jsTrim_eq_self
    intro c hc
    rcases List.mem_cons.mp hc with h | h
    · subst h
      rcases hp with h | h <;> subst h <;> decide
    · exact isJsSpace_eq_false_of_digit (hchars c h).1 (hchars c h).2
  have h1 : scanFirst
      (fun _ t => if ciIsPrefixOf (str "biblehub.com/strongs/") t
                  then urlLangNum (t.drop 21) else none) none (p :: natToDecimal v)
      = none :=
    scanFirst_ciguard_none (str "iblehub.com/strongs/") _ hnob none
  have h2 : scanFirst
      (fun _ t => if ciIsPrefixOf (str "biblehub.com/") t
                  then urlLangNum (t.drop 13) else none) none (p :: natToDecimal v)
      = none :=
    scanFirst_ciguard_none (str "iblehub.com/") _ hnob none
  have h3 := normalizeStrongId_renorm p hp v hlen none
  unfold normalizeSeedToStrong
  rw [htrim]
  simp only [h1, h2, h3]

/-- C9 (amended): seed normalization is a pure (hence deterministic)
function of the raw seed, and it is idempotent on every normalized id of
up to five digits: if a raw seed normalizes to `id` and `id` has at most
six characters (the `G`/`H` letter plus at most five digits), then
normalizing `id` returns `id` unchanged.  The bound is forced by the
counterexample: a full source URL may carry a longer digit run, which
normalizes to an id that fails to re-normalize. -/
theorem normalizeSeed_idempotent (raw id : Str)
    (h : normalizeSeedToStrong raw = some id) (hlen : id.length ≤ 6) :
    normalizeSeedToStrong id = some id := by
  obtain ⟨p, v, hp, hid⟩ := normalizeSeedToStrong_shape h
  subst hid
  have hlen5 : (natToDecimal v).length ≤ 5 := by
    simpa using hlen
  exact normalizeSeedToStrong_renorm p hp v hlen5

/-- C9 (witness): normalizing the URL seed for G2198 yields `G2198`, and
the amended theorem applied to it shows re-normalization returns it
unchanged. -/
theorem normalizeSeed_idempotent_witness :
    normalizeSeedToStrong (str "G2198") = some (str "G2198") :=
  normalizeSeed_idempotent (str "https://biblehub.com/strongs/greek/2198.htm")
    (str "G2198") (by decide) (by decide)

/-!  Generic scanning helpers shared by the extractor model: literal
substring search, global literal replacement, global regex-style
replacement and match collection (all JavaScript `replace`/`matchAll`
operations scan the original text left to right and continue after each
match), and maximal character-class runs (`match` with `/[class]+/gu`). -/

/-- Index of the first occurrence of `needle` in a string, as
`String.prototype.indexOf` computes it. -/
def findSubIdx (needle : Str) : Str → Option Nat
  | [] => if needle = [] then some 0 else none
  | c :: rest =>
    if needle.isPrefixOf (c :: rest) then some 0
    else (findSubIdx needle rest).map (· + 1)

/-- Index of the first case-insensitive occurrence of `needle` (given
lower-case) in a string. -/
def findCISubIdx (needle : Str) : Str → Option Nat
  | [] => if needle = [] then some 0 else none
  | c :: rest =>
    if ciIsPrefixOf needle (c :: rest) then some 0
    else (findCISubIdx needle rest).map (· + 1)

/-- Global replacement of a literal substring (a `replace(/lit/g, repl)`
with no metacharacters).  Fueled: each step consumes at least one
character for the non-empty needles used here, so `length + 1` fuel is
never exhausted. -/
def replaceAllSubAux (needle repl : Str) : Nat → Str → Str
  | 0, s => s
  | fuel + 1, s =>
    match findSubIdx needle s with
    | none => s
    | some i =>
      s.take i ++ repl ++ replaceAllSubAux needle repl fuel (s.drop (i + needle.length))

/-- Global literal replacement. -/
def replaceAllSub (needle repl s : Str) : Str :=
  replaceAllSubAux needle repl (s.length + 1) s

/-- Global regex-style replacement: `matchAt` reports the match length
(always positive for the patterns used) and its replacement; on failure
scanning advances one character.  Fueled like `replaceAllSubAux`. -/
def regexReplaceAux (matchAt : Str → Option (Nat × Str)) : Nat → Str → Str
  | 0, s => s
  | _ + 1, [] => []
  | fuel + 1, c :: rest =>
    match matchAt (c :: rest) with
    | some lr => lr.2 ++ regexReplaceAux matchAt fuel ((c :: rest).drop lr.1)
    | none => c :: regexReplaceAux matchAt fuel rest

/-- Global regex-style replacement over a whole string. -/
def regexReplace (matchAt : Str → Option (Nat × Str)) (s : Str) : Str :=
  regexReplaceAux matchAt (s.length + 1) s

/-- Global match collection (`matchAll`): at each position try `matchAt`
(which also sees the previous character, for `\b`); on a match of length
`len` record its result and continue after it, otherwise advance one
character. -/
def matchAllAux {α : Type} (matchAt : Option Char → Str → Option (Nat × α)) :
    Nat → Option Char → Str → List α
  | 0, _, _ => []
  | _ + 1, _, [] => []
  | fuel + 1, prev, c :: rest =>
    match matchAt prev (c :: rest) with
    | some la =>
        la.2 :: matchAllAux matchAt fuel ((c :: rest).get? (la.1 - 1))
          ((c :: rest).drop la.1)
    | none => matchAllAux matchAt fuel (some c) rest

/-- Global match collection over a whole string. -/
def matchAll {α : Type} (matchAt : Option Char → Str → Option (Nat × α))
    (s : Str) : List α :=
  matchAllAux matchAt (s.length + 1) none s

/-- Order-preserving de-duplication: the effect of pouring a list into a
JavaScript `Set` and reading it back (`Array.from(new Set(out))`). -/
def dedupFirstAux (acc : List Str) : List Str → List Str
  | [] => []
  | x :: xs => if x ∈ acc then dedupFirstAux acc xs
               else x :: dedupFirstAux (x :: acc) xs

/-- First-occurrence de-duplication. -/
def dedupFirst (l : List Str) : List Str := dedupFirstAux [] l

/-- Maximal runs of characters satisfying `p` (the matches of
`/[class]+/gu`), accumulator-style; `cur` holds the current run
reversed. -/
def classRunsAux (p : Char → Bool) : Str → Str → List Str
  | cur, [] => if cur = [] then [] else [cur.reverse]
  | cur, c :: rest =>
    if p c then classRunsAux p (c :: cur) rest
    else if cur = [] then classRunsAux p [] rest
    else cur.reverse :: classRunsAux p [] rest

/-- All maximal non-empty runs of `p`-characters in a string, in order. -/
def classRuns (p : Char → Bool) (s : Str) : List Str := classRunsAux p [] s

/-!  Data model (types module): section keys, edge and link types,
scripture references, entries, recipes, crawl results. -/

/-- The fixed enumerated section keys. -/
inductive SectionKey where
  | lexical_summary
  | strongs_definition
  | helps
  | thayers
  | forms_transliterations
  | englishmans_concordance
  | concordance
  | topical_lexicon
deriving Repr, DecidableEq

/-- The canonical order of sections, as listed in the parser's block
literal and the writer's `sectionOrder`. -/
def sectionOrder : List SectionKey :=
  [SectionKey.lexical_summary, SectionKey.strongs_definition, SectionKey.helps,
   SectionKey.thayers, SectionKey.forms_transliterations,
   SectionKey.englishmans_concordance, SectionKey.concordance,
   SectionKey.topical_lexicon]

/-- The typed edge categories driving discovery. -/
inductive EdgeType where
  | see_also
  | related_strongs
  | topical
deriving Repr, DecidableEq

/-- The link-rendering categories. -/
inductive LinkType where
  | strongs
  | scripture
deriving Repr, DecidableEq

/-- The alias policy for lemma linking. -/
inductive LemmaAliasMode where
  | primary
  | all
deriving Repr, DecidableEq

/-- A verse reference (`ScriptureRef` in the types module). -/
structure ScriptureRef where
  slug : Str
  chapter : Nat
  verse : Nat
  display : Str
  interlinearUrl : Str
  nasbUrl : Str
deriving Repr, DecidableEq

/-- The four typed link sets of an entry. -/
structure LexiconLinks where
  see_also : List Str
  related_strongs : List Str
  topical : List Str
  scripture : List ScriptureRef
deriving Repr, DecidableEq

/-- One imported entry (`LexiconEntry`).  The optional `lemma` field is
named `lemma_` because `lemma` is a Lean keyword.  `blocks` is total over
the section keys: the parser assigns every key, coercing missing content
to the empty string. -/
structure LexiconEntry where
  strong : Str
  lang : Lang
  lemma_ : Option Str
  transliteration : Option Str
  pronunciation : Option Str
  phonetic : Option Str
  part_of_speech : Option Str
  source_primary : Str
  source_alt : List Str
  blocks : SectionKey → Str
  links : LexiconLinks

/-- The immutable per-run configuration (`Recipe`). -/
structure Recipe where
  id : Str
  includeSections : List SectionKey
  followEdges : List EdgeType
  linkTypes : List LinkType
  linkGreekHebrew : Bool
  lemmaAliasMode : LemmaAliasMode
  maxDepth : Nat
  maxNodes : Nat
  rateLimitMs : Int
  skipExisting : Bool
  rootFolder : Str
  scriptureRootFolder : Str
  noteTitlePattern : Str

/-- The aggregate result of one crawl (`CrawlResult`). -/
structure CrawlResult where
  created : Nat
  updated : Nat
  skipped : Nat
  errors : List (Str × Str)
deriving Repr, DecidableEq

/-!  Model of the extractor (`parser/common` and `parser/strongs` source
files). -/

/-- JavaScript regex `.`: any character except a line terminator. -/
def isDotChar (c : Char) : Bool :=
  decide (¬ (c.toNat = 10 ∨ c.toNat = 13 ∨ c.toNat = 8232 ∨ c.toNat = 8233))

/-- Matcher for a lazily delimited case-insensitive block such as
`<script[\s\S]*?<\/script>`: the opener at the current position, then the
nearest closer.  Both patterns are given lower-case.  Returns the total
match length. -/
def lazyBlockMatchAt (openPat closePat : Str) (t : Str) : Option (Nat × Str) :=
  if ciIsPrefixOf openPat t then
    match findCISubIdx closePat (t.drop openPat.length) with
    | some j => some (openPat.length + j + closePat.length, [])
    | none => none
  else none

/-- Matcher for `<br\s*\/?>` (case-insensitive) at one position. -/
def brMatchAt (t : Str) : Option (Nat × Str) :=
  if ciIsPrefixOf (str "<br") t then
    let rest := t.drop 3
    let ws := rest.takeWhile isJsSpace
    match rest.drop ws.length with
    | '/' :: '>' :: _ => some (3 + ws.length + 2, ['\n'])
    | '>' :: _ => some (3 + ws.length + 1, ['\n'])
    | _ => none
  else none

/-- Matcher for a case-insensitive literal, with a fixed replacement. -/
def ciLitMatchAt (pat repl : Str) (t : Str) : Option (Nat × Str) :=
  if ciIsPrefixOf pat t then some (pat.length, repl) else none

/-- Matcher for `<[^>]+>` at one position: a `<`, at least one non-`>`
character, then `>`. -/
def tagMatchAt (t : Str) : Option (Nat × Str) :=
  match t with
  | '<' :: rest =>
    let inner := rest.takeWhile (fun c => decide (c ≠ '>'))
    if inner.length ≠ 0 ∧ (rest.drop inner.length).head? = some '>' then
      some (inner.length + 2, [])
    else none
  | _ => none

/-- Matcher for `[ \t]+\n` at one position. -/
def wsNlMatchAt (t : Str) : Option (Nat × Str) :=
  let run := t.takeWhile (fun c => decide (c.toNat = 32 ∨ c.toNat = 9))
  if run.length ≠ 0 ∧ (t.drop run.length).head? = some '\n' then
    some (run.length + 1, ['\n'])
  else none

/-- Matcher for `\n{3,}` at one position. -/
def nl3MatchAt (t : Str) : Option (Nat × Str) :=
  let run := t.takeWhile (fun c => decide (c = '\n'))
  if 3 ≤ run.length then some (run.length, ['\n', '\n']) else none

/-- The `htmlToText` function: strip script/style blocks, turn `<br>`,
`</p>`, `</div>` into newlines, strip remaining tags, decode the four
entities, drop carriage returns, collapse trailing blanks and triple
newlines, and trim. -/
def htmlToText (html : Str) : Str :=
  jsTrim <|
  regexReplace nl3MatchAt <|
  regexReplace wsNlMatchAt <|
  replaceAllSub (str "\r") [] <|
  replaceAllSub (str "&#39;") (str "'") <|
  replaceAllSub (str "&quot;") (str "\"") <|
  replaceAllSub (str "&amp;") (str "&") <|
  replaceAllSub (str "&nbsp;") (str " ") <|
  regexReplace tagMatchAt <|
  regexReplace (ciLitMatchAt (str "</div>") ['\n']) <|
  regexReplace (ciLitMatchAt (str "</p>") ['\n']) <|
  regexReplace brMatchAt <|
  regexReplace (lazyBlockMatchAt (str "<style") (str "</style>")) <|
  regexReplace (lazyBlockMatchAt (str "<script") (str "</script>")) html

/-- Matcher for ``` `${label}\s*:\s*(.+)` ``` (case-insensitive) at one
position; `lowLabel` is the label lower-cased.  The first `\s*` is
deterministic (a colon is not white space).  For the second, the greedy
run is tried first; if no `.`-character follows it, backtracking lets
`(.+)` start inside the white-space run instead, capturing only white
space, which trims to the empty string. -/
def pickLabelMatchAt (lowLabel : Str) (t : Str) : Option Str :=
  if ciIsPrefixOf lowLabel t then
    let rest := t.drop lowLabel.length
    let ws1 := rest.takeWhile isJsSpace
    match rest.drop ws1.length with
    | ':' :: r2 =>
      let ws2 := r2.takeWhile isJsSpace
      let r3 := r2.drop ws2.length
      if (r3.head?.map isDotChar).getD false then
        some (jsTrim (r3.takeWhile isDotChar))
      else if ws2.any isDotChar then some []
      else none
    | _ => none
  else none

/-- The `pickLabel` function: first match of the label pattern, its
capture trimmed; `undefined` (here `none`) when the pattern never
matches. -/
def pickLabel (text label : Str) : Option Str :=
  scanFirst (fun _ t => pickLabelMatchAt (label.map toLowerChar) t) none text

/-- Matcher for `/\bSee\s+([0-9]{1,5})\b/g` at one position (the `See` is
case-sensitive).  Returns the match length and the captured digit
string. -/
def seeRefMatchAt (prev : Option Char) (t : Str) : Option (Nat × Str) :=
  if (prev.map isWordChar).getD false then none
  else if (str "See").isPrefixOf t then
    let rest := t.drop 3
    let ws := rest.takeWhile isJsSpace
    if ws.length = 0 then none
    else
      let r2 := rest.drop ws.length
      let run := r2.takeWhile isDigitChar
      if 1 ≤ run.length ∧ run.length ≤ 5 ∧
          ¬ ((r2.drop run.length).head?.map isWordChar).getD false then
        some (3 + ws.length + run.length, run)
      else none
  else none

/-- Matcher for `/\b(?:STRONGS?\s*(?:NT|OT)?\s*)?([0-9]{1,5})\b/gi` at one
position.  The optional prefix is tried greedily; when its inner parts
fail, the bare-number alternative at the same start can only succeed if
the position starts with a digit, which the prefix path excludes, so the
two paths are disjoint. -/
def strongRefMatchAt (prev : Option Char) (t : Str) : Option (Nat × Str) :=
  if (prev.map isWordChar).getD false then none
  else if ciIsPrefixOf (str "strong") t then
    let t1 := t.drop 6
    let sLen := if (t1.head?.map toLowerChar) = some 's' then 1 else 0
    let t2 := t1.drop sLen
    let ws1 := t2.takeWhile isJsSpace
    let t3 := t2.drop ws1.length
    let ntLen := if ciIsPrefixOf (str "nt") t3 ∨ ciIsPrefixOf (str "ot") t3
                 then 2 else 0
    let t4 := t3.drop ntLen
    let ws2 := t4.takeWhile isJsSpace
    let t5 := t4.drop ws2.length
    let run := t5.takeWhile isDigitChar
    if 1 ≤ run.length ∧ run.length ≤ 5 ∧
        ¬ ((t5.drop run.length).head?.map isWordChar).getD false then
      some (6 + sLen + ws1.length + ntLen + ws2.length + run.length, run)
    else none
  else
    let run := t.takeWhile isDigitChar
    if 1 ≤ run.length ∧ run.length ≤ 5 ∧
        ¬ ((t.drop run.length).head?.map isWordChar).getD false then
      some (run.length, run)
    else none

/-- The `slugToBookName` function (scripture module): split the slug on
underscores and capitalize each word's first character. -/
def capitalizeWord : Str → Str
  | [] => []
  | c :: rest => toUpperChar c :: rest

/-- Book display name from a slug. -/
def slugToBookName (slug : Str) : Str :=
  List.intercalate [' '] ((slug.splitOn '_').map capitalizeWord)

/-- The `makeScriptureRefFromSlug` function: display string and the two
derived external URLs for a verse. -/
def makeScriptureRefFromSlug (slug : Str) (chapter verse : Nat) : ScriptureRef :=
  let book := slugToBookName slug
  { slug := slug, chapter := chapter, verse := verse,
    display := book ++ [' '] ++ natToDecimal chapter ++ [':'] ++ natToDecimal verse,
    interlinearUrl := str "https://biblehub.com/interlinear/" ++ slug ++ ['/'] ++
      natToDecimal chapter ++ ['-'] ++ natToDecimal verse ++ str ".htm",
    nasbUrl := str "https://biblehub.com/nasb/" ++ slug ++ ['/'] ++
      natToDecimal chapter ++ ['-'] ++ natToDecimal verse ++ str ".htm" }

/-- Matcher for the interlinear-link pattern
`(?:https?:\/\/biblehub\.com)?\/interlinear\/([a-z0-9_]+)\/(\d+)-(\d+)\.htm`
(case-insensitive) at one position.  The optional protocol prefix is
greedy; when it is absent the path must start at the position itself.
`[a-z0-9_]` with the `i` flag is exactly the word-character class.
Returns the match length, the slug, and the two numeric captures. -/
def interlinearMatchAt (t : Str) : Option (Nat × (Str × Nat × Nat)) :=
  let pLen := if ciIsPrefixOf (str "https://biblehub.com") t then 20
              else if ciIsPrefixOf (str "http://biblehub.com") t then 19
              else 0
  let t1 := t.drop pLen
  if ciIsPrefixOf (str "/interlinear/") t1 then
    let t2 := t1.drop 13
    let slug := t2.takeWhile isWordChar
    if slug.length = 0 then none
    else
      match t2.drop slug.length with
      | '/' :: t4 =>
        let ch := t4.takeWhile isDigitChar
        if ch.length = 0 then none
        else
          match t4.drop ch.length with
          | '-' :: t6 =>
            let vs := t6.takeWhile isDigitChar
            if vs.length ≠ 0 ∧ ciIsPrefixOf (str ".htm") (t6.drop vs.length) then
              some (pLen + 13 + slug.length + 1 + ch.length + 1 + vs.length + 4,
                    (slug, digitsToNat ch, digitsToNat vs))
            else none
          | _ => none
      | _ => none
  else none

/-- The de-duplicating collection loop of `extractScriptureRefsFromHtml`:
the `seen` set holds the `(slug, chapter, verse)` keys already taken. -/
def scriptureDedupAux (seen : List (Str × Nat × Nat)) :
    List (Str × Nat × Nat) → List ScriptureRef
  | [] => []
  | (slug, ch, vs) :: rest =>
    if (slug, ch, vs) ∈ seen then scriptureDedupAux seen rest
    else makeScriptureRefFromSlug slug ch vs ::
      scriptureDedupAux ((slug, ch, vs) :: seen) rest

/-- The `extractScriptureRefsFromHtml` function: scan the raw HTML for
interlinear links, dedupe by `(slug, chapter, verse)`, build refs. -/
def extractScriptureRefsFromHtml (html : Str) : List ScriptureRef :=
  scriptureDedupAux [] (matchAll (fun _ t => interlinearMatchAt t) html)

/-- The `extractSectionApprox` function: locate the header substring
case-insensitively and slice `maxChars` characters from it, trimmed;
empty when the header is absent. -/
def extractSectionApprox (text header : Str) (maxChars : Nat) : Str :=
  match findSubIdx (header.map toLowerChar) (text.map toLowerChar) with
  | none => []
  | some idx => jsTrim ((text.drop idx).take maxChars)

/-- The `\b\w`-uppercasing scan of `human`: a word character at a word
boundary is upper-cased; boundaries are judged on the original text. -/
def humanAux : Option Char → Str → Str
  | _, [] => []
  | prev, c :: rest =>
    (if isWordChar c ∧ ¬ (prev.map isWordChar).getD false then toUpperChar c
     else c) :: humanAux (some c) rest

/-- The `human` function: underscores to spaces, then capitalize at word
boundaries. -/
def human (k : Str) : Str :=
  humanAux none (k.map fun c => if c = '_' then ' ' else c)

/-- The `buildLexicalSummaryBlock` function: one bullet line per present,
non-empty field, in the object-literal order of the call site. -/
def buildLexicalSummaryBlock (fields : List (Str × Option Str)) : Str :=
  List.intercalate ['\n'] (fields.filterMap fun kv =>
    match kv.2 with
    | none => none
    | some v => if v = [] then none
                else some (str "- **" ++ human kv.1 ++ str ":** " ++ v))

/-- The `extractStrongRefs` function: collect Strong's-style numeric
citations from a block and normalize them against the entry language. -/
def extractStrongRefs (text : Str) (lang : Lang) : List Str :=
  if text = [] then []
  else (matchAll strongRefMatchAt text).filterMap
    (fun run => normalizeStrongId run (some lang))

/-!  The `parseStrongsPage` function (`parseEntryFromStrongsPage` merely
forwards to it) is split along the source's own named locals: the
`blocks` object (with its `if (!blocks[k]) blocks[k] = ""` fix-up loop,
so every key is assigned and missing content degrades to the empty
string), the `related` accumulation, and the assembled entry.  `See ####`
references and block-level Strong's citations are normalized against the
entry's own language; scripture refs come from the raw HTML. -/

/-- The JavaScript `||` fallback on strings: an empty first section is
falsy, so the second one is taken. -/
def orElseStr (a b : Str) : Str :=
  if a = [] then b else a

/-- The `definition ?? ""` degrade of the `strongs_definition` block: an
absent label becomes the empty string. -/
def definitionBlock : Option Str → Str
  | some d => d
  | none => []

/-- The per-key section builder of `parseStrongsPage`: labeled summary
lines, the definition block, and the approximate section windows. -/
def strongsPageBlocks (html : Str) : SectionKey → Str
  | SectionKey.lexical_summary => buildLexicalSummaryBlock
      [(str "lemma", pickLabel (htmlToText html) (str "Original Word")),
       (str "transliteration", pickLabel (htmlToText html) (str "Transliteration")),
       (str "pronunciation", pickLabel (htmlToText html) (str "Pronunciation")),
       (str "phonetic", pickLabel (htmlToText html) (str "Phonetic Spelling")),
       (str "part_of_speech", pickLabel (htmlToText html) (str "Part of Speech")),
       (str "definition", pickLabel (htmlToText html) (str "Definition"))]
  | SectionKey.strongs_definition =>
      definitionBlock (pickLabel (htmlToText html) (str "Definition"))
  | SectionKey.helps =>
      extractSectionApprox (htmlToText html) (str "HELPS Word-studies") 2000
  | SectionKey.thayers =>
      extractSectionApprox (htmlToText html) (str "Thayer's Greek Lexicon") 3000
  | SectionKey.forms_transliterations =>
      orElseStr (extractSectionApprox (htmlToText html) (str "Forms of") 1200)
        (extractSectionApprox (htmlToText html) (str "Forms & Transliterations") 1200)
  | SectionKey.englishmans_concordance =>
      extractSectionApprox (htmlToText html) (str "Englishman's Concordance") 3000
  | SectionKey.concordance =>
      extractSectionApprox (htmlToText html) (str "Concordance") 2000
  | SectionKey.topical_lexicon =>
      extractSectionApprox (htmlToText html) (str "Topical Lexicon") 2000

/-- The `related` accumulation of `parseStrongsPage`: block-level
Strong's citations of the helps, Thayer's and definition sections,
de-duplicated, the entry's own id filtered out. -/
def strongsPageRelated (strong html : Str) : List Str :=
  let lang := langFromStrong strong
  (dedupFirst
      (extractStrongRefs (strongsPageBlocks html SectionKey.helps) lang ++
       extractStrongRefs (strongsPageBlocks html SectionKey.thayers) lang ++
       extractStrongRefs (strongsPageBlocks html SectionKey.strongs_definition) lang)).filter
    (fun id => decide (id ≠ strong))

/-- The assembled entry of `parseStrongsPage`: labeled fields are picked
from the plain text, sections and related ids come from the block
builder above, scripture refs from the raw HTML. -/
def parseStrongsPage (strong url html : Str) : LexiconEntry :=
  let lang := langFromStrong strong
  let text := htmlToText html
  { strong := strong, lang := lang,
    lemma_ := pickLabel text (str "Original Word"),
    transliteration := pickLabel text (str "Transliteration"),
    pronunciation := pickLabel text (str "Pronunciation"),
    phonetic := pickLabel text (str "Phonetic Spelling"),
    part_of_speech := pickLabel text (str "Part of Speech"),
    source_primary := url, source_alt := [],
    blocks := strongsPageBlocks html,
    links := { see_also := dedupFirst ((matchAll seeRefMatchAt text).filterMap
                 (fun run => normalizeStrongId run (some lang))),
               related_strongs := strongsPageRelated strong html,
               topical := [], scripture := extractScriptureRefsFromHtml html } }

/-- The `parseEntryFromStrongsPage` wrapper of the parser module. -/
def parseEntryFromStrongsPage (strong url html : Str) : LexiconEntry :=
  parseStrongsPage strong url html

/-!  Model of the crawler (crawler source file).  The collaborators that
live outside the core — the vault store, the network, the writer — are
oracles supplied per id: `parseEntryFromStrongsPage` is pure and runs
in-model, while the outcome of the vault-touching steps (existing-file
probe, fetch, alias upkeep of `applyLemmaLinks`, `writer.upsert`,
`ensureScriptureNote`) is given by a `NodeWorld`.  The run is
instrumented with the traces the claims speak about: the ids the fetcher
was invoked for, the ids that reached a terminal outcome, and every
queue item ever enqueued. -/

/-- Unicode `\p{Script=Greek}`, modelled by the Greek and Greek-Extended
blocks.  A handful of Common/Coptic/unassigned code points inside these
blocks (U+0374, U+037E, U+0385, U+0387, U+03E2–U+03EF, and the unassigned
gaps of U+1F00–U+1FFF) are conflated into the class; none of them occurs
in the inputs considered. -/
def isGreekChar (c : Char) : Bool :=
  decide ((0x370 ≤ c.toNat ∧ c.toNat ≤ 0x3FF) ∨ (0x1F00 ≤ c.toNat ∧ c.toNat ≤ 0x1FFF))

/-- Unicode `\p{Script=Hebrew}`, modelled by the Hebrew block and the
Hebrew presentation forms (again up to unassigned gaps). -/
def isHebrewChar (c : Char) : Bool :=
  decide ((0x591 ≤ c.toNat ∧ c.toNat ≤ 0x5F4) ∨ (0xFB1D ≤ c.toNat ∧ c.toNat ≤ 0xFB4F))

/-- The `extractGreekHebrewTokens` function: all maximal Greek-script
runs, then all maximal Hebrew-script runs, of length at least two,
de-duplicated — the entry's own language plays no part. -/
def extractGreekHebrewTokens (text : Str) : List Str :=
  dedupFirst ((classRuns isGreekChar text ++ classRuns isHebrewChar text).filter
    (fun t => decide (2 ≤ t.length)))

/-- The `replaceTokenWithLink` function: the token is regex-escaped, so
the global replace is a literal one. -/
def replaceTokenWithLink (text token link : Str) : Str :=
  replaceAllSub token link text

/-- Lookup in a `Map<string, string>` modelled as an association list
with the newest binding first. -/
def lookupIndex (idx : List (Str × Str)) (k : Str) : Option Str :=
  match idx with
  | [] => none
  | (a, b) :: rest => if a = k then some b else lookupIndex rest k

/-- The block-rewriting loop of `applyLemmaLinks`: for each extracted
token that resolves in the lemma index, rewrite its occurrences in every
non-empty block into a `[[token]]` wiki link. -/
def applyLemmaLinksBlocksAux (idx : List (Str × Str)) :
    List Str → (SectionKey → Str) → SectionKey → Str
  | [], blocks => blocks
  | tok :: rest, blocks =>
    match lookupIndex idx tok with
    | none => applyLemmaLinksBlocksAux idx rest blocks
    | some _ => applyLemmaLinksBlocksAux idx rest
        (fun k => if blocks k = [] then blocks k
                  else replaceTokenWithLink (blocks k) tok (str "[[" ++ tok ++ str "]]"))

/-- The pure part of `applyLemmaLinks`: tokens are extracted from the
blocks joined in key order (`Object.values(blocks).join("\n")`), and the
resolved ones are linkified; the alias-note side effects are oracled in
the crawl model. -/
def applyLemmaLinksBlocks (blocks : SectionKey → Str) (idx : List (Str × Str)) :
    SectionKey → Str :=
  applyLemmaLinksBlocksAux idx
    (extractGreekHebrewTokens (List.intercalate ['\n'] (sectionOrder.map blocks)))
    blocks

/-- The `nextNodes` function: per followed edge type, the entry's
corresponding link set, concatenated in edge order, de-duplicated. -/
def nextNodes (entry : LexiconEntry) (edgeTypes : List EdgeType) : List Str :=
  dedupFirst (edgeTypes.map (fun et =>
    match et with
    | EdgeType.see_also => entry.links.see_also
    | EdgeType.related_strongs => entry.links.related_strongs
    | EdgeType.topical => entry.links.topical)).flatten

/-- Oracle for the effectful collaborators, per id: whether an existing
document is found for the id, the outcome of the page fetch, and the
outcomes of the alias upkeep, the upsert (with its created flag), and the
scripture-note loop. -/
structure NodeWorld where
  existsFile : Str → Bool
  fetch : Str → Except Str Str
  lemmaLinks : Str → Except Str Unit
  upsert : Str → Except Str Bool
  scripture : Str → Except Str Unit

/-- The mutable state of one `Crawler.run`, plus instrumentation traces
(fetched ids, ids reaching a terminal outcome, every item ever
enqueued — the seed included). -/
structure RunState where
  queue : List (Str × Nat)
  seen : List Str
  lemmaIndex : List (Str × Str)
  res : CrawlResult
  fetched : List Str
  terminals : List Str
  enqueued : List (Str × Nat)

/-- The `while` loop of `Crawler.run`, one iteration per recursive call:
check the budget, dequeue, discard already-visited ids, skip existing
documents when configured, otherwise fetch → parse → index lemma →
lemma-link → upsert → scripture notes → enqueue surviving edges at
`depth + 1`; any failure in the guarded steps is recorded as
`(id, message)` and the loop continues. -/
def runLoop (w : NodeWorld) (recipe : Recipe) (processed : Nat) (st : RunState) :
    RunState :=
  match hq : st.queue with
  | [] => st
  | (strong, depth) :: qrest =>
    if hp : processed < recipe.maxNodes then
      if strong ∈ st.seen then
        runLoop w recipe processed { st with queue := qrest }
      else
        let seen' := strong :: st.seen
        if w.existsFile strong && recipe.skipExisting then
          runLoop w recipe (processed + 1)
            { st with
              queue := qrest, seen := seen',
              res := { st.res with skipped := st.res.skipped + 1 },
              terminals := st.terminals ++ [strong] }
        else
          match w.fetch strong with
          | Except.error e =>
            runLoop w recipe (processed + 1)
              { st with
                queue := qrest, seen := seen',
                res := { st.res with errors := st.res.errors ++ [(strong, e)] },
                fetched := st.fetched ++ [strong],
                terminals := st.terminals ++ [strong] }
          | Except.ok html =>
            let entry := parseEntryFromStrongsPage strong (strongsUrl strong) html
            let li := match entry.lemma_ with
              | some l => (l, strong) :: st.lemmaIndex
              | none => st.lemmaIndex
            match (if recipe.linkGreekHebrew then w.lemmaLinks strong
                   else Except.ok ()) with
            | Except.error e =>
              runLoop w recipe (processed + 1)
                { st with
                  queue := qrest, seen := seen', lemmaIndex := li,
                  res := { st.res with errors := st.res.errors ++ [(strong, e)] },
                  fetched := st.fetched ++ [strong],
                  terminals := st.terminals ++ [strong] }
            | Except.ok _ =>
              match w.upsert strong with
              | Except.error e =>
                runLoop w recipe (processed + 1)
                  { st with
                    queue := qrest, seen := seen', lemmaIndex := li,
                    res := { st.res with errors := st.res.errors ++ [(strong, e)] },
                    fetched := st.fetched ++ [strong],
                    terminals := st.terminals ++ [strong] }
              | Except.ok created =>
                let res1 := if created
                  then { st.res with created := st.res.created + 1 }
                  else { st.res with updated := st.res.updated + 1 }
                match (if LinkType.scripture ∈ recipe.linkTypes ∧
                         entry.links.scripture ≠ [] then w.scripture strong
                       else Except.ok ()) with
                | Except.error e =>
                  runLoop w recipe (processed + 1)
                    { st with
                      queue := qrest, seen := seen', lemmaIndex := li,
                      res := { res1 with errors := res1.errors ++ [(strong, e)] },
                      fetched := st.fetched ++ [strong],
                      terminals := st.terminals ++ [strong] }
                | Except.ok _ =>
                  let newItems := (if depth < recipe.maxDepth
                    then (nextNodes entry recipe.followEdges).filter
                      (fun n => decide (n ∉ seen'))
                    else []).map (fun n => (n, depth + 1))
                  runLoop w recipe (processed + 1)
                    { st with
                      queue := qrest ++ newItems, seen := seen',
                      lemmaIndex := li, res := res1,
                      fetched := st.fetched ++ [strong],
                      terminals := st.terminals ++ [strong],
                      enqueued := st.enqueued ++ newItems }
    else st
termination_by (recipe.maxNodes - processed, st.queue.length)
decreasing_by
  all_goals simp_wf
  · apply Prod.Lex.right
    simp [hq]
  all_goals
    apply Prod.Lex.left
    omega

/-- The `Crawler.run` entry point: the lemma index freshly built from the
vault is the `initIndex` oracle input; the seed enters the queue (and the
enqueued trace) at depth 0.  (`fetcher.setRateLimit` and the
`renameOnUpdate` flag only affect oracled collaborators.) -/
def crawlerRun (w : NodeWorld) (rootStrong : Str) (recipe : Recipe)
    (initIndex : List (Str × Str)) : RunState :=
  runLoop w recipe 0
    { queue := [(rootStrong, 0)], seen := [], lemmaIndex := initIndex,
      res := { created := 0, updated := 0, skipped := 0, errors := [] },
      fetched := [], terminals := [], enqueued := [(rootStrong, 0)] }

/-- The error message the try block of one node produces, if any: the
first failing stage among fetch, lemma linking (when enabled), upsert,
and the scripture-note loop (when enabled and refs exist). -/
def nodeError (w : NodeWorld) (recipe : Recipe) (strong : Str) : Option Str :=
  match w.fetch strong with
  | Except.error e => some e
  | Except.ok html =>
    match (if recipe.linkGreekHebrew then w.lemmaLinks strong else Except.ok ()) with
    | Except.error e => some e
    | Except.ok _ =>
      match w.upsert strong with
      | Except.error e => some e
      | Except.ok _ =>
        let entry := parseEntryFromStrongsPage strong (strongsUrl strong) html
        match (if LinkType.scripture ∈ recipe.linkTypes ∧
                 entry.links.scripture ≠ [] then w.scripture strong
               else Except.ok ()) with
        | Except.error e => some e
        | Except.ok _ => none

/-- Whether a node takes the skip-existing path (and hence never reaches
the guarded steps). -/
def nodeSkips (w : NodeWorld) (recipe : Recipe) (strong : Str) : Bool :=
  w.existsFile strong && recipe.skipExisting

/-- The error entries an ordered list of terminal ids contributes to the
result: one `(id, message)` per non-skipped id whose pipeline fails. -/
def errsOf (w : NodeWorld) (recipe : Recipe) (ids : List Str) : List (Str × Str) :=
  ids.filterMap (fun id =>
    if nodeSkips w recipe id then none
    else (nodeError w recipe id).map (fun e => (id, e)))

/-- The loop invariant of `Crawler.run`: the fetch trace is duplicate-free
and within the visited set; one terminal id per processed node; the error
list is exactly the contribution of the terminals so far; every enqueued
item respects the depth ceiling; the processed count respects the node
ceiling. -/
def RunInv (w : NodeWorld) (recipe : Recipe) (processed : Nat) (st : RunState) :
    Prop :=
  st.fetched.Nodup ∧
  (∀ id ∈ st.fetched, id ∈ st.seen) ∧
  st.terminals.length = processed ∧
  st.res.errors = errsOf w recipe st.terminals ∧
  (∀ p ∈ st.enqueued, p.2 ≤ recipe.maxDepth) ∧
  processed ≤ recipe.maxNodes

theorem errsOf_append (w : NodeWorld) (recipe : Recipe) (a b : List Str) :
    errsOf w recipe (a ++ b) = errsOf w recipe a ++ errsOf w recipe b := by
  simp [errsOf, List.filterMap_append]

/-- One terminal step preserves the invariant, given the new error list
and enqueued trace are right. -/
theorem RunInv_step (w : NodeWorld) (recipe : Recipe) {processed : Nat}
    {st : RunState} (strong : Str) (qnew : List (Str × Nat))
    (li : List (Str × Str)) (resNew : CrawlResult) (enqNew : List (Str × Nat))
    (fetchedNew : List Str)
    (hinv : RunInv w recipe processed st) (hp : processed < recipe.maxNodes)
    (hseen : strong ∉ st.seen)
    (hfetched : fetchedNew = st.fetched ∨ fetchedNew = st.fetched ++ [strong])
    (herr : resNew.errors = errsOf w recipe (st.terminals ++ [strong]))
    (henq : ∀ p ∈ enqNew, p.2 ≤ recipe.maxDepth) :
    RunInv w recipe (processed + 1)
      { queue := qnew, seen := strong :: st.seen, lemmaIndex := li,
        res := resNew, fetched := fetchedNew,
        terminals := st.terminals ++ [strong], enqueued := enqNew } := by
  obtain ⟨hnd, hsub, hlen, _, _, hpm⟩ := hinv
  have hnotin : strong ∉ st.fetched := fun hmem => hseen (hsub strong hmem)
  refine ⟨?_, ?_, ?_, herr, henq, by omega⟩
  · rcases hfetched with h | h <;> subst h
    · exact hnd
    · simp [List.nodup_append, hnd, hnotin]
  · intro id hid
    rcases hfetched with h | h <;> subst h
    · exact List.mem_cons_of_mem _ (hsub id hid)
    · rcases List.mem_append.mp hid with h' | h'
      · exact List.mem_cons_of_mem _ (hsub id h')
      · simp at h'
        subst h'
        exact List.mem_cons_self _ _
  · simp [hlen]

/-- The lemma-index update of one successful fetch. -/
@[reducible] def liUpdate (st : RunState) (strong html : Str) : List (Str × Str) :=
  match (parseEntryFromStrongsPage strong (strongsUrl strong) html).lemma_ with
  | some l => (l, strong) :: st.lemmaIndex
  | none => st.lemmaIndex

/-- The items a successful node enqueues. -/
@[reducible] def newItemsOf (recipe : Recipe) (st : RunState)
    (strong html : Str) (depth : Nat) : List (Str × Nat) :=
  (if depth < recipe.maxDepth then
    (nextNodes (parseEntryFromStrongsPage strong (strongsUrl strong) html)
      recipe.followEdges).filter (fun n => decide (n ∉ strong :: st.seen))
   else []).map (fun n => (n, depth + 1))

section RunLoopEqs

variable {w : NodeWorld} {recipe : Recipe} {processed : Nat} {st : RunState}
variable {strong : Str} {depth : Nat} {qrest : List (Str × Nat)}

theorem runLoop_nil (hq : st.queue = []) :
    runLoop w recipe processed st = st := by
  rw [runLoop, hq]

theorem runLoop_budget (hq : st.queue = (strong, depth) :: qrest)
    (hp : ¬ processed < recipe.maxNodes) :
    runLoop w recipe processed st = st := by
  rw [runLoop, hq]
  simp [hp]

theorem runLoop_seen (hq : st.queue = (strong, depth) :: qrest)
    (hp : processed < recipe.maxNodes) (hseen : strong ∈ st.seen) :
    runLoop w recipe processed st =
      runLoop w recipe processed { st with queue := qrest } := by
  rw [runLoop, hq]
  simp only [dif_pos hp, if_pos hseen]

theorem runLoop_skip (hq : st.queue = (strong, depth) :: qrest)
    (hp : processed < recipe.maxNodes) (hseen : strong ∉ st.seen)
    (hskip : (w.existsFile strong && recipe.skipExisting) = true) :
    runLoop w recipe processed st =
      runLoop w recipe (processed + 1)
        { st with
          queue := qrest, seen := strong :: st.seen,
          res := { st.res with skipped := st.res.skipped + 1 },
          terminals := st.terminals ++ [strong] } := by
  rw [runLoop, hq]
  simp only [dif_pos hp, if_neg hseen, if_pos hskip]

theorem runLoop_fetch_err (hq : st.queue = (strong, depth) :: qrest)
    (hp : processed < recipe.maxNodes) (hseen : strong ∉ st.seen)
    (hskip : ¬ (w.existsFile strong && recipe.skipExisting) = true)
    {e : Str} (hf : w.fetch strong = Except.error e) :
    runLoop w recipe processed st =
      runLoop w recipe (processed + 1)
        { st with
          queue := qrest, seen := strong :: st.seen,
          res := { st.res with errors := st.res.errors ++ [(strong, e)] },
          fetched := st.fetched ++ [strong],
          terminals := st.terminals ++ [strong] } := by
  rw [runLoop, hq]
  simp only [dif_pos hp, if_neg hseen, if_neg hskip, hf]

theorem runLoop_lemma_err (hq : st.queue = (strong, depth) :: qrest)
    (hp : processed < recipe.maxNodes) (hseen : strong ∉ st.seen)
    (hskip : ¬ (w.existsFile strong && recipe.skipExisting) = true)
    {html e : Str} (hf : w.fetch strong = Except.ok html)
    (hll : (if recipe.linkGreekHebrew then w.lemmaLinks strong
            else Except.ok ()) = Except.error e) :
    runLoop w recipe processed st =
      runLoop w recipe (processed + 1)
        { st with
          queue := qrest, seen := strong :: st.seen,
          lemmaIndex := liUpdate st strong html,
          res := { st.res with errors := st.res.errors ++ [(strong, e)] },
          fetched := st.fetched ++ [strong],
          terminals := st.terminals ++ [strong] } := by
  rw [runLoop, hq]
  simp only [dif_pos hp, if_neg hseen, if_neg hskip, hf, hll]

theorem runLoop_upsert_err (hq : st.queue = (strong, depth) :: qrest)
    (hp : processed < recipe.maxNodes) (hseen : strong ∉ st.seen)
    (hskip : ¬ (w.existsFile strong && recipe.skipExisting) = true)
    {html e : Str} (hf : w.fetch strong = Except.ok html)
    {u : Unit} (hll : (if recipe.linkGreekHebrew then w.lemmaLinks strong
            else Except.ok ()) = Except.ok u)
    (hup : w.upsert strong = Except.error e) :
    runLoop w recipe processed st =
      runLoop w recipe (processed + 1)
        { st with
          queue := qrest, seen := strong :: st.seen,
          lemmaIndex := liUpdate st strong html,
          res := { st.res with errors := st.res.errors ++ [(strong, e)] },
          fetched := st.fetched ++ [strong],
          terminals := st.terminals ++ [strong] } := by
  rw [runLoop, hq]
  simp only [dif_pos hp, if_neg hseen, if_neg hskip, hf, hll, hup]

theorem runLoop_scripture_err (hq : st.queue = (strong, depth) :: qrest)
    (hp : processed < recipe.maxNodes) (hseen : strong ∉ st.seen)
    (hskip : ¬ (w.existsFile strong && recipe.skipExisting) = true)
    {html e : Str} (hf : w.fetch strong = Except.ok html)
    {u : Unit} (hll : (if recipe.linkGreekHebrew then w.lemmaLinks strong
            else Except.ok ()) = Except.ok u)
    {created : Bool} (hup : w.upsert strong = Except.ok created)
    (hg : LinkType.scripture ∈ recipe.linkTypes ∧
      (parseEntryFromStrongsPage strong (strongsUrl strong) html).links.scripture ≠ [])
    (hscr : w.scripture strong = Except.error e) :
    runLoop w recipe processed st =
      runLoop w recipe (processed + 1)
        { st with
          queue := qrest, seen := strong :: st.seen,
          lemmaIndex := liUpdate st strong html,
          res := { (if created then { st.res with created := st.res.created + 1 }
                    else { st.res with updated := st.res.updated + 1 }) with
                   errors := st.res.errors ++ [(strong, e)] },
          fetched := st.fetched ++ [strong],
          terminals := st.terminals ++ [strong] } := by
  rw [runLoop, hq]
  cases created <;>
    simp only [dif_pos hp, if_neg hseen, if_neg hskip, hf, hll, hup,
      if_pos hg, hscr, if_true, if_false, Bool.false_eq_true]

theorem runLoop_ok_scripture (hq : st.queue = (strong, depth) :: qrest)
    (hp : processed < recipe.maxNodes) (hseen : strong ∉ st.seen)
    (hskip : ¬ (w.existsFile strong && recipe.skipExisting) = true)
    {html : Str} (hf : w.fetch strong = Except.ok html)
    {u : Unit} (hll : (if recipe.linkGreekHebrew then w.lemmaLinks strong
            else Except.ok ()) = Except.ok u)
    {created : Bool} (hup : w.upsert strong = Except.ok created)
    (hg : LinkType.scripture ∈ recipe.linkTypes ∧
      (parseEntryFromStrongsPage strong (strongsUrl strong) html).links.scripture ≠ [])
    {u2 : Unit} (hscr : w.scripture strong = Except.ok u2) :
    runLoop w recipe processed st =
      runLoop w recipe (processed + 1)
        { st with
          queue := qrest ++ newItemsOf recipe st strong html depth,
          seen := strong :: st.seen,
          lemmaIndex := liUpdate st strong html,
          res := (if created then { st.res with created := st.res.created + 1 }
                  else { st.res with updated := st.res.updated + 1 }),
          fetched := st.fetched ++ [strong],
          terminals := st.terminals ++ [strong],
          enqueued := st.enqueued ++ newItemsOf recipe st strong html depth } := by
  rw [runLoop, hq]
  cases created <;>
    simp only [dif_pos hp, if_neg hseen, if_neg hskip, hf, hll, hup,
      if_pos hg, hscr, if_true, if_false, Bool.false_eq_true]

theorem runLoop_ok_noscripture (hq : st.queue = (strong, depth) :: qrest)
    (hp : processed < recipe.maxNodes) (hseen : strong ∉ st.seen)
    (hskip : ¬ (w.existsFile strong && recipe.skipExisting) = true)
    {html : Str} (hf : w.fetch strong = Except.ok html)
    {u : Unit} (hll : (if recipe.linkGreekHebrew then w.lemmaLinks strong
            else Except.ok ()) = Except.ok u)
    {created : Bool} (hup : w.upsert strong = Except.ok created)
    (hg : ¬ (LinkType.scripture ∈ recipe.linkTypes ∧
      (parseEntryFromStrongsPage strong (strongsUrl strong) html).links.scripture ≠ [])) :
    runLoop w recipe processed st =
      runLoop w recipe (processed + 1)
        { st with
          queue := qrest ++ newItemsOf recipe st strong html depth,
          seen := strong :: st.seen,
          lemmaIndex := liUpdate st strong html,
          res := (if created then { st.res with created := st.res.created + 1 }
                  else { st.res with updated := st.res.updated + 1 }),
          fetched := st.fetched ++ [strong],
          terminals := st.terminals ++ [strong],
          enqueued := st.enqueued ++ newItemsOf recipe st strong html depth } := by
  rw [runLoop, hq]
  cases created <;>
    simp only [dif_pos hp, if_neg hseen, if_neg hskip, hf, hll, hup,
      if_neg hg, if_true, if_false, Bool.false_eq_true]

end RunLoopEqs

theorem runLoop_master (w : NodeWorld) (recipe : Recipe) :
    ∀ k m st processed,
      recipe.maxNodes - processed ≤ k →
      st.queue.length ≤ m →
      RunInv w recipe processed st →
      (∃ pf, RunInv w recipe pf (runLoop w recipe processed st)) ∧
      (∀ p ∈ st.enqueued, p ∈ (runLoop w recipe processed st).enqueued) := by
  intro k
  induction k with
  | zero =>
    intro m st processed hk hm hinv
    cases hq : st.queue with
    | nil =>
      rw [runLoop_nil hq]
      exact ⟨⟨processed, hinv⟩, fun p hp => hp⟩
    | cons hd qrest =>
      obtain ⟨strong, depth⟩ := hd
      rw [runLoop_budget hq (by omega)]
      exact ⟨⟨processed, hinv⟩, fun p hp => hp⟩
  | succ k ihk =>
    intro m
    induction m with
    | zero =>
      intro st processed hk hm hinv
      rw [runLoop_nil (List.length_eq_zero.mp (Nat.le_zero.mp hm))]
      exact ⟨⟨processed, hinv⟩, fun p hp => hp⟩
    | succ m ihm =>
      intro st processed hk hm hinv
      cases hq : st.queue with
      | nil =>
        rw [runLoop_nil hq]
        exact ⟨⟨processed, hinv⟩, fun p hp => hp⟩
      | cons hd qrest =>
        obtain ⟨strong, depth⟩ := hd
        have hqlen : qrest.length ≤ m := by
          rw [hq] at hm
          simpa using hm
        by_cases hp : processed < recipe.maxNodes
        · have herrs : st.res.errors = errsOf w recipe st.terminals :=
            hinv.2.2.2.1
          have hdeps : ∀ p ∈ st.enqueued, p.2 ≤ recipe.maxDepth :=
            hinv.2.2.2.2.1
          by_cases hseen : strong ∈ st.seen
          · rw [runLoop_seen hq hp hseen]
            exact ihm { st with queue := qrest } processed hk hqlen hinv
          · by_cases hskip : (w.existsFile strong && recipe.skipExisting) = true
            · rw [runLoop_skip hq hp hseen hskip]
              have hskipt : nodeSkips w recipe strong = true := hskip
              exact ihk qrest.length _ (processed + 1) (by omega) le_rfl
                (RunInv_step w recipe strong qrest st.lemmaIndex
                  { st.res with skipped := st.res.skipped + 1 } st.enqueued
                  st.fetched hinv hp hseen (Or.inl rfl)
                  (by simp [errsOf_append, herrs, errsOf, hskipt]) hdeps)
            · have hskipf : nodeSkips w recipe strong = false :=
                (Bool.not_eq_true _).mp hskip
              cases hf : w.fetch strong with
              | error e =>
                rw [runLoop_fetch_err hq hp hseen hskip hf]
                have hne : nodeError w recipe strong = some e := by
                  simp [nodeError, hf]
                exact ihk qrest.length _ (processed + 1) (by omega) le_rfl
                  (RunInv_step w recipe strong qrest st.lemmaIndex
                    { st.res with errors := st.res.errors ++ [(strong, e)] }
                    st.enqueued (st.fetched ++ [strong]) hinv hp hseen (Or.inr rfl)
                    (by simp [errsOf_append, herrs, errsOf, hskipf, hne]) hdeps)
              | ok html =>
                cases hll : (if recipe.linkGreekHebrew then w.lemmaLinks strong
                    else Except.ok ()) with
                | error e =>
                  rw [runLoop_lemma_err hq hp hseen hskip hf hll]
                  have hne : nodeError w recipe strong = some e := by
                    simp [nodeError, hf, hll]
                  exact ihk qrest.length _ (processed + 1) (by omega) le_rfl
                    (RunInv_step w recipe strong qrest (liUpdate st strong html)
                      { st.res with errors := st.res.errors ++ [(strong, e)] }
                      st.enqueued (st.fetched ++ [strong]) hinv hp hseen (Or.inr rfl)
                      (by simp [errsOf_append, herrs, errsOf, hskipf, hne]) hdeps)
                | ok u =>
                  cases hup : w.upsert strong with
                  | error e =>
                    rw [runLoop_upsert_err hq hp hseen hskip hf hll hup]
                    have hne : nodeError w recipe strong = some e := by
                      simp [nodeError, hf, hll, hup]
                    exact ihk qrest.length _ (processed + 1) (by omega) le_rfl
                      (RunInv_step w recipe strong qrest (liUpdate st strong html)
                        { st.res with errors := st.res.errors ++ [(strong, e)] }
                        st.enqueued (st.fetched ++ [strong]) hinv hp hseen (Or.inr rfl)
                        (by simp [errsOf_append, herrs, errsOf, hskipf, hne]) hdeps)
                  | ok created =>
                    by_cases hg : LinkType.scripture ∈ recipe.linkTypes ∧
                        (parseEntryFromStrongsPage strong (strongsUrl strong)
                          html).links.scripture ≠ []
                    · cases hscr : w.scripture strong with
                      | error e =>
                        rw [runLoop_scripture_err hq hp hseen hskip hf hll hup hg hscr]
                        have hne : nodeError w recipe strong = some e := by
                          simp [nodeError, hf, hll, hup, hg, hscr]
                        exact ihk qrest.length _ (processed + 1) (by omega) le_rfl
                          (RunInv_step w recipe strong qrest (liUpdate st strong html)
                            { (if created then
                                { st.res with created := st.res.created + 1 }
                               else { st.res with updated := st.res.updated + 1 }) with
                              errors := st.res.errors ++ [(strong, e)] }
                            st.enqueued (st.fetched ++ [strong]) hinv hp hseen
                            (Or.inr rfl)
                            (by cases created <;>
                              simp [errsOf_append, herrs, errsOf, hskipf, hne]) hdeps)
                      | ok u2 =>
                        rw [runLoop_ok_scripture hq hp hseen hskip hf hll hup hg hscr]
                        have hne : nodeError w recipe strong = none := by
                          simp [nodeError, hf, hll, hup, hg, hscr]
                        have hnewdep : ∀ p ∈ st.enqueued ++
                            newItemsOf recipe st strong html depth,
                            p.2 ≤ recipe.maxDepth := by
                          intro p hpmem
                          rcases List.mem_append.mp hpmem with h | h
                          · exact hdeps p h
                          · unfold newItemsOf at h
                            by_cases hdm : depth < recipe.maxDepth
                            · rw [if_pos hdm] at h
                              obtain ⟨n, _, hn⟩ := List.mem_map.mp h
                              rw [← hn]
                              omega
                            · rw [if_neg hdm] at h
                              simp at h
                        have hstep := ihk (qrest ++
                            newItemsOf recipe st strong html depth).length _
                          (processed + 1) (by omega) le_rfl
                          (RunInv_step w recipe strong
                            (qrest ++ newItemsOf recipe st strong html depth)
                            (liUpdate st strong html)
                            (if created then
                              { st.res with created := st.res.created + 1 }
                             else { st.res with updated := st.res.updated + 1 })
                            (st.enqueued ++ newItemsOf recipe st strong html depth)
                            (st.fetched ++ [strong]) hinv hp hseen (Or.inr rfl)
                            (by cases created <;>
                              simp [errsOf_append, herrs, errsOf, hskipf, hne])
                            hnewdep)
                        exact ⟨hstep.1, fun p hpmem =>
                          hstep.2 p (List.mem_append.mpr (Or.inl hpmem))⟩
                    · rw [runLoop_ok_noscripture hq hp hseen hskip hf hll hup hg]
                      have hne : nodeError w recipe strong = none := by
                        simp only [nodeError, hf, hll, hup]
                        rw [if_neg hg]
                      have hnewdep : ∀ p ∈ st.enqueued ++
                          newItemsOf recipe st strong html depth,
                          p.2 ≤ recipe.maxDepth := by
                        intro p hpmem
                        rcases List.mem_append.mp hpmem with h | h
                        · exact hdeps p h
                        · unfold newItemsOf at h
                          by_cases hdm : depth < recipe.maxDepth
                          · rw [if_pos hdm] at h
                            obtain ⟨n, _, hn⟩ := List.mem_map.mp h
                            rw [← hn]
                            omega
                          · rw [if_neg hdm] at h
                            simp at h
                      have hstep := ihk (qrest ++
                          newItemsOf recipe st strong html depth).length _
                        (processed + 1) (by omega) le_rfl
                        (RunInv_step w recipe strong
                          (qrest ++ newItemsOf recipe st strong html depth)
                          (liUpdate st strong html)
                          (if created then
                            { st.res with created := st.res.created + 1 }
                           else { st.res with updated := st.res.updated + 1 })
                          (st.enqueued ++ newItemsOf recipe st strong html depth)
                          (st.fetched ++ [strong]) hinv hp hseen (Or.inr rfl)
                          (by cases created <;>
                            simp [errsOf_append, herrs, errsOf, hskipf, hne])
                          hnewdep)
                      exact ⟨hstep.1, fun p hpmem =>
                        hstep.2 p (List.mem_append.mpr (Or.inl hpmem))⟩
        · rw [runLoop_budget hq hp]
          exact ⟨⟨processed, hinv⟩, fun p hp => hp⟩

/-- The invariant holds of every finished crawl, and the seed stays in
the enqueued trace. -/
theorem crawlerRun_inv (w : NodeWorld) (root : Str) (recipe : Recipe)
    (initIndex : List (Str × Str)) :
    (∃ pf, RunInv w recipe pf (crawlerRun w root recipe initIndex)) ∧
    (root, 0) ∈ (crawlerRun w root recipe initIndex).enqueued := by
  have hinv0 : RunInv w recipe 0
      { queue := [(root, 0)], seen := [], lemmaIndex := initIndex,
        res := { created := 0, updated := 0, skipped := 0, errors := [] },
        fetched := [], terminals := [], enqueued := [(root, 0)] } := by
    refine ⟨List.nodup_nil, by simp, rfl, rfl, ?_, Nat.zero_le _⟩
    intro p hp
    simp at hp
    subst hp
    exact Nat.zero_le _
  have h := runLoop_master w recipe recipe.maxNodes 1 _ 0 (by omega) (by simp) hinv0
  exact ⟨h.1, h.2 (root, 0) (by simp)⟩

/-- C4: within one crawl run, the Fetcher is invoked for an id's source
URL at most once, however many queue items or edges reference the id: an
id is added to the visited set in the iteration that fetches it, and a
dequeued id already in the set is discarded before any fetch, so the
run's trace of fetched ids is duplicate-free. -/
theorem crawler_fetches_each_id_at_most_once (w : NodeWorld) (root : Str)
    (recipe : Recipe) (initIndex : List (Str × Str)) :
    (crawlerRun w root recipe initIndex).fetched.Nodup := by
  obtain ⟨⟨pf, hinv⟩, -⟩ := crawlerRun_inv w root recipe initIndex
  exact hinv.1

/-- C5: the number of nodes reaching a terminal outcome (created,
updated, skipped or errored — one terminal trace entry per processed
node) never exceeds `maxNodes`; every item ever enqueued — the seed, at
depth 0, included — has depth at most `maxDepth` (an item at depth `d`
enqueues successors at `d + 1` only when `d < maxDepth`).  This holds
for every recipe, in particular whenever `maxNodes ≥ 1`. -/
theorem crawler_budgets (w : NodeWorld) (root : Str) (recipe : Recipe)
    (initIndex : List (Str × Str)) :
    (crawlerRun w root recipe initIndex).terminals.length ≤ recipe.maxNodes ∧
    (crawlerRun w root recipe initIndex).enqueued.all
      (fun p => decide (p.2 ≤ recipe.maxDepth)) = true ∧
    (root, 0) ∈ (crawlerRun w root recipe initIndex).enqueued := by
  obtain ⟨⟨pf, hinv⟩, hroot⟩ := crawlerRun_inv w root recipe initIndex
  obtain ⟨-, -, hlen, -, hdep, hpm⟩ := hinv
  refine ⟨by omega, ?_, hroot⟩
  rw [List.all_eq_true]
  intro p hp
  exact decide_eq_true (hdep p hp)

/-- C6: every exception thrown while processing a single queue item —
in the fetch, the lemma linking, the upsert or the scripture-note
creation — is caught at the node boundary and recorded as an
`(id, message)` pair, and the run always returns the aggregate result:
the final error list is exactly one entry per processed, non-skipped
node whose pipeline fails, in processing order, so a failing node never
aborts the run (terminal nodes after it still contribute), even when
every node errors. -/
theorem crawler_errors_recorded (w : NodeWorld) (root : Str) (recipe : Recipe)
    (initIndex : List (Str × Str)) :
    (crawlerRun w root recipe initIndex).res.errors =
      errsOf w recipe (crawlerRun w root recipe initIndex).terminals := by
  obtain ⟨⟨pf, hinv⟩, -⟩ := crawlerRun_inv w root recipe initIndex
  exact hinv.2.2.2.1

/-- The token extraction the claim describes: only the entry's own
alphabet (the script determined by its language) yields tokens. -/
def claimedOwnScriptTokens (lang : Lang) (text : Str) : List Str :=
  match lang with
  | Lang.greek =>
      dedupFirst ((classRuns isGreekChar text).filter (fun t => decide (2 ≤ t.length)))
  | Lang.hebrew =>
      dedupFirst ((classRuns isHebrewChar text).filter (fun t => decide (2 ≤ t.length)))

theorem tokens_not_own_script_only :
    extractGreekHebrewTokens (str "αβ שלום") ≠
      claimedOwnScriptTokens Lang.greek (str "αβ שלום") ∧
    str "שלום" ∈ extractGreekHebrewTokens (str "αβ שלום") ∧
    (∀ c ∈ str "שלום", isHebrewChar c = true) ∧
    applyLemmaLinksBlocks
      (fun k => match k with
        | SectionKey.helps => str "שלום x"
        | _ => [])
      [(str "שלום", str "H7965")] SectionKey.helps = str "[[שלום]] x" := by
  refine ⟨by decide, by decide, by decide, by decide⟩

/-- A maximal non-empty run of `p`-characters in `s`: the text before it
ends in a non-`p` character (or is empty) and the text after it starts
with one (or is empty) — the matches of `/[p]+/gu`. -/
def isMaxRun (p : Char → Bool) (s t : Str) : Prop :=
  t ≠ [] ∧ (∀ c ∈ t, p c = true) ∧
  ∃ a b, s = a ++ t ++ b ∧
    (∀ c, a.getLast? = some c → p c = false) ∧
    (∀ c, b.head? = some c → p c = false)

theorem eq_nil_of_getLast?_notp {p : Char → Bool} {X a : Str} (y : Str)
    (hX : ∀ c ∈ X, p c = true) (h : X = a ++ y)
    (ha : ∀ c, a.getLast? = some c → p c = false) : a = [] := by
  induction a using List.reverseRecOn with
  | nil => rfl
  | append_singleton as x _ =>
    have hx : p x = false := ha x (List.getLast?_concat as)
    have hmem : x ∈ X := by
      rw [h]
      simp
    rw [hX x hmem] at hx
    cases hx

theorem eq_nil_of_head?_notp {p : Char → Bool} {X a : Str} (y : Str)
    (hX : ∀ c ∈ X, p c = true) (h : X = y ++ a)
    (ha : ∀ c, a.head? = some c → p c = false) : a = [] := by
  cases a with
  | nil => rfl
  | cons x as =>
    have hx : p x = false := ha x rfl
    have hmem : x ∈ X := by
      rw [h]
      simp
    rw [hX x hmem] at hx
    cases hx

theorem getLast?_cons_ne_nil {t : Str} {c : Char} (h : t ≠ []) :
    (c :: t).getLast? = t.getLast? := by
  have := @List.getLast?_append_of_ne_nil _ [c] t h
  simpa using this

/-- Membership characterization of the run accumulator: with a current
all-`p` partial run `cur` (reversed), the runs produced over `rest` are
exactly the maximal runs of `cur.reverse ++ rest` (the preceding context
having ended in a non-`p` character, which the accumulator's invariant
supplies). -/
theorem classRunsAux_mem (p : Char → Bool) :
    ∀ (rest cur : Str), (∀ c ∈ cur, p c = true) →
      ∀ r, r ∈ classRunsAux p cur rest ↔
        (r ≠ [] ∧ (∀ c ∈ r, p c = true) ∧
         ∃ a b, cur.reverse ++ rest = a ++ r ++ b ∧
           (∀ c, a.getLast? = some c → p c = false) ∧
           (∀ c, b.head? = some c → p c = false)) := by
  intro rest
  induction rest with
  | nil =>
    intro cur hcur r
    by_cases hc : cur = []
    · subst hc
      simp only [classRunsAux, if_pos rfl]
      constructor
      · intro h
        exact absurd h (List.not_mem_nil r)
      · rintro ⟨hne, -, a, b, hs, -, -⟩
        simp only [List.reverse_nil, List.nil_append, List.append_nil] at hs
        have : a ++ r ++ b = [] := hs.symm
        simp at this
        exact absurd this.2.1 hne
    · simp only [classRunsAux, if_neg hc, List.append_nil]
      constructor
      · intro h
        have hr : r = cur.reverse := by simpa using h
        subst hr
        refine ⟨by simpa using hc, fun c hmem => hcur c (List.mem_reverse.mp hmem),
          [], [], by simp, by simp, by simp⟩
      · rintro ⟨hne, hall, a, b, hs, hba, hbb⟩
        have hallrev : ∀ c ∈ cur.reverse, p c = true :=
          fun c hmem => hcur c (List.mem_reverse.mp hmem)
        have ha : a = [] :=
          eq_nil_of_getLast?_notp (r ++ b) hallrev
            (by rw [hs, List.append_assoc]) hba
        subst ha
        have hb : b = [] :=
          eq_nil_of_head?_notp r hallrev (by rw [hs]; simp) hbb
        subst hb
        simp only [List.nil_append, List.append_nil] at hs
        simp [hs]
  | cons c rest' ih =>
    intro cur hcur r
    by_cases hpc : p c = true
    · have hcur' : ∀ d ∈ c :: cur, p d = true := by
        intro d hd
        rcases List.mem_cons.mp hd with h | h
        · subst h; exact hpc
        · exact hcur d h
      have hstr : (c :: cur).reverse ++ rest' = cur.reverse ++ (c :: rest') := by
        simp
      rw [show classRunsAux p cur (c :: rest') = classRunsAux p (c :: cur) rest' by
        rw [classRunsAux, if_pos hpc]]
      rw [ih (c :: cur) hcur' r, hstr]
    · have hpcf : p c = false := by
        cases hcp : p c
        · rfl
        · exact absurd hcp hpc
      by_cases hc : cur = []
      · subst hc
        rw [show classRunsAux p [] (c :: rest') = classRunsAux p [] rest' by
          rw [classRunsAux, if_neg hpc, if_pos rfl]]
        rw [ih [] (by simp) r]
        simp only [List.reverse_nil, List.nil_append]
        constructor
        · rintro ⟨hne, hall, a, b, hs, hba, hbb⟩
          refine ⟨hne, hall, c :: a, b, by rw [hs]; rfl, ?_, hbb⟩
          intro d hd
          cases ha : a with
          | nil =>
            subst ha
            simp at hd
            subst hd
            exact hpcf
          | cons a0 as =>
            rw [ha] at hd
            rw [getLast?_cons_ne_nil (by simp)] at hd
            exact hba d (by rw [ha]; exact hd)
        · rintro ⟨hne, hall, a, b, hs, hba, hbb⟩
          cases a with
          | nil =>
            exfalso
            simp only [List.nil_append] at hs
            have hcr : c ∈ r := by
              cases r with
              | nil => exact absurd rfl hne
              | cons r0 rs =>
                have : c = r0 := by
                  have := congrArg List.head? hs
                  simpa using this
                rw [this]
                exact List.mem_cons_self _ _
            rw [hall c hcr] at hpcf
            cases hpcf
          | cons a0 as =>
            have ha0 : a0 = c := by
              have := congrArg List.head? hs
              simpa using this.symm
            subst ha0
            have hs' : rest' = as ++ r ++ b := by
              have := congrArg List.tail hs
              simpa using this
            refine ⟨hne, hall, as, b, hs', ?_, hbb⟩
            intro d hd
            cases has : as with
            | nil =>
              subst has
              simp at hd
            | cons b0 bs =>
              apply hba d
              rw [has]
              rw [getLast?_cons_ne_nil (by simp)]
              rw [has] at hd
              exact hd
      · rw [show classRunsAux p cur (c :: rest') =
            cur.reverse :: classRunsAux p [] rest' by
          rw [classRunsAux, if_neg hpc, if_neg hc]]
        rw [List.mem_cons, ih [] (by simp) r]
        have hallrev : ∀ d ∈ cur.reverse, p d = true :=
          fun d hmem => hcur d (List.mem_reverse.mp hmem)
        constructor
        · rintro (hr | ⟨hne, hall, a, b, hs, hba, hbb⟩)
          · subst hr
            refine ⟨by simpa using hc, hallrev, [], c :: rest', by simp, by simp, ?_⟩
            intro d hd
            simp at hd
            subst hd
            exact hpcf
          · simp only [List.reverse_nil, List.nil_append] at hs
            refine ⟨hne, hall, cur.reverse ++ c :: a, b, ?_, ?_, hbb⟩
            · rw [hs]
              simp
            · intro d hd
              rw [List.getLast?_append_of_ne_nil _ (by simp)] at hd
              cases ha : a with
              | nil =>
                subst ha
                simp at hd
                subst hd
                exact hpcf
              | cons a0 as =>
                rw [ha] at hd
                rw [getLast?_cons_ne_nil (by simp)] at hd
                exact hba d (by rw [ha]; exact hd)
        · rintro ⟨hne, hall, a, b, hs, hba, hbb⟩
          rw [List.append_assoc] at hs
          rcases List.append_eq_append_iff.mp hs with ⟨t, hat, hrest⟩ | ⟨t, hat, hrest⟩
          · -- a = cur.reverse ++ t and c :: rest' = t ++ (r ++ b)
            cases ht : t with
            | nil =>
              exfalso
              subst ht
              simp only [List.append_nil] at hat
              have hanil : a = [] :=
                eq_nil_of_getLast?_notp ([] : Str) hallrev
                  (by simp [hat]) hba
              rw [hanil] at hat
              exact (by simpa using hc : ¬ cur.reverse = []) hat.symm
            | cons t0 ts =>
              subst ht
              have ht0 : t0 = c := by
                have := congrArg List.head? hrest
                simpa using this.symm
              subst ht0
              have hrest' : rest' = ts ++ r ++ b := by
                have := congrArg List.tail hrest
                simpa [List.append_assoc] using this
              right
              refine ⟨hne, hall, ts, b, by simpa [List.append_assoc] using hrest', ?_, hbb⟩
              intro d hd
              apply hba d
              rw [hat]
              rw [List.getLast?_append_of_ne_nil _ (by simp)]
              cases hts : ts with
              | nil =>
                subst hts
                simp at hd
              | cons u0 us =>
                rw [getLast?_cons_ne_nil (by simp)]
                rw [hts] at hd
                exact hd
          · -- cur.reverse = a ++ t and r ++ b = t ++ (c :: rest')
            have hta : a = [] := eq_nil_of_getLast?_notp t hallrev hat hba
            subst hta
            simp only [List.nil_append] at hat
            subst hat
            left
            rcases List.append_eq_append_iff.mp hrest.symm with
              ⟨u, hru, hbu⟩ | ⟨u, htu, hcu⟩
            · -- r = cur.reverse ++ u and c :: rest' = u ++ b
              cases hu : u with
              | nil =>
                subst hu
                simp only [List.append_nil] at hru
                exact hru
              | cons u0 us =>
                exfalso
                subst hu
                have hu0 : u0 = c := by
                  have := congrArg List.head? hbu
                  simpa using this.symm
                have hmem : u0 ∈ r := by
                  rw [hru]
                  simp
                have htrue := hall u0 hmem
                rw [hu0, hpcf] at htrue
                cases htrue
            · -- cur.reverse = r ++ u and b = u ++ (c :: rest')
              cases hu : u with
              | nil =>
                subst hu
                simp only [List.append_nil] at htu
                exact htu.symm
              | cons u0 us =>
                exfalso
                subst hu
                have hu0 : p u0 = false := hbb u0 (by rw [hcu]; rfl)
                have : u0 ∈ cur.reverse := by
                  rw [htu]
                  simp
                rw [hallrev u0 this] at hu0
                cases hu0

/-- The runs of `classRuns` are exactly the maximal `p`-runs. -/
theorem classRuns_mem (p : Char → Bool) (s r : Str) :
    r ∈ classRuns p s ↔ isMaxRun p s r := by
  have h := classRunsAux_mem p s [] (by simp) r
  simpa [classRuns, isMaxRun] using h

theorem dedupFirstAux_mem :
    ∀ (l acc : List Str) (x : Str), x ∈ dedupFirstAux acc l ↔ x ∈ l ∧ x ∉ acc := by
  intro l
  induction l with
  | nil => intro acc x; simp [dedupFirstAux]
  | cons y ys ih =>
    intro acc x
    by_cases hy : y ∈ acc
    · rw [show dedupFirstAux acc (y :: ys) = dedupFirstAux acc ys by
        rw [dedupFirstAux, if_pos hy]]
      rw [ih acc x]
      constructor
      · rintro ⟨h1, h2⟩
        exact ⟨List.mem_cons_of_mem _ h1, h2⟩
      · rintro ⟨h1, h2⟩
        rcases List.mem_cons.mp h1 with h | h
        · subst h
          exact absurd hy h2
        · exact ⟨h, h2⟩
    · rw [show dedupFirstAux acc (y :: ys) = y :: dedupFirstAux (y :: acc) ys by
        rw [dedupFirstAux, if_neg hy]]
      rw [List.mem_cons, ih (y :: acc) x]
      constructor
      · rintro (h | ⟨h1, h2⟩)
        · subst h
          exact ⟨List.mem_cons_self _ _, hy⟩
        · exact ⟨List.mem_cons_of_mem _ h1, fun hx => h2 (List.mem_cons_of_mem _ hx)⟩
      · rintro ⟨h1, h2⟩
        by_cases hxy : x = y
        · exact Or.inl hxy
        · rcases List.mem_cons.mp h1 with h | h
          · exact absurd h hxy
          · refine Or.inr ⟨h, fun hx => ?_⟩
            rcases List.mem_cons.mp hx with h' | h'
            · exact hxy h'
            · exact h2 h'

theorem dedupFirst_mem (l : List Str) (x : Str) : x ∈ dedupFirst l ↔ x ∈ l := by
  rw [dedupFirst, dedupFirstAux_mem]
  simp

/-- C8 (amended): the tokens extracted for LemmaIndex resolution are
exactly the contiguous maximal runs, of length at least 2, of
Greek-script characters plus those of Hebrew-script characters —
regardless of the entry's own language; both alphabets are always
scanned. -/
theorem extractGreekHebrewTokens_spec (text t : Str) :
    t ∈ extractGreekHebrewTokens text ↔
      2 ≤ t.length ∧
        (isMaxRun isGreekChar text t ∨ isMaxRun isHebrewChar text t) := by
  rw [extractGreekHebrewTokens, dedupFirst_mem, List.mem_filter]
  rw [List.mem_append, classRuns_mem, classRuns_mem]
  constructor
  · rintro ⟨h1, h2⟩
    exact ⟨by simpa using h2, h1⟩
  · rintro ⟨h1, h2⟩
    exact ⟨h2, by simpa using h1⟩

/-- A section whose lower-cased header does not occur in the lower-cased
text degrades to the empty string. -/
theorem extractSectionApprox_absent {text header : Str} {m : Nat}
    (h : findSubIdx (header.map toLowerChar) (text.map toLowerChar) = none) :
    extractSectionApprox text header m = [] := by
  unfold extractSectionApprox
  rw [h]

/-- C7: for every id, source URL and raw document string, the extractor
returns a total `LexiconEntry` (the model is a total function): a labeled
field whose label never matches is left `none`; a section whose header is
absent from the text is assigned the empty string rather than left unset
(the `forms_transliterations` key falling back over its two headers, the
`strongs_definition` key mirroring the absent Definition label, the
`lexical_summary` key empty when all six labels are absent); and the
structurally empty document yields an entry with every optional field
`none`, every section block empty, and all four link lists empty. -/
theorem parseStrongsPage_never_fails :
    (∀ strong url html : Str,
      (pickLabel (htmlToText html) (str "Original Word") = none →
        (parseStrongsPage strong url html).lemma_ = none) ∧
      (pickLabel (htmlToText html) (str "Transliteration") = none →
        (parseStrongsPage strong url html).transliteration = none) ∧
      (pickLabel (htmlToText html) (str "Pronunciation") = none →
        (parseStrongsPage strong url html).pronunciation = none) ∧
      (pickLabel (htmlToText html) (str "Phonetic Spelling") = none →
        (parseStrongsPage strong url html).phonetic = none) ∧
      (pickLabel (htmlToText html) (str "Part of Speech") = none →
        (parseStrongsPage strong url html).part_of_speech = none) ∧
      (findSubIdx ((str "HELPS Word-studies").map toLowerChar)
          ((htmlToText html).map toLowerChar) = none →
        (parseStrongsPage strong url html).blocks SectionKey.helps = []) ∧
      (findSubIdx ((str "Thayer's Greek Lexicon").map toLowerChar)
          ((htmlToText html).map toLowerChar) = none →
        (parseStrongsPage strong url html).blocks SectionKey.thayers = []) ∧
      (findSubIdx ((str "Englishman's Concordance").map toLowerChar)
          ((htmlToText html).map toLowerChar) = none →
        (parseStrongsPage strong url html).blocks
          SectionKey.englishmans_concordance = []) ∧
      (findSubIdx ((str "Concordance").map toLowerChar)
          ((htmlToText html).map toLowerChar) = none →
        (parseStrongsPage strong url html).blocks SectionKey.concordance = []) ∧
      (findSubIdx ((str "Topical Lexicon").map toLowerChar)
          ((htmlToText html).map toLowerChar) = none →
        (parseStrongsPage strong url html).blocks SectionKey.topical_lexicon = []) ∧
      (findSubIdx ((str "Forms of").map toLowerChar)
          ((htmlToText html).map toLowerChar) = none →
       findSubIdx ((str "Forms & Transliterations").map toLowerChar)
          ((htmlToText html).map toLowerChar) = none →
        (parseStrongsPage strong url html).blocks
          SectionKey.forms_transliterations = []) ∧
      (pickLabel (htmlToText html) (str "Definition") = none →
        (parseStrongsPage strong url html).blocks
          SectionKey.strongs_definition = []) ∧
      (pickLabel (htmlToText html) (str "Original Word") = none →
       pickLabel (htmlToText html) (str "Transliteration") = none →
       pickLabel (htmlToText html) (str "Pronunciation") = none →
       pickLabel (htmlToText html) (str "Phonetic Spelling") = none →
       pickLabel (htmlToText html) (str "Part of Speech") = none →
       pickLabel (htmlToText html) (str "Definition") = none →
        (parseStrongsPage strong url html).blocks
          SectionKey.lexical_summary = [])) ∧
    (∀ strong url : Str,
      (parseStrongsPage strong url []).lemma_ = none ∧
      (parseStrongsPage strong url []).transliteration = none ∧
      (parseStrongsPage strong url []).pronunciation = none ∧
      (parseStrongsPage strong url []).phonetic = none ∧
      (parseStrongsPage strong url []).part_of_speech = none ∧
      (∀ k, (parseStrongsPage strong url []).blocks k = []) ∧
      (parseStrongsPage strong url []).links.see_also = [] ∧
      (parseStrongsPage strong url []).links.related_strongs = [] ∧
      (parseStrongsPage strong url []).links.topical = [] ∧
      (parseStrongsPage strong url []).links.scripture = []) := by
  constructor
  · intro strong url html
    refine ⟨?_, ?_, ?_, ?_, ?_, ?_, ?_, ?_, ?_, ?_, ?_, ?_, ?_⟩
    · intro h
      simp only [parseStrongsPage]
      exact h
    · intro h
      simp only [parseStrongsPage]
      exact h
    · intro h
      simp only [parseStrongsPage]
      exact h
    · intro h
      simp only [parseStrongsPage]
      exact h
    · intro h
      simp only [parseStrongsPage]
      exact h
    · intro h
      simp only [parseStrongsPage, strongsPageBlocks]
      exact extractSectionApprox_absent h
    · intro h
      simp only [parseStrongsPage, strongsPageBlocks]
      exact extractSectionApprox_absent h
    · intro h
      simp only [parseStrongsPage, strongsPageBlocks]
      exact extractSectionApprox_absent h
    · intro h
      simp only [parseStrongsPage, strongsPageBlocks]
      exact extractSectionApprox_absent h
    · intro h
      simp only [parseStrongsPage, strongsPageBlocks]
      exact extractSectionApprox_absent h
    · intro h1 h2
      simp only [parseStrongsPage, strongsPageBlocks,
        extractSectionApprox_absent h1, extractSectionApprox_absent h2]
      rfl
    · intro h
      simp only [parseStrongsPage, strongsPageBlocks, h, definitionBlock]
    · intro h1 h2 h3 h4 h5 h6
      simp only [parseStrongsPage, strongsPageBlocks, h1, h2, h3, h4, h5, h6]
      rfl
  · intro strong url
    exact ⟨rfl, rfl, rfl, rfl, rfl, fun k => by cases k <;> rfl,
      rfl, rfl, rfl, rfl⟩

/-- Witness for C7: on the one-character document `"x"` every label and
header is absent, so every hypothesis of the theorem is discharged by
evaluation and the conclusions hold at this concrete input. -/
theorem parseStrongsPage_never_fails_witness :
    (parseStrongsPage (str "G1") (str "u") (str "x")).lemma_ = none ∧
    (parseStrongsPage (str "G1") (str "u") (str "x")).transliteration = none ∧
    (parseStrongsPage (str "G1") (str "u") (str "x")).pronunciation = none ∧
    (parseStrongsPage (str "G1") (str "u") (str "x")).phonetic = none ∧
    (parseStrongsPage (str "G1") (str "u") (str "x")).part_of_speech = none ∧
    (parseStrongsPage (str "G1") (str "u") (str "x")).blocks SectionKey.helps = [] ∧
    (parseStrongsPage (str "G1") (str "u") (str "x")).blocks SectionKey.thayers = [] ∧
    (parseStrongsPage (str "G1") (str "u") (str "x")).blocks
      SectionKey.englishmans_concordance = [] ∧
    (parseStrongsPage (str "G1") (str "u") (str "x")).blocks
      SectionKey.concordance = [] ∧
    (parseStrongsPage (str "G1") (str "u") (str "x")).blocks
      SectionKey.topical_lexicon = [] ∧
    (parseStrongsPage (str "G1") (str "u") (str "x")).blocks
      SectionKey.forms_transliterations = [] ∧
    (parseStrongsPage (str "G1") (str "u") (str "x")).blocks
      SectionKey.strongs_definition = [] ∧
    (parseStrongsPage (str "G1") (str "u") (str "x")).blocks
      SectionKey.lexical_summary = [] ∧
    (parseStrongsPage (str "G1") (str "u") []).lemma_ = none := by
  have m := parseStrongsPage_never_fails.1 (str "G1") (str "u") (str "x")
  exact ⟨m.1 (by decide), m.2.1 (by decide), m.2.2.1 (by decide),
    m.2.2.2.1 (by decide), m.2.2.2.2.1 (by decide),
    m.2.2.2.2.2.1 (by decide), m.2.2.2.2.2.2.1 (by decide),
    m.2.2.2.2.2.2.2.1 (by decide), m.2.2.2.2.2.2.2.2.1 (by decide),
    m.2.2.2.2.2.2.2.2.2.1 (by decide),
    m.2.2.2.2.2.2.2.2.2.2.1 (by decide) (by decide),
    m.2.2.2.2.2.2.2.2.2.2.2.1 (by decide),
    m.2.2.2.2.2.2.2.2.2.2.2.2 (by decide) (by decide) (by decide) (by decide)
      (by decide) (by decide),
    (parseStrongsPage_never_fails.2 (str "G1") (str "u")).1⟩

/-!  Model of the writer's merge path (`replaceImportedBlock` in the
writer source file): the marker search, the end-boundary computation
(next `## ` heading or next imported marker after the marker, else end
of document), and the splice. -/

/-- The `<!-- imported: key -->` marker the writer places under each
section heading. -/
def markerFor (key : Str) : Str :=
  str "<!-- imported: " ++ key ++ str " -->"

/-- One-position test of the `/\n##\s+/` heading pattern of
`replaceImportedBlock` (a newline, two hashes, at least one whitespace
character). -/
def headingAt : Str → Bool
  | '\n' :: '#' :: '#' :: c :: _ => isJsSpace c
  | _ => false

/-- `rest.search(/\n##\s+/)`: index of the first heading match. -/
def searchHeading : Str → Option Nat
  | [] => none
  | c :: rest =>
    if headingAt (c :: rest) then some 0
    else (searchHeading rest).map (· + 1)

/-- The end offset, relative to the text after the marker, that
`replaceImportedBlock` computes (`endRel` in the source): the nearer of
the next heading and the next marker, else the length of the rest. -/
def importEndRel (rest : Str) : Nat :=
  match searchHeading rest, findSubIdx (str "\n<!-- imported:") rest with
  | some h, some m => min h m
  | some h, none => h
  | none, some m => m
  | none, none => rest.length

/-- The span `replaceImportedBlock` replaces: the offset just after the
marker (`afterMarker`) and the absolute end boundary (`end`); `none`
when the marker is absent. -/
def importBoundary (doc key : Str) : Option (Nat × Nat) :=
  match findSubIdx (markerFor key) doc with
  | none => none
  | some idx =>
    some (idx + (markerFor key).length,
      idx + (markerFor key).length +
        importEndRel (doc.drop (idx + (markerFor key).length)))

/-- The `replaceImportedBlock` function of the writer: keep everything up
to the end of the marker, splice a newline plus the trimmed replacement
(a bare newline when the replacement trims to nothing), and resume at the
end boundary.  The document is returned unchanged when the marker is
absent. -/
def replaceImportedBlock (doc key replacement : Str) : Str :=
  match findSubIdx (markerFor key) doc with
  | none => doc
  | some idx =>
    doc.take (idx + (markerFor key).length) ++ ['\n'] ++
      (if jsTrim replacement = [] then ['\n'] else jsTrim replacement ++ ['\n']) ++
      doc.drop (idx + (markerFor key).length +
        importEndRel (doc.drop (idx + (markerFor key).length)))

/-- A hit of `findSubIdx` is a real occurrence of the needle. -/
theorem findSubIdx_some_occ {needle s : Str} {i : Nat}
    (h : findSubIdx needle s = some i) : needle <+: s.drop i := by
  induction s generalizing i with
  | nil =>
    simp only [findSubIdx] at h
    by_cases hn : needle = []
    · rw [if_pos hn] at h
      cases h
      simp [hn]
    · rw [if_neg hn] at h
      cases h
  | cons c rest ih =>
    simp only [findSubIdx] at h
    by_cases hp : needle.isPrefixOf (c :: rest) = true
    · rw [if_pos hp] at h
      cases h
      simpa using List.isPrefixOf_iff_prefix.mp hp
    · rw [if_neg hp] at h
      rcases Option.map_eq_some'.mp h with ⟨j, hj, hij⟩
      subst hij
      simpa using ih hj

/-- An occurrence of the needle makes `findSubIdx` hit. -/
theorem findSubIdx_isSome_occ (needle s : Str) (i : Nat)
    (h : needle <+: s.drop i) : (findSubIdx needle s).isSome := by
  induction s generalizing i with
  | nil =>
    have hn : needle = [] := List.prefix_nil.mp (by simpa using h)
    simp [findSubIdx, hn]
  | cons c rest ih =>
    cases i with
    | zero =>
      have hp : needle.isPrefixOf (c :: rest) = true :=
        List.isPrefixOf_iff_prefix.mpr (by simpa using h)
      simp [findSubIdx, hp]
    | succ j =>
      have hj : needle <+: rest.drop j := by simpa using h
      by_cases hp : needle.isPrefixOf (c :: rest) = true
      · simp [findSubIdx, hp]
      · simp only [findSubIdx, if_neg hp]
        simpa using ih j hj

/-- A hit of a non-empty needle lies completely inside the string. -/
theorem findSubIdx_some_le {needle s : Str} {i : Nat} (hne : needle ≠ [])
    (h : findSubIdx needle s = some i) : i + needle.length ≤ s.length := by
  have hocc := findSubIdx_some_occ h
  have hlen : needle.length ≤ (s.drop i).length := hocc.length_le
  have hi : i ≤ s.length := by
    by_contra hgt
    push_neg at hgt
    rw [List.drop_eq_nil_of_le (le_of_lt hgt)] at hocc
    exact hne (List.prefix_nil.mp hocc)
  rw [List.length_drop] at hlen
  omega

/-- A heading hit lies inside the string. -/
theorem searchHeading_some_le {s : Str} {h : Nat}
    (hs : searchHeading s = some h) : h ≤ s.length := by
  induction s generalizing h with
  | nil => cases hs
  | cons c rest ih =>
    simp only [searchHeading] at hs
    by_cases hh : headingAt (c :: rest) = true
    · rw [if_pos hh] at hs
      cases hs
      simp
    · rw [if_neg hh] at hs
      rcases Option.map_eq_some'.mp hs with ⟨j, hj, hij⟩
      subst hij
      have := ih hj
      simp only [List.length_cons]
      omega

/-- The end offset never passes the end of the rest. -/
theorem importEndRel_le (rest : Str) : importEndRel rest ≤ rest.length := by
  have hmne : (str "\n<!-- imported:") ≠ ([] : Str) := by decide
  unfold importEndRel
  split
  next h m hh hm =>
    have h1 := searchHeading_some_le hh
    have h2 := findSubIdx_some_le hmne hm
    omega
  next h hh hm =>
    exact searchHeading_some_le hh
  next m hh hm =>
    have h2 := findSubIdx_some_le hmne hm
    omega
  next hh hm =>
    exact le_refl _

/-- The marker is never the empty string. -/
theorem markerFor_ne_nil (key : Str) : markerFor key ≠ [] := by
  have hcons : markerFor key
      = '<' :: (str "!-- imported: " ++ key ++ str " -->") := rfl
  rw [hcons]
  exact List.cons_ne_nil _ _

/-- C3: the merge is a frame operation.  When the marker is absent the
document is returned unchanged.  When it is present, with `a` the offset
just after the marker and `e` the computed end boundary, the result is
byte-identical to the original up to `a`, and is exactly the original
prefix up to `a`, a newline plus the trimmed replacement, and the
original suffix from `e` on — so only the span between marker end and
boundary changes.  In particular any prefix of the document that does
not contain the marker (the metadata header) survives the merge
byte-for-byte. -/
theorem replaceImportedBlock_frame :
    ∀ doc key replacement : Str,
      (importBoundary doc key = none →
        replaceImportedBlock doc key replacement = doc) ∧
      (∀ a e, importBoundary doc key = some (a, e) →
        a ≤ e ∧ e ≤ doc.length ∧
        (replaceImportedBlock doc key replacement).take a = doc.take a ∧
        replaceImportedBlock doc key replacement
          = doc.take a ++ ['\n'] ++
            (if jsTrim replacement = [] then ['\n']
             else jsTrim replacement ++ ['\n']) ++ doc.drop e) ∧
      (∀ hdr tl : Str, doc = hdr ++ tl →
        findSubIdx (markerFor key) hdr = none →
        (replaceImportedBlock doc key replacement).take hdr.length = hdr) := by
  intro doc key replacement
  refine ⟨?_, ?_, ?_⟩
  · intro hnone
    cases hfind : findSubIdx (markerFor key) doc with
    | none => simp only [replaceImportedBlock, hfind]
    | some idx =>
      simp only [importBoundary, hfind] at hnone
      cases hnone
  · intro a e hbound
    cases hfind : findSubIdx (markerFor key) doc with
    | none =>
      simp only [importBoundary, hfind] at hbound
      cases hbound
    | some idx =>
      simp only [importBoundary, hfind, Option.some.injEq, Prod.mk.injEq] at hbound
      obtain ⟨ha, he⟩ := hbound
      subst ha
      subst he
      have hocc : idx + (markerFor key).length ≤ doc.length :=
        findSubIdx_some_le (markerFor_ne_nil key) hfind
      have hrel := importEndRel_le (doc.drop (idx + (markerFor key).length))
      rw [List.length_drop] at hrel
      refine ⟨Nat.le_add_right _ _, by omega, ?_, ?_⟩
      · simp only [replaceImportedBlock, hfind]
        rw [List.append_assoc, List.append_assoc]
        exact List.take_left' (by rw [List.length_take]; omega)
      · simp only [replaceImportedBlock, hfind]
  · intro hdr tl hdoc hnone
    cases hfind : findSubIdx (markerFor key) doc with
    | none =>
      simp only [replaceImportedBlock, hfind]
      rw [hdoc]
      exact List.take_left hdr tl
    | some idx =>
      have hdl : hdr.length ≤ doc.length := by
        rw [hdoc, List.length_append]
        omega
      have hhl : hdr.length ≤ idx + (markerFor key).length := by
        by_contra hgt
        push_neg at hgt
        have hidx : idx ≤ hdr.length := by
          have := (markerFor_ne_nil key)
          have hpos : 0 < (markerFor key).length := by
            cases hmk : markerFor key with
            | nil => exact absurd hmk (markerFor_ne_nil key)
            | cons c cs => simp
          omega
        have hdrop : doc.drop idx = hdr.drop idx ++ tl := by
          rw [hdoc, List.drop_append_eq_append_drop]
          have hz : idx - hdr.length = 0 := by omega
          rw [hz, List.drop_zero]
        have hocc := findSubIdx_some_occ hfind
        rw [hdrop] at hocc
        have hpref : markerFor key <+: hdr.drop idx := by
          have htake := List.prefix_iff_eq_take.mp hocc
          rw [List.take_append_of_le_length
            (by rw [List.length_drop]; omega)] at htake
          rw [htake]
          exact List.take_prefix _ _
        have hsome := findSubIdx_isSome_occ (markerFor key) hdr idx hpref
        rw [hnone] at hsome
        cases hsome
      simp only [replaceImportedBlock, hfind]
      rw [List.append_assoc, List.append_assoc]
      have hocc : idx + (markerFor key).length ≤ doc.length :=
        findSubIdx_some_le (markerFor_ne_nil key) hfind
      rw [List.take_append_of_le_length (by rw [List.length_take]; omega)]
      rw [List.take_take]
      have hmin : hdr.length ⊓ (idx + (markerFor key).length) = hdr.length :=
        inf_eq_left.mpr hhl
      rw [hmin, hdoc, List.take_append_of_le_length (le_refl _)]
      simp

/-- Witness for C3: a concrete document with a marker, stale content and
a following heading; the marker-free document is untouched, the spliced
document decomposes over the computed boundary, and the two-character
header survives. -/
theorem replaceImportedBlock_frame_witness :
    replaceImportedBlock (str "AB") (str "helps") (str " new ") = str "AB" ∧
    (26 ≤ 30 ∧ 30 ≤ (str "A\n<!-- imported: helps -->\nold\n## Next").length ∧
      (replaceImportedBlock (str "A\n<!-- imported: helps -->\nold\n## Next")
          (str "helps") (str " new ")).take 26
        = (str "A\n<!-- imported: helps -->\nold\n## Next").take 26 ∧
      replaceImportedBlock (str "A\n<!-- imported: helps -->\nold\n## Next")
          (str "helps") (str " new ")
        = (str "A\n<!-- imported: helps -->\nold\n## Next").take 26 ++ ['\n'] ++
          (if jsTrim (str " new ") = [] then ['\n']
           else jsTrim (str " new ") ++ ['\n']) ++
          (str "A\n<!-- imported: helps -->\nold\n## Next").drop 30) ∧
    (replaceImportedBlock (str "A\n<!-- imported: helps -->\nold\n## Next")
        (str "helps") (str " new ")).take (str "A\n").length = str "A\n" := by
  refine ⟨(replaceImportedBlock_frame (str "AB") (str "helps") (str " new ")).1
      (by decide),
    (replaceImportedBlock_frame (str "A\n<!-- imported: helps -->\nold\n## Next")
      (str "helps") (str " new ")).2.1 26 30 (by decide),
    (replaceImportedBlock_frame (str "A\n<!-- imported: helps -->\nold\n## Next")
      (str "helps") (str " new ")).2.2 (str "A\n")
      (str "<!-- imported: helps -->\nold\n## Next") (by decide) (by decide)⟩

/-!  Model of the writer's rendering (`renderNew`, `renderSection`,
`linkifyScriptureRefs`, `scriptureLinkPath`) and of the merge loop the
second `upsert` takes (`mergeIntoFile`, reading and rewriting the note
created by the first run; the vault round-trip is the identity on the
text).  `new Date().toISOString().slice(0, 10)` is an oracle argument. -/

/-- The literal key string of each section (the TypeScript `SectionKey`
union values). -/
def sectionKeyName : SectionKey → Str
  | SectionKey.lexical_summary => str "lexical_summary"
  | SectionKey.strongs_definition => str "strongs_definition"
  | SectionKey.helps => str "helps"
  | SectionKey.thayers => str "thayers"
  | SectionKey.forms_transliterations => str "forms_transliterations"
  | SectionKey.englishmans_concordance => str "englishmans_concordance"
  | SectionKey.concordance => str "concordance"
  | SectionKey.topical_lexicon => str "topical_lexicon"

/-- The display titles of `renderNew`'s `sectionTitles` table. -/
def sectionTitleFor : SectionKey → Str
  | SectionKey.lexical_summary => str "Lexical Summary"
  | SectionKey.strongs_definition => str "Strong's Definition"
  | SectionKey.helps => str "HELPS Word-studies"
  | SectionKey.thayers => str "Thayer's Lexicon"
  | SectionKey.forms_transliterations => str "Forms & Transliterations"
  | SectionKey.englishmans_concordance => str "Englishman's Concordance"
  | SectionKey.concordance => str "Concordance"
  | SectionKey.topical_lexicon => str "Topical Lexicon"

/-- `replace(/^\/+|\/+$/g, "")`: strip leading and trailing slash runs. -/
def stripSlashes (s : Str) : Str :=
  ((s.dropWhile (fun c => decide (c = '/'))).reverse.dropWhile
    (fun c => decide (c = '/'))).reverse

/-- The `scriptureLinkPath` helper of the writer. -/
def scriptureLinkPath (recipe : Recipe) (ref : ScriptureRef) : Str :=
  stripSlashes recipe.scriptureRootFolder ++ ['/'] ++ slugToBookName ref.slug ++
    ['/'] ++ natToDecimal ref.chapter ++ ['-'] ++ natToDecimal ref.verse

/-- One-position matcher for the `new RegExp("\\b" + escaped + "\\b", "g")`
the writer builds per scripture display string: the display text is
regex-escaped, so it matches literally, guarded by a word boundary on
each side (a side outside the string counts as non-word). -/
def scriptureLinkMatchAt (display : Str) (prev : Option Char) (t : Str) :
    Option (Nat × Str) :=
  if display.isPrefixOf t ∧
      ((prev.map isWordChar).getD false
        ≠ (display.head?.map isWordChar).getD false) ∧
      ((display.getLast?.map isWordChar).getD false
        ≠ (((t.drop display.length).head?.map isWordChar).getD false)) then
    some (display.length, str "[[" ++ display ++ str "]]")
  else none

/-- Global regex replacement that carries the previous character (for the
`\b` look-behind), resuming right after each match like `matchAllAux`. -/
def regexReplacePrevAux (matchAt : Option Char → Str → Option (Nat × Str)) :
    Nat → Option Char → Str → Str
  | 0, _, s => s
  | _ + 1, _, [] => []
  | fuel + 1, prev, c :: rest =>
    match matchAt prev (c :: rest) with
    | some lr => lr.2 ++ regexReplacePrevAux matchAt fuel
        ((c :: rest).get? (lr.1 - 1)) ((c :: rest).drop lr.1)
    | none => c :: regexReplacePrevAux matchAt fuel (some c) rest

/-- Prev-aware global replacement over a whole string. -/
def regexReplacePrev (matchAt : Option Char → Str → Option (Nat × Str))
    (s : Str) : Str :=
  regexReplacePrevAux matchAt (s.length + 1) none s

/-- The `linkifyScriptureRefs` function: each ref with a non-empty
display string is replaced globally, ref after ref. -/
def linkifyScriptureRefs (text : Str) (refs : List ScriptureRef) : Str :=
  refs.foldl (fun out r =>
    if r.display = [] then out
    else regexReplacePrev (scriptureLinkMatchAt r.display) out) text

/-- The blocks `renderNew` actually renders: scripture linkification is
applied to every non-empty block when the recipe renders scripture links
and the entry has scripture refs; otherwise the raw entry blocks. -/
def renderBlocksFor (entry : LexiconEntry) (recipe : Recipe) : SectionKey → Str :=
  if LinkType.scripture ∈ recipe.linkTypes ∧ entry.links.scripture ≠ [] then
    fun k => if entry.blocks k = [] then entry.blocks k
             else linkifyScriptureRefs (entry.blocks k) entry.links.scripture
  else entry.blocks

/-- The `renderSection` helper: heading line, marker line, the trimmed
block, a blank line, a rule, a blank line. -/
def renderSection (title : Str) (key : SectionKey) (content : Str) : List Str :=
  [str "## " ++ title, markerFor (sectionKeyName key), jsTrim content, [],
   str "---", []]

/-- The YAML header lines of `renderNew`, in source order. -/
def yamlLines (entry : LexiconEntry) (recipe : Recipe) (today : Str) : List Str :=
  [str "---", str "type: lexicon/strongs",
   str "lang: " ++ langStr entry.lang,
   str "strong: " ++ entry.strong,
   [],
   str "lemma: " ++ entry.lemma_.getD [],
   str "transliteration: " ++ entry.transliteration.getD [],
   str "pronunciation: " ++ entry.pronunciation.getD [],
   str "phonetic: " ++ entry.phonetic.getD [],
   str "part_of_speech: " ++ entry.part_of_speech.getD [],
   [],
   str "aliases:",
   str "  - " ++ entry.strong] ++
  (match entry.transliteration with
   | some t => if t = [] then [] else [str "  - " ++ t]
   | none => []) ++
  [[],
   str "source_primary: " ++ entry.source_primary,
   str "source_alt:"] ++
  entry.source_alt.map (fun u => str "  - " ++ u) ++
  [[],
   str "imported_at: " ++ today,
   str "import_recipe: " ++ recipe.id,
   [],
   str "sections_included:"] ++
  recipe.includeSections.map (fun s => str "  - " ++ sectionKeyName s) ++
  [[], str "links_see_also:"] ++
  (entry.links.see_also.map (fun id =>
    str "  - \"[[" ++ id ++ str "]]\"")) ++
  [str "links_related_strongs:"] ++
  (entry.links.related_strongs.map (fun id =>
    str "  - \"[[" ++ id ++ str "]]\"")) ++
  [str "links_topical:"] ++
  (entry.links.topical.map (fun id =>
    str "  - \"[[" ++ id ++ str "]]\"")) ++
  [str "links_scripture:"] ++
  (entry.links.scripture.map (fun r =>
    str "  - \"[[" ++ scriptureLinkPath recipe r ++ ['|'] ++ r.display ++
      str "]]\"")) ++
  [[],
   str "crawl_depth: " ++ natToDecimal recipe.maxDepth,
   str "crawl_root: " ++ entry.strong,
   str "---",
   []]

/-- The `titleLine` of `renderNew`. -/
def renderTitleLine (entry : LexiconEntry) : Str :=
  jsTrim (str "# " ++ entry.strong ++ str " — " ++ entry.lemma_.getD [] ++
    str " (" ++ entry.transliteration.getD [] ++ str ")")

/-- The head of `renderNew`'s body: title line, the quote header, a
blank, a rule and a blank. -/
def headBodyLines (entry : LexiconEntry) : List Str :=
  [renderTitleLine entry, [],
   str "> **Part of Speech:** " ++ entry.part_of_speech.getD [] ++ str "  ",
   str "> **Pronunciation:** " ++ entry.pronunciation.getD [] ++ str "  ",
   str "> **Primary source:** " ++ entry.source_primary,
   [], str "---", []]

/-- The outbound-links appendix lines after the `## Outbound Links`
heading, in source order. -/
def appTailLines (entry : LexiconEntry) (recipe : Recipe) : List Str :=
  [[],
   str "**See also (direct Strong's cross-refs):**  ",
   List.intercalate (str ", ") (entry.links.see_also.map (fun id =>
     str "[[" ++ id ++ str "]]")),
   [],
   str "**Related Strong's (lexical / semantic):**  ",
   List.intercalate (str ", ") (entry.links.related_strongs.map (fun id =>
     str "[[" ++ id ++ str "]]")),
   [],
   str "**Topical connections:**  ",
   List.intercalate (str ", ") (entry.links.topical.map (fun id =>
     str "[[" ++ id ++ str "]]")),
   [],
   str "**Scripture references:**  ",
   (if LinkType.scripture ∈ recipe.linkTypes then
      List.intercalate (str ", ") (entry.links.scripture.map (fun r =>
        str "[[" ++ scriptureLinkPath recipe r ++ ['|'] ++ r.display ++
          str "]]"))
    else []),
   []]

/-- The closing lines after the sections: a blank, a rule, a blank, the
outbound-links heading and the appendix. -/
def tailBodyLines (entry : LexiconEntry) (recipe : Recipe) : List Str :=
  [[], str "---", [], str "## Outbound Links"] ++ appTailLines entry recipe

/-- The sections the recipe renders, in the writer's `sectionOrder`. -/
def includedKeys (recipe : Recipe) : List SectionKey :=
  sectionOrder.filter (fun k => decide (k ∈ recipe.includeSections))

/-- The body lines of `renderNew`, in source order: title and quote
header, the rendered sections, then the outbound-links appendix. -/
def renderBodyLines (entry : LexiconEntry) (recipe : Recipe) : List Str :=
  headBodyLines entry ++
  ((includedKeys recipe).map
    (fun k => renderSection (sectionTitleFor k) k
      (renderBlocksFor entry recipe k))).flatten ++
  tailBodyLines entry recipe

/-- The `renderNew` function: the joined YAML header (ending in a
newline, its last line being empty) followed by the joined body. -/
def renderNew (entry : LexiconEntry) (recipe : Recipe) (today : Str) : Str :=
  List.intercalate ['\n'] (yamlLines entry recipe today) ++
  List.intercalate ['\n'] (renderBodyLines entry recipe)

/-- The text rewriting of `mergeIntoFile`: fold `replaceImportedBlock`
over the recipe's included sections with the raw entry block (`?? ""`)
as replacement. -/
def mergeIntoFileText (doc : Str) (entry : LexiconEntry) (recipe : Recipe) : Str :=
  recipe.includeSections.foldl
    (fun text sec =>
      replaceImportedBlock text (sectionKeyName sec) (entry.blocks sec))
    doc

/-- Reading a section block back from a document, the way the merge
boundary delimits it: the trimmed text between the end of the section's
marker and the computed end boundary. -/
def sectionBlockOf (doc : Str) (key : SectionKey) : Option Str :=
  match importBoundary doc (sectionKeyName key) with
  | none => none
  | some (a, e) => some (jsTrim ((doc.drop a).take (e - a)))

/-- A concrete entry whose helps block mentions the verse its one
scripture ref displays. -/
def entryC2 : LexiconEntry :=
  { strong := str "G1", lang := Lang.greek, lemma_ := none,
    transliteration := none, pronunciation := none, phonetic := none,
    part_of_speech := none, source_primary := str "u", source_alt := [],
    blocks := fun k => if k = SectionKey.helps then str "Genesis 1:1 here" else [],
    links := { see_also := [], related_strongs := [], topical := [],
               scripture := [makeScriptureRefFromSlug (str "genesis") 1 1] } }

/-- A one-section recipe that renders scripture links. -/
def recipeC2 : Recipe :=
  { id := str "r", includeSections := [SectionKey.helps], followEdges := [],
    linkTypes := [LinkType.scripture], linkGreekHebrew := false,
    lemmaAliasMode := LemmaAliasMode.primary, maxDepth := 0, maxNodes := 1,
    rateLimitMs := 0, skipExisting := false, rootFolder := str "Lexicon",
    scriptureRootFolder := str "Scripture", noteTitlePattern := str "{{strong}}" }

/-- The same recipe with scripture links disabled. -/
def recipeC2off : Recipe :=
  { recipeC2 with linkTypes := [LinkType.strongs] }


/-!  Occurrence-stepping toolkit for the merge analysis: a `skipOK`
prefix is one inside which no occurrence of the needle can start, so the
search walks straight past it; `ltFree` (no `<`) and the pairwise marker
clash table are the two ways such prefixes arise in a rendered note. -/

/-- No occurrence of `needle` starts inside `P`, whatever follows it. -/
def skipOK (needle P : Str) : Prop :=
  ∀ i S, i < P.length → ¬ needle <+: (P ++ S).drop i

/-- A string without the marker-opening character. -/
abbrev ltFree (s : Str) : Prop := ∀ c ∈ s, c ≠ '<'

/-- A section block without markup: no heading hash, no marker opener. -/
abbrev blockTame (s : Str) : Prop := ∀ c ∈ s, c ≠ '#' ∧ c ≠ '<'

theorem skipOK_append {needle P Q : Str} (hp : skipOK needle P)
    (hq : skipOK needle Q) : skipOK needle (P ++ Q) := by
  intro i S hi hpre
  rcases Nat.lt_or_ge i P.length with h | h
  · exact hp i (Q ++ S) h (by rwa [List.append_assoc] at hpre)
  · have hi' : i - P.length < Q.length := by
      rw [List.length_append] at hi
      omega
    apply hq (i - P.length) S hi'
    have he : ((P ++ Q) ++ S).drop i = (Q ++ S).drop (i - P.length) := by
      rw [List.append_assoc, List.drop_append_eq_append_drop,
        List.drop_eq_nil_of_le h, List.nil_append]
    rwa [he] at hpre

theorem findSubIdx_append_skip {needle : Str} (P : Str) {S : Str}
    (h : skipOK needle P) :
    findSubIdx needle (P ++ S) = (findSubIdx needle S).map (· + P.length) := by
  induction P with
  | nil =>
    cases hf : findSubIdx needle S <;> simp [hf]
  | cons c P' ih =>
    have h0 : ¬ needle <+: c :: (P' ++ S) := by
      have h00 := h 0 S (by simp)
      rwa [List.drop_zero, List.cons_append] at h00
    have hP' : skipOK needle P' := by
      intro i S' hi hpre
      apply h (i + 1) S' (by simp only [List.length_cons]; omega)
      simpa using hpre
    simp only [List.cons_append, findSubIdx, List.append_eq]
    rw [if_neg (fun hb => h0 (List.isPrefixOf_iff_prefix.mp hb))]
    rw [ih hP']
    cases hf : findSubIdx needle S <;>
      simp [hf, List.length_cons, Nat.add_assoc]

theorem skipOK_of_ltFree {needle P : Str} (hh : needle.head? = some '<')
    (hP : ltFree P) : skipOK needle P := by
  intro i S hi hpre
  have h1 : ((P ++ S).drop i).head? = some '<' := by
    rcases hpre with ⟨t, ht⟩
    rw [← ht]
    cases needle with
    | nil => cases hh
    | cons a nd =>
      simp only [List.head?_cons, Option.some.injEq] at hh
      subst hh
      rfl
  rw [List.head?_drop, ← List.get?_eq_getElem?] at h1
  rw [List.get?_append hi] at h1
  exact hP '<' (List.get?_mem h1) rfl

/-- The marker always opens with `<`. -/
theorem markerFor_head (key : Str) : (markerFor key).head? = some '<' := by
  have h : markerFor key
      = '<' :: (str "!-- imported: " ++ key ++ str " -->") := rfl
  rw [h]
  rfl

/-- Pairwise clash table: markers of two distinct section keys disagree
at some position lying inside both. -/
def markerClash (a b : SectionKey) : Bool :=
  (List.range (markerFor (sectionKeyName a)).length).any (fun d =>
    decide ((markerFor (sectionKeyName a)).get? d
      ≠ (markerFor (sectionKeyName b)).get? d) &&
    decide (d < (markerFor (sectionKeyName b)).length))

theorem markerClash_all : ∀ a b : SectionKey, a ≠ b → markerClash a b = true := by
  intro a b h
  cases a <;> cases b <;> first | exact absurd rfl h | decide

theorem marker_tail_ltFree :
    ∀ b : SectionKey, ∀ c ∈ (markerFor (sectionKeyName b)).drop 1, c ≠ '<' := by
  intro b
  cases b <;> decide

theorem skipOK_marker {a b : SectionKey} (hne : a ≠ b) :
    skipOK (markerFor (sectionKeyName a)) (markerFor (sectionKeyName b)) := by
  intro i S hi hpre
  cases i with
  | zero =>
    have hcl := markerClash_all a b hne
    unfold markerClash at hcl
    rcases List.any_eq_true.mp hcl with ⟨d, hd, hdp⟩
    rw [Bool.and_eq_true, decide_eq_true_eq, decide_eq_true_eq] at hdp
    obtain ⟨hne', hdb⟩ := hdp
    have hdr : d < (markerFor (sectionKeyName a)).length := List.mem_range.mp hd
    apply hne'
    rcases hpre with ⟨t, ht⟩
    rw [List.drop_zero] at ht
    have h1 : (markerFor (sectionKeyName a)).get? d
        = ((markerFor (sectionKeyName a)) ++ t).get? d := (List.get?_append hdr).symm
    rw [h1, ht, List.get?_append hdb]
  | succ j =>
    have hhead : ((markerFor (sectionKeyName b) ++ S).drop (j + 1)).head?
        = some '<' := by
      rcases hpre with ⟨t, ht⟩
      rw [← ht]
      have h := markerFor_head (sectionKeyName a)
      cases hma : markerFor (sectionKeyName a) with
      | nil => rw [hma] at h; cases h
      | cons x xs =>
        rw [hma] at h
        simp only [List.head?_cons, Option.some.injEq] at h
        subst h
        rfl
    rw [List.head?_drop, ← List.get?_eq_getElem?] at hhead
    rw [List.get?_append hi] at hhead
    have h2 : ((markerFor (sectionKeyName b)).drop 1).get? j = some '<' := by
      rw [List.get?_drop, Nat.add_comm]
      exact hhead
    exact marker_tail_ltFree b '<' (List.get?_mem h2) rfl

/-- `findSubIdx` hits the head when the string starts with the non-empty
needle itself. -/
theorem findSubIdx_self {m : Str} (hne : m ≠ []) (X : Str) :
    findSubIdx m (m ++ X) = some 0 := by
  cases m with
  | nil => exact absurd rfl hne
  | cons c m' =>
    simp only [List.cons_append, findSubIdx]
    rw [if_pos]
    exact List.isPrefixOf_iff_prefix.mpr ⟨X, by simp⟩

/-- A string with no `<` contains no occurrence of a needle whose second
character is `<` (such as `\n<!-- imported:`). -/
theorem findSubIdx_ge_of_ltFree {needle S : Str} {mm : Nat}
    (hn : needle.get? 1 = some '<')
    (h : findSubIdx needle S = some mm)
    {P : Str} {T : Str} (hS : S = P ++ T) (hP : ltFree P) :
    P.length ≤ mm + 1 := by
  by_contra hgt
  push_neg at hgt
  have hocc := findSubIdx_some_occ h
  rcases hocc with ⟨t, ht⟩
  have h1 : S.get? (mm + 1) = some '<' := by
    have h2 : (S.drop mm).get? 1 = some '<' := by
      rw [← ht, List.get?_append]
      · exact hn
      · cases needle with
        | nil => cases hn
        | cons a nd =>
          cases nd with
          | nil => cases hn
          | cons b nd' => simp
    rwa [List.get?_drop] at h2
  rw [hS, List.get?_append hgt] at h1
  exact hP '<' (List.get?_mem h1) rfl

/-!  Heading-pattern stepping for `searchHeading`. -/

theorem headingAt_true_hash {s : Str} (h : headingAt s = true) :
    s.get? 1 = some '#' := by
  unfold headingAt at h
  split at h
  · rfl
  · cases h

theorem searchHeading_append_skip (P : Str) {S : Str}
    (h : ∀ i, i < P.length → headingAt ((P ++ S).drop i) = false) :
    searchHeading (P ++ S) = (searchHeading S).map (· + P.length) := by
  induction P with
  | nil =>
    cases hf : searchHeading S <;> simp [hf]
  | cons c P' ih =>
    have h0 : headingAt (c :: (P' ++ S)) = false := by
      have h00 := h 0 (by simp)
      rwa [List.drop_zero, List.cons_append] at h00
    have hP' : ∀ i, i < P'.length → headingAt ((P' ++ S).drop i) = false := by
      intro i hi
      have := h (i + 1) (by simp only [List.length_cons]; omega)
      simpa using this
    simp only [List.cons_append, searchHeading, List.append_eq]
    rw [if_neg (by simp [h0])]
    rw [ih hP']
    cases hf : searchHeading S <;>
      simp [hf, List.length_cons, Nat.add_assoc]

/-- A hash-free prefix followed by a newline admits no heading match
starting inside it. -/
theorem headSafe_of_hashFree {P S : Str} (hP : ∀ c ∈ P, c ≠ '#')
    (hS : S.head? ≠ some '#') :
    ∀ i, i < P.length → headingAt ((P ++ S).drop i) = false := by
  intro i hi
  by_cases hha : headingAt ((P ++ S).drop i) = true
  · exfalso
    have h1 := headingAt_true_hash hha
    rw [List.get?_drop] at h1
    rcases Nat.lt_or_ge (i + 1) P.length with hlt | hge
    · rw [List.get?_append hlt] at h1
      exact hP '#' (List.get?_mem h1) rfl
    · have hle : P.length = i + 1 := by omega
      rw [List.get?_append_right hge] at h1
      have : i + 1 - P.length = 0 := by omega
      rw [this, List.get?_zero] at h1
      exact hS h1
  · simpa using hha

/-!  `jsTrim` algebra: wrapping a string in newlines does not change its
trim, and trimming is idempotent. -/

theorem jsTrim_cons_newline (x : Str) : jsTrim ('\n' :: x) = jsTrim x := by
  simp [jsTrim, List.dropWhile_cons, isJsSpace]

theorem jsTrim_append_newline (y : Str) : jsTrim (y ++ ['\n']) = jsTrim y := by
  induction y with
  | nil => rfl
  | cons c y' ih =>
    by_cases hc : isJsSpace c = true
    · have h1 : jsTrim (c :: (y' ++ ['\n'])) = jsTrim (y' ++ ['\n']) := by
        simp [jsTrim, List.dropWhile_cons, hc]
      have h2 : jsTrim (c :: y') = jsTrim y' := by
        simp [jsTrim, List.dropWhile_cons, hc]
      rw [List.cons_append, h1, h2, ih]
    · have hc' : isJsSpace c = false := by simpa using hc
      have h1 : List.dropWhile isJsSpace ((c :: y') ++ ['\n'])
          = (c :: y') ++ ['\n'] := by
        simp [List.dropWhile_cons, hc']
      have h2 : List.dropWhile isJsSpace (c :: y') = c :: y' := by
        simp [List.dropWhile_cons, hc']
      have h3 : ((c :: y') ++ ['\n']).reverse = '\n' :: (c :: y').reverse := by
        simp
      rw [jsTrim, h1, h3, jsTrim, h2]
      simp [List.dropWhile_cons, isJsSpace]

theorem dropWhile_head_not {p : Char → Bool} :
    ∀ (l : Str) (c : Char), (l.dropWhile p).head? = some c → p c = false := by
  intro l
  induction l with
  | nil => intro c h; cases h
  | cons a t ih =>
    intro c h
    by_cases ha : p a = true
    · rw [List.dropWhile_cons, if_pos ha] at h
      exact ih c h
    · rw [List.dropWhile_cons, if_neg ha] at h
      simp only [List.head?_cons, Option.some.injEq] at h
      subst h
      simpa using ha

theorem dropWhile_of_head {p : Char → Bool} {l : Str}
    (h : ∀ c, l.head? = some c → p c = false) : l.dropWhile p = l := by
  cases l with
  | nil => rfl
  | cons a t =>
    rw [List.dropWhile_cons, if_neg]
    simp [h a rfl]

theorem dropWhile_dropWhile {p : Char → Bool} (l : Str) :
    List.dropWhile p (List.dropWhile p l) = List.dropWhile p l :=
  dropWhile_of_head (fun c hc => dropWhile_head_not l c hc)

theorem jsTrim_idem (x : Str) : jsTrim (jsTrim x) = jsTrim x := by
  have hz : List.dropWhile isJsSpace (jsTrim x) = jsTrim x := by
    apply dropWhile_of_head
    intro c hc
    have hpre : jsTrim x <+: List.dropWhile isJsSpace x := by
      have h1 : ((List.dropWhile isJsSpace x).reverse.dropWhile isJsSpace)
          <:+ (List.dropWhile isJsSpace x).reverse := List.dropWhile_suffix _
      have h2 := List.reverse_prefix.mpr h1
      rw [List.reverse_reverse] at h2
      exact h2
    rcases hpre with ⟨t, ht⟩
    rcases hzz : jsTrim x with _ | ⟨a, z'⟩
    · rw [hzz] at hc
      cases hc
    · rw [hzz] at ht hc
      simp only [List.head?_cons, Option.some.injEq] at hc
      subst hc
      have hhead : (List.dropWhile isJsSpace x).head? = some a := by
        rw [← ht]
        rfl
      exact dropWhile_head_not x a hhead
  rw [jsTrim, hz]
  have hrev : List.dropWhile isJsSpace (jsTrim x).reverse = (jsTrim x).reverse := by
    rw [jsTrim, List.reverse_reverse]
    exact dropWhile_dropWhile _
  rw [hrev, List.reverse_reverse]

/-!  Chunk decomposition of a rendered note's body: each included
section contributes its heading line, marker line, trimmed block and a
separator, and the sequence ends at the outbound-links heading.  A
freshly rendered chunk carries `\n\n---\n\n` (the last one also swallows
the appendix rule, giving `\n\n---\n\n\n---\n\n`); a chunk the merge has
rewritten carries `\n\n`. -/

def chunkSeq (entry : LexiconEntry) (app : Str) : List (SectionKey × Str) → Str
  | [] => str "## Outbound Links" ++ app
  | (k, sep) :: rest =>
    str "## " ++ sectionTitleFor k ++ ['\n'] ++ markerFor (sectionKeyName k) ++
      ['\n'] ++ jsTrim (entry.blocks k) ++ sep ++ chunkSeq entry app rest

/-- The separators a chunk can carry. -/
def sepOK (sep : Str) : Prop :=
  sep = str "\n\n" ∨ sep = str "\n\n---\n\n" ∨ sep = str "\n\n---\n\n\n---\n\n"

/-- Rewrite the first chunk of the given key to the merged separator. -/
def setSep (k : SectionKey) : List (SectionKey × Str) → List (SectionKey × Str)
  | [] => []
  | (a, s) :: rest =>
    if a = k then (a, str "\n\n") :: rest else (a, s) :: setSep k rest

/-- Separator of the first chunk of the given key. -/
def firstSep (k : SectionKey) : List (SectionKey × Str) → Option Str
  | [] => none
  | (a, s) :: rest => if a = k then some s else firstSep k rest

theorem sectionTitle_ltFree :
    ∀ k : SectionKey, ∀ c ∈ sectionTitleFor k, c ≠ '<' := by
  intro k
  cases k <;> decide

theorem sepOK_tame {s : Str} (h : sepOK s) : ∀ c ∈ s, c ≠ '#' ∧ c ≠ '<' := by
  rcases h with h | h | h <;> subst h <;> decide

theorem sepOK_split {s : Str} (h : sepOK s) :
    ∃ s₀ : Str, s = s₀ ++ ['\n'] ∧ (∀ c ∈ s₀, c ≠ '#' ∧ c ≠ '<') ∧
      (s = str "\n\n" → s₀ = ['\n']) := by
  rcases h with h | h | h
  · exact ⟨['\n'], by rw [h]; rfl, by decide, fun _ => rfl⟩
  · refine ⟨str "\n\n---\n", by rw [h]; rfl, by decide, fun hc => ?_⟩
    rw [h] at hc
    cases hc
  · refine ⟨str "\n\n---\n\n\n---\n", by rw [h]; rfl, by decide, fun hc => ?_⟩
    rw [h] at hc
    cases hc

theorem ltFree_append {a b : Str} (ha : ltFree a) (hb : ltFree b) :
    ltFree (a ++ b) := by
  intro c hc
  rcases List.mem_append.mp hc with h | h
  · exact ha c h
  · exact hb c h

theorem mem_of_mem_jsTrim {c : Char} {s : Str} (h : c ∈ jsTrim s) : c ∈ s := by
  have h1 : jsTrim s <+: List.dropWhile isJsSpace s := by
    have hsuf : ((List.dropWhile isJsSpace s).reverse.dropWhile isJsSpace)
        <:+ (List.dropWhile isJsSpace s).reverse := List.dropWhile_suffix _
    have h2 := List.reverse_prefix.mpr hsuf
    rw [List.reverse_reverse] at h2
    exact h2
  have h2 : c ∈ List.dropWhile isJsSpace s := h1.subset h
  exact (List.dropWhile_suffix isJsSpace).subset h2

theorem chunkSeq_hash_head (entry : LexiconEntry) (app : Str)
    (cs : List (SectionKey × Str)) :
    ∃ Q : Str, chunkSeq entry app cs = '#' :: '#' :: ' ' :: Q := by
  have h3 : str "## " = ['#', '#', ' '] := rfl
  have h4 : str "## Outbound Links"
      = '#' :: '#' :: ' ' :: str "Outbound Links" := rfl
  cases cs with
  | nil =>
    refine ⟨str "Outbound Links" ++ app, ?_⟩
    simp [chunkSeq, h4]
  | cons c rest =>
    rcases c with ⟨k, sep⟩
    refine ⟨sectionTitleFor k ++ (['\n'] ++ (markerFor (sectionKeyName k) ++
      (['\n'] ++ (jsTrim (entry.blocks k) ++ (sep ++ chunkSeq entry app rest))))), ?_⟩
    simp [chunkSeq, h3, List.append_assoc]

theorem map_fst_setSep (k : SectionKey) (cs : List (SectionKey × Str)) :
    (setSep k cs).map Prod.fst = cs.map Prod.fst := by
  induction cs with
  | nil => rfl
  | cons c rest ih =>
    rcases c with ⟨a, s⟩
    by_cases hak : a = k
    · simp [setSep, hak]
    · simp [setSep, hak, ih]

theorem setSep_chunkOK {entry : LexiconEntry} {k : SectionKey}
    {cs : List (SectionKey × Str)}
    (h : ∀ c ∈ cs, sepOK c.2 ∧ blockTame (entry.blocks c.1)) :
    ∀ c ∈ setSep k cs, sepOK c.2 ∧ blockTame (entry.blocks c.1) := by
  induction cs with
  | nil => simpa [setSep] using h
  | cons c rest ih =>
    rcases c with ⟨a, s⟩
    rw [List.forall_mem_cons] at h
    by_cases hak : a = k
    · rw [setSep, if_pos hak, List.forall_mem_cons]
      exact ⟨⟨Or.inl rfl, h.1.2⟩, h.2⟩
    · rw [setSep, if_neg hak, List.forall_mem_cons]
      exact ⟨h.1, ih h.2⟩

theorem firstSep_setSep_ne {a k : SectionKey} (hne : a ≠ k)
    (cs : List (SectionKey × Str)) :
    firstSep k (setSep a cs) = firstSep k cs := by
  induction cs with
  | nil => rfl
  | cons c rest ih =>
    rcases c with ⟨b, s⟩
    by_cases hba : b = a
    · subst hba
      rw [setSep, if_pos rfl, firstSep, firstSep, if_neg hne, if_neg hne]
    · by_cases hbk : b = k
      · rw [setSep, if_neg hba, firstSep, firstSep, if_pos hbk, if_pos hbk]
      · rw [setSep, if_neg hba, firstSep, firstSep, if_neg hbk, if_neg hbk]
        exact ih

theorem firstSep_setSep_self {k : SectionKey} {cs : List (SectionKey × Str)}
    (h : k ∈ cs.map Prod.fst) :
    firstSep k (setSep k cs) = some (str "\n\n") := by
  induction cs with
  | nil => cases h
  | cons c rest ih =>
    rcases c with ⟨a, s⟩
    by_cases hak : a = k
    · rw [setSep, if_pos hak, firstSep, if_pos hak]
    · rw [setSep, if_neg hak, firstSep, if_neg hak]
      apply ih
      rcases List.mem_map.mp h with ⟨p, hp, hfst⟩
      rcases List.mem_cons.mp hp with rfl | hp'
      · exact absurd hfst hak
      · exact List.mem_map.mpr ⟨p, hp', hfst⟩

/-- Locating the first chunk of key `k`: the document splits at its
marker, the search finds exactly that marker, and `setSep` rewrites
exactly that chunk's separator. -/
theorem chunk_find (entry : LexiconEntry) (app : Str) (k : SectionKey) :
    ∀ (cs : List (SectionKey × Str)) (H : Str),
    skipOK (markerFor (sectionKeyName k)) H →
    (∀ c ∈ cs, sepOK c.2 ∧ blockTame (entry.blocks c.1)) →
    k ∈ cs.map Prod.fst →
    ∃ (P₁ : Str) (sep : Str) (rest : List (SectionKey × Str)),
      firstSep k cs = some sep ∧ sepOK sep ∧
      blockTame (entry.blocks k) ∧
      H ++ chunkSeq entry app cs
        = P₁ ++ (markerFor (sectionKeyName k) ++
            (['\n'] ++ (jsTrim (entry.blocks k) ++ (sep ++ chunkSeq entry app rest)))) ∧
      findSubIdx (markerFor (sectionKeyName k)) (H ++ chunkSeq entry app cs)
        = some P₁.length ∧
      H ++ chunkSeq entry app (setSep k cs)
        = P₁ ++ (markerFor (sectionKeyName k) ++
            (['\n'] ++ (jsTrim (entry.blocks k) ++
              (str "\n\n" ++ chunkSeq entry app rest)))) := by
  intro cs
  induction cs with
  | nil => intro H _ _ hk; cases hk
  | cons c rest' ih =>
    rcases c with ⟨a, s⟩
    intro H hH hcs hk
    rw [List.forall_mem_cons] at hcs
    by_cases hak : a = k
    · subst hak
      refine ⟨H ++ (str "## " ++ sectionTitleFor a ++ ['\n']), s, rest',
        by simp [firstSep], hcs.1.1, hcs.1.2, ?_, ?_, ?_⟩
      · simp [chunkSeq, List.append_assoc]
      · have hsk : skipOK (markerFor (sectionKeyName a))
            (H ++ (str "## " ++ sectionTitleFor a ++ ['\n'])) := by
          apply skipOK_append hH
          apply skipOK_of_ltFree (markerFor_head _)
          exact ltFree_append (ltFree_append (by decide) (sectionTitle_ltFree a))
            (by decide)
        have hdoc : H ++ chunkSeq entry app ((a, s) :: rest')
            = (H ++ (str "## " ++ sectionTitleFor a ++ ['\n'])) ++
              (markerFor (sectionKeyName a) ++
                (['\n'] ++ (jsTrim (entry.blocks a) ++
                  (s ++ chunkSeq entry app rest')))) := by
          simp [chunkSeq, List.append_assoc]
        rw [hdoc, findSubIdx_append_skip _ hsk,
          findSubIdx_self (markerFor_ne_nil _)]
        simp
      · simp [setSep, chunkSeq, List.append_assoc]
    · have hk2 : k ∈ rest'.map Prod.fst := by
        rcases List.mem_map.mp hk with ⟨p, hp, hfst⟩
        rcases List.mem_cons.mp hp with rfl | hp2
        · exact absurd hfst hak
        · exact List.mem_map.mpr ⟨p, hp2, hfst⟩
      have hBt : ltFree (jsTrim (entry.blocks a)) := by
        intro ch hch
        exact (hcs.1.2 ch (mem_of_mem_jsTrim hch)).2
      have hne : k ≠ a := fun h => hak h.symm
      have hsC : skipOK (markerFor (sectionKeyName k))
          (str "## " ++ sectionTitleFor a ++ ['\n'] ++ markerFor (sectionKeyName a) ++
            ['\n'] ++ jsTrim (entry.blocks a) ++ s) := by
        refine skipOK_append (skipOK_append (skipOK_append
          (skipOK_append ?_ (skipOK_marker hne)) ?_) ?_) ?_
        · apply skipOK_of_ltFree (markerFor_head _)
          exact ltFree_append (ltFree_append (by decide) (sectionTitle_ltFree a))
            (by decide)
        · exact skipOK_of_ltFree (markerFor_head _) (by decide)
        · exact skipOK_of_ltFree (markerFor_head _) hBt
        · exact skipOK_of_ltFree (markerFor_head _)
            (fun c hc => ((sepOK_tame hcs.1.1) c hc).2)
      have hH2 : skipOK (markerFor (sectionKeyName k))
          (H ++ (str "## " ++ sectionTitleFor a ++ ['\n'] ++
            markerFor (sectionKeyName a) ++ ['\n'] ++ jsTrim (entry.blocks a) ++ s)) :=
        skipOK_append hH hsC
      obtain ⟨P₁, sep, rest, hfs, hsep, hbt, hdoc, hfind, hset⟩ :=
        ih (H ++ (str "## " ++ sectionTitleFor a ++ ['\n'] ++
          markerFor (sectionKeyName a) ++ ['\n'] ++ jsTrim (entry.blocks a) ++ s))
          hH2 hcs.2 hk2
      have hsplit : H ++ chunkSeq entry app ((a, s) :: rest')
          = (H ++ (str "## " ++ sectionTitleFor a ++ ['\n'] ++
              markerFor (sectionKeyName a) ++ ['\n'] ++ jsTrim (entry.blocks a) ++ s)) ++
            chunkSeq entry app rest' := by
        simp [chunkSeq, List.append_assoc]
      have hsplit2 : H ++ chunkSeq entry app (setSep k ((a, s) :: rest'))
          = (H ++ (str "## " ++ sectionTitleFor a ++ ['\n'] ++
              markerFor (sectionKeyName a) ++ ['\n'] ++ jsTrim (entry.blocks a) ++ s)) ++
            chunkSeq entry app (setSep k rest') := by
        rw [setSep, if_neg hak]
        simp [chunkSeq, List.append_assoc]
      refine ⟨P₁, sep, rest, ?_, hsep, hbt, ?_, ?_, ?_⟩
      · rw [firstSep, if_neg hak]
        exact hfs
      · rw [hsplit]
        exact hdoc
      · rw [hsplit]
        exact hfind
      · rw [hsplit2]
        exact hset

theorem drop_append_len (X Y : Str) (j : Nat) :
    (X ++ Y).drop (X.length + j) = Y.drop j := by
  rw [List.drop_append_eq_append_drop, List.drop_eq_nil_of_le (by omega),
    List.nil_append]
  congr 1
  omega

/-- The boundary the merge computes right after a chunk's marker: the
replaced span runs to the newline that opens the next heading. -/
theorem importEndRel_chunk {B s₀ Q : Str}
    (hB : ∀ c ∈ B, c ≠ '#' ∧ c ≠ '<')
    (h0 : ∀ c ∈ s₀, c ≠ '#' ∧ c ≠ '<') :
    importEndRel (('\n' :: (B ++ s₀)) ++ ('\n' :: '#' :: '#' :: ' ' :: Q))
      = ('\n' :: (B ++ s₀)).length := by
  have hhash : ∀ c ∈ '\n' :: (B ++ s₀), c ≠ '#' := by
    intro c hc
    rcases List.mem_cons.mp hc with rfl | hc2
    · decide
    · rcases List.mem_append.mp hc2 with h | h
      · exact (hB c h).1
      · exact (h0 c h).1
  have hlt : ltFree (('\n' :: (B ++ s₀)) ++ ['\n']) := by
    intro c hc
    rcases List.mem_append.mp hc with h | h
    · rcases List.mem_cons.mp h with rfl | h2
      · decide
      · rcases List.mem_append.mp h2 with h3 | h3
        · exact (hB c h3).2
        · exact (h0 c h3).2
    · rcases List.mem_singleton.mp h with rfl
      decide
  have hhat : headingAt ('\n' :: '#' :: '#' :: ' ' :: Q) = true := rfl
  have hsh0 : searchHeading ('\n' :: '#' :: '#' :: ' ' :: Q) = some 0 := by
    simp [searchHeading, hhat]
  have hsh : searchHeading (('\n' :: (B ++ s₀)) ++ ('\n' :: '#' :: '#' :: ' ' :: Q))
      = some ('\n' :: (B ++ s₀)).length := by
    rw [searchHeading_append_skip _
      (headSafe_of_hashFree hhash (by simp)), hsh0]
    simp
  cases hfm : findSubIdx (str "\n<!-- imported:")
      (('\n' :: (B ++ s₀)) ++ ('\n' :: '#' :: '#' :: ' ' :: Q)) with
  | none =>
    unfold importEndRel
    rw [hsh, hfm]
  | some mm =>
    have hge : ('\n' :: (B ++ s₀)).length ≤ mm := by
      have hdec : ('\n' :: (B ++ s₀)) ++ ('\n' :: '#' :: '#' :: ' ' :: Q)
          = (('\n' :: (B ++ s₀)) ++ ['\n']) ++ ('#' :: '#' :: ' ' :: Q) := by
        simp
      have h1 := @findSubIdx_ge_of_ltFree (str "\n<!-- imported:") _ _
        rfl hfm _ _ hdec hlt
      rw [List.length_append] at h1
      simpa using h1
    unfold importEndRel
    rw [hsh, hfm]
    exact Nat.min_eq_left hge

/-- One merge step on a chunked document: the splice rewrites exactly
the targeted chunk's separator, and on an already merged chunk the
trimmed block can be read back between the marker and the boundary. -/
theorem chunk_step (entry : LexiconEntry) (app : Str) (k : SectionKey)
    (cs : List (SectionKey × Str)) (H : Str)
    (hH : skipOK (markerFor (sectionKeyName k)) H)
    (hcs : ∀ c ∈ cs, sepOK c.2 ∧ blockTame (entry.blocks c.1))
    (hk : k ∈ cs.map Prod.fst) :
    replaceImportedBlock (H ++ chunkSeq entry app cs) (sectionKeyName k)
        (entry.blocks k)
      = H ++ chunkSeq entry app (setSep k cs) ∧
    (firstSep k cs = some (str "\n\n") →
      sectionBlockOf (H ++ chunkSeq entry app cs) k
        = some (jsTrim (entry.blocks k))) := by
  obtain ⟨P₁, sep, rest, hfs, hsep, hbt, hdoc, hfind, hset⟩ :=
    chunk_find entry app k cs H hH hcs hk
  obtain ⟨s₀, hs₀, hs₀t, hs₀nn⟩ := sepOK_split hsep
  obtain ⟨Q, hQ⟩ := chunkSeq_hash_head entry app rest
  have hBt : ∀ c ∈ jsTrim (entry.blocks k), c ≠ '#' ∧ c ≠ '<' :=
    fun c hc => hbt c (mem_of_mem_jsTrim hc)
  have hdoc2 : H ++ chunkSeq entry app cs
      = (P₁ ++ markerFor (sectionKeyName k)) ++
        (('\n' :: (jsTrim (entry.blocks k) ++ s₀)) ++
          ('\n' :: '#' :: '#' :: ' ' :: Q)) := by
    rw [hdoc, hs₀, hQ]
    simp [List.append_assoc]
  have hlen : (P₁ ++ markerFor (sectionKeyName k)).length
      = P₁.length + (markerFor (sectionKeyName k)).length := List.length_append _ _
  have htake : (H ++ chunkSeq entry app cs).take
      (P₁.length + (markerFor (sectionKeyName k)).length)
      = P₁ ++ markerFor (sectionKeyName k) := by
    rw [hdoc2]
    exact List.take_left' hlen
  have hdropRest : (H ++ chunkSeq entry app cs).drop
      (P₁.length + (markerFor (sectionKeyName k)).length)
      = ('\n' :: (jsTrim (entry.blocks k) ++ s₀)) ++
        ('\n' :: '#' :: '#' :: ' ' :: Q) := by
    rw [hdoc2]
    exact List.drop_left' hlen
  have hrel : importEndRel ((H ++ chunkSeq entry app cs).drop
      (P₁.length + (markerFor (sectionKeyName k)).length))
      = ('\n' :: (jsTrim (entry.blocks k) ++ s₀)).length := by
    rw [hdropRest]
    exact importEndRel_chunk hBt hs₀t
  have hdrope : (H ++ chunkSeq entry app cs).drop
      (P₁.length + (markerFor (sectionKeyName k)).length +
        ('\n' :: (jsTrim (entry.blocks k) ++ s₀)).length)
      = '\n' :: '#' :: '#' :: ' ' :: Q := by
    rw [hdoc2, ← hlen, drop_append_len, List.drop_left]
  constructor
  · simp only [replaceImportedBlock, hfind]
    rw [htake, hrel, hdrope, hset, hQ]
    have hnn : str "\n\n" = ['\n', '\n'] := rfl
    by_cases hBnil : jsTrim (entry.blocks k) = []
    · rw [if_pos hBnil, hBnil]
      simp [hnn, List.append_assoc]
    · rw [if_neg hBnil]
      simp [hnn, List.append_assoc]
  · intro hmerged
    rw [hfs] at hmerged
    have hsepnn : sep = str "\n\n" := by
      simpa using hmerged
    have hs0nl : s₀ = ['\n'] := hs₀nn hsepnn
    simp only [sectionBlockOf, importBoundary, hfind, hrel]
    have hsub : P₁.length + (markerFor (sectionKeyName k)).length +
        ('\n' :: (jsTrim (entry.blocks k) ++ s₀)).length -
        (P₁.length + (markerFor (sectionKeyName k)).length)
        = ('\n' :: (jsTrim (entry.blocks k) ++ s₀)).length := by
      omega
    rw [hdropRest, hsub, List.take_left]
    rw [hs0nl]
    rw [jsTrim_cons_newline, jsTrim_append_newline, jsTrim_idem]

/-- The separators `renderNew` puts after each chunk, read off the joined
body: `\n\n---\n\n` between sections, and after the last one the double
rule in front of the outbound-links heading. -/
def initSeps : List SectionKey → List (SectionKey × Str)
  | [] => []
  | [k] => [(k, str "\n\n---\n\n\n---\n\n")]
  | k :: k' :: rest => (k, str "\n\n---\n\n") :: initSeps (k' :: rest)

/-- The joined appendix after the outbound-links heading. -/
def appStr (entry : LexiconEntry) (recipe : Recipe) : Str :=
  ['\n'] ++ List.intercalate ['\n'] (appTailLines entry recipe)

/-- Everything `renderNew` writes before the first section heading (or,
with no sections included, before the outbound-links heading). -/
def renderHead (entry : LexiconEntry) (recipe : Recipe) (today : Str) : Str :=
  List.intercalate ['\n'] (yamlLines entry recipe today) ++
  List.intercalate ['\n'] (headBodyLines entry) ++
  (if includedKeys recipe = [] then str "\n\n---\n\n" else ['\n'])

theorem ic_singleton (sep a : Str) : List.intercalate sep [a] = a := by
  simp [List.intercalate, List.intersperse]

theorem ic_cons₂ (sep a b : Str) (l : List Str) :
    List.intercalate sep (a :: b :: l)
      = a ++ sep ++ List.intercalate sep (b :: l) := by
  simp [List.intercalate, List.intersperse, List.append_assoc]

theorem ic_append (sep : Str) (B : List Str) (hB : B ≠ []) :
    ∀ A : List Str, A ≠ [] →
      List.intercalate sep (A ++ B)
        = List.intercalate sep A ++ sep ++ List.intercalate sep B := by
  intro A
  induction A with
  | nil => intro h; exact absurd rfl h
  | cons a A' ih =>
    intro _
    cases A' with
    | nil =>
      cases B with
      | nil => exact absurd rfl hB
      | cons b B' => rw [List.singleton_append, ic_cons₂, ic_singleton]
    | cons a2 A'' =>
      have h1 : (a :: a2 :: A'') ++ B = a :: a2 :: (A'' ++ B) := by simp
      have ih' : List.intercalate sep (a2 :: (A'' ++ B))
          = List.intercalate sep (a2 :: A'') ++ sep ++ List.intercalate sep B := by
        rw [← List.cons_append]
        exact ih (by simp)
      rw [h1, ic_cons₂, ih', ic_cons₂]
      simp [List.append_assoc]

theorem ic_six (sep a b c d e f : Str) :
    List.intercalate sep [a, b, c, d, e, f]
      = a ++ sep ++ (b ++ sep ++ (c ++ sep ++ (d ++ sep ++ (e ++ sep ++ f)))) := by
  rw [ic_cons₂, ic_cons₂, ic_cons₂, ic_cons₂, ic_cons₂, ic_singleton]

theorem map_fst_initSeps : ∀ ks : List SectionKey,
    (initSeps ks).map Prod.fst = ks := by
  intro ks
  induction ks with
  | nil => rfl
  | cons k ks' ih =>
    cases ks' with
    | nil => rfl
    | cons k2 ks'' =>
      simp only [initSeps, List.map_cons]
      rw [ih]

theorem initSeps_chunkOK (entry : LexiconEntry) :
    ∀ ks : List SectionKey, (∀ k ∈ ks, blockTame (entry.blocks k)) →
      ∀ c ∈ initSeps ks, sepOK c.2 ∧ blockTame (entry.blocks c.1) := by
  intro ks
  induction ks with
  | nil => intro _ c hc; simp [initSeps] at hc
  | cons k ks' ih =>
    intro hb c hc
    cases ks' with
    | nil =>
      simp only [initSeps, List.mem_singleton] at hc
      subst hc
      exact ⟨Or.inr (Or.inr rfl), hb k (by simp)⟩
    | cons k2 ks'' =>
      simp only [initSeps, List.mem_cons] at hc
      rcases hc with rfl | hc2
      · exact ⟨Or.inr (Or.inl rfl), hb k (by simp)⟩
      · exact ih (fun x hx => hb x (List.mem_cons_of_mem _ hx)) c hc2

theorem fold_chunkOK (entry : LexiconEntry) :
    ∀ (L : List SectionKey) (cs : List (SectionKey × Str)),
      (∀ c ∈ cs, sepOK c.2 ∧ blockTame (entry.blocks c.1)) →
      ∀ c ∈ List.foldl (fun acc sec => setSep sec acc) cs L,
        sepOK c.2 ∧ blockTame (entry.blocks c.1) := by
  intro L
  induction L with
  | nil => intro cs h; simpa using h
  | cons a L' ih =>
    intro cs h
    exact ih (setSep a cs) (setSep_chunkOK h)

theorem fold_map_fst :
    ∀ (L : List SectionKey) (cs : List (SectionKey × Str)),
      (List.foldl (fun acc sec => setSep sec acc) cs L).map Prod.fst
        = cs.map Prod.fst := by
  intro L
  induction L with
  | nil => intro cs; rfl
  | cons a L' ih =>
    intro cs
    rw [List.foldl_cons, ih (setSep a cs), map_fst_setSep]

theorem firstSep_fold_preserve {k : SectionKey} {v : Str} :
    ∀ (L : List SectionKey) (cs : List (SectionKey × Str)), k ∉ L →
      firstSep k cs = some v →
      firstSep k (List.foldl (fun acc sec => setSep sec acc) cs L) = some v := by
  intro L
  induction L with
  | nil => intro cs _ h; simpa using h
  | cons a L' ih =>
    intro cs hk h
    rw [List.foldl_cons]
    refine ih (setSep a cs) (fun h2 => hk (List.mem_cons_of_mem _ h2)) ?_
    rw [firstSep_setSep_ne (fun he => hk (by subst he; exact List.mem_cons_self _ _))]
    exact h

theorem firstSep_fold {k : SectionKey} :
    ∀ (L : List SectionKey) (cs : List (SectionKey × Str)),
      k ∈ cs.map Prod.fst → k ∈ L →
      firstSep k (List.foldl (fun acc sec => setSep sec acc) cs L)
        = some (str "\n\n") := by
  intro L
  induction L with
  | nil => intro cs _ h; exact absurd h (List.not_mem_nil k)
  | cons a L' ih =>
    intro cs hmem hkL
    rw [List.foldl_cons]
    by_cases hk' : k ∈ L'
    · exact ih (setSep a cs) (by rw [map_fst_setSep]; exact hmem) hk'
    · have hka : k = a := by
        rcases List.mem_cons.mp hkL with h | h
        · exact h
        · exact absurd h hk'
      subst hka
      exact firstSep_fold_preserve L' (setSep k cs) hk' (firstSep_setSep_self hmem)

/-- Folding the merge over a list of keys present in the chunk list
rewrites exactly those chunks' separators. -/
theorem merge_fold (entry : LexiconEntry) (app : Str) :
    ∀ (L : List SectionKey) (cs : List (SectionKey × Str)) (H : Str),
      ltFree H →
      (∀ c ∈ cs, sepOK c.2 ∧ blockTame (entry.blocks c.1)) →
      (∀ k ∈ L, k ∈ cs.map Prod.fst) →
      List.foldl (fun text sec =>
          replaceImportedBlock text (sectionKeyName sec) (entry.blocks sec))
        (H ++ chunkSeq entry app cs) L
        = H ++ chunkSeq entry app (List.foldl (fun acc sec => setSep sec acc) cs L) := by
  intro L
  induction L with
  | nil => intro cs H _ _ _; rfl
  | cons a L' ih =>
    intro cs H hH hcs hmem
    rw [List.foldl_cons, List.foldl_cons]
    rw [(chunk_step entry app a cs H
        (skipOK_of_ltFree (markerFor_head _) hH) hcs
        (hmem a (List.mem_cons_self a L'))).1]
    exact ih (setSep a cs) H hH (setSep_chunkOK hcs)
      (fun k hk => by rw [map_fst_setSep]; exact hmem k (List.mem_cons_of_mem _ hk))

theorem ic_tailBody (entry : LexiconEntry) (recipe : Recipe) :
    List.intercalate ['\n'] (tailBodyLines entry recipe)
      = str "\n---\n\n" ++ (str "## Outbound Links" ++ appStr entry recipe) := by
  have hne : appTailLines entry recipe ≠ [] := by simp [appTailLines]
  rw [show tailBodyLines entry recipe
      = [[], str "---", [], str "## Outbound Links"] ++ appTailLines entry recipe
    from rfl]
  rw [ic_append ['\n'] _ hne _ (by simp)]
  rw [ic_cons₂, ic_cons₂, ic_cons₂, ic_singleton]
  have e1 : str "---" = ['-', '-', '-'] := rfl
  have e2 : str "\n---\n\n" = ['\n', '-', '-', '-', '\n', '\n'] := rfl
  rw [appStr, e1, e2]
  simp [List.append_assoc]

/-- Joining the rendered section lines and the closing lines yields the
chunk sequence with the writer's fresh separators. -/
theorem ic_sections (entry : LexiconEntry) (recipe : Recipe)
    (hoff : renderBlocksFor entry recipe = entry.blocks) :
    ∀ ks : List SectionKey, ks ≠ [] →
      List.intercalate ['\n']
        ((ks.map (fun k => renderSection (sectionTitleFor k) k
            (renderBlocksFor entry recipe k))).flatten
          ++ tailBodyLines entry recipe)
        = chunkSeq entry (appStr entry recipe) (initSeps ks) := by
  intro ks
  simp only [hoff]
  induction ks with
  | nil => intro h; exact absurd rfl h
  | cons k ks' ih =>
    intro _
    cases ks' with
    | nil =>
      simp only [List.map_cons, List.map_nil, List.flatten_cons,
        List.flatten_nil, List.append_nil]
      rw [ic_append ['\n'] _ (by simp [tailBodyLines]) _ (by simp [renderSection])]
      rw [ic_tailBody]
      simp only [renderSection]
      rw [ic_six]
      simp only [initSeps, chunkSeq]
      have e1 : str "---" = ['-', '-', '-'] := rfl
      have e2 : str "\n---\n\n" = ['\n', '-', '-', '-', '\n', '\n'] := rfl
      have e3 : str "\n\n---\n\n\n---\n\n"
          = ['\n', '\n', '-', '-', '-', '\n', '\n', '\n', '-', '-', '-', '\n', '\n'] := rfl
      rw [e1, e2, e3]
      simp [List.append_assoc]
    | cons k2 ks'' =>
      simp only [List.map_cons, List.flatten_cons]
      rw [List.append_assoc,
        ic_append ['\n'] _ (fun h => by simp [tailBodyLines] at h) _
          (by simp [renderSection])]
      have ih' := ih (by simp)
      simp only [List.map_cons, List.flatten_cons] at ih'
      rw [ih']
      simp only [renderSection]
      rw [ic_six]
      simp only [initSeps, chunkSeq]
      have e1 : str "---" = ['-', '-', '-'] := rfl
      have e4 : str "\n\n---\n\n" = ['\n', '\n', '-', '-', '-', '\n', '\n'] := rfl
      rw [e1, e4]
      simp [List.append_assoc]

/-- `renderNew` splits into everything before the first chunk heading
and the chunk sequence of the included sections. -/
theorem renderNew_decompose (entry : LexiconEntry) (recipe : Recipe) (today : Str)
    (hoff : renderBlocksFor entry recipe = entry.blocks) :
    renderNew entry recipe today
      = renderHead entry recipe today ++
        chunkSeq entry (appStr entry recipe) (initSeps (includedKeys recipe)) := by
  have hhead : headBodyLines entry ≠ [] := by simp [headBodyLines]
  by_cases hks : includedKeys recipe = []
  · simp only [renderNew, renderBodyLines, hks, List.map_nil, List.flatten_nil,
      List.append_nil]
    rw [ic_append ['\n'] _ (by simp [tailBodyLines]) _ hhead]
    rw [ic_tailBody]
    simp only [renderHead, hks, if_pos, initSeps, chunkSeq]
    have e2 : str "\n---\n\n" = ['\n', '-', '-', '-', '\n', '\n'] := rfl
    have e4 : str "\n\n---\n\n" = ['\n', '\n', '-', '-', '-', '\n', '\n'] := rfl
    rw [e2, e4]
    simp [List.append_assoc]
  · simp only [renderNew, renderBodyLines]
    rw [List.append_assoc,
      ic_append ['\n'] _ (fun h => by simp [tailBodyLines] at h) _ hhead]
    rw [ic_sections entry recipe hoff _ hks]
    simp only [renderHead, if_neg hks]
    simp [List.append_assoc]

/-- Tameness of an entry/recipe pair for the merge round-trip: none of
the strings the writer places before the first section heading or in the
outbound-links appendix contains `<` (which could fake a marker), and no
included block contains `#` or `<` (which could fake a heading or a
marker). -/
abbrev renderTame (entry : LexiconEntry) (recipe : Recipe) (today : Str) : Prop :=
  ltFree entry.strong ∧
  ltFree (entry.lemma_.getD []) ∧
  ltFree (entry.transliteration.getD []) ∧
  ltFree (entry.pronunciation.getD []) ∧
  ltFree (entry.phonetic.getD []) ∧
  ltFree (entry.part_of_speech.getD []) ∧
  ltFree entry.source_primary ∧
  (∀ u ∈ entry.source_alt, ltFree u) ∧
  ltFree recipe.id ∧
  ltFree today ∧
  (∀ i ∈ entry.links.see_also, ltFree i) ∧
  (∀ i ∈ entry.links.related_strongs, ltFree i) ∧
  (∀ i ∈ entry.links.topical, ltFree i) ∧
  (∀ r ∈ entry.links.scripture,
    ltFree r.display ∧ ltFree (scriptureLinkPath recipe r)) ∧
  (∀ k ∈ recipe.includeSections, blockTame (entry.blocks k))

theorem decDigit_ne (d : Nat) : decDigit d ≠ '<' := by
  unfold decDigit
  repeat' split
  all_goals decide

theorem ltFree_natToDecimalAux : ∀ fuel n : Nat, ltFree (natToDecimalAux fuel n) := by
  intro fuel
  induction fuel with
  | zero => intro n c hc; simp [natToDecimalAux] at hc
  | succ f ih =>
    intro n
    by_cases h : n = 0
    · intro c hc
      simp [natToDecimalAux, h] at hc
    · rw [show natToDecimalAux (f + 1) n
          = natToDecimalAux f (n / 10) ++ [decDigit (n % 10)] from by
        rw [natToDecimalAux, if_neg h]]
      refine ltFree_append (ih _) ?_
      intro c hc
      rcases List.mem_singleton.mp hc with rfl
      exact decDigit_ne _

theorem ltFree_natToDecimal (n : Nat) : ltFree (natToDecimal n) := by
  unfold natToDecimal
  split
  · decide
  · exact ltFree_natToDecimalAux _ _

theorem ltFree_langStr (l : Lang) : ltFree (langStr l) := by
  cases l <;> decide

theorem ltFree_keyName (k : SectionKey) : ltFree (sectionKeyName k) := by
  cases k <;> decide

theorem mem_intersperse {x sep : Str} :
    ∀ {l : List Str}, x ∈ List.intersperse sep l → x = sep ∨ x ∈ l := by
  intro l
  induction l with
  | nil => intro h; simp [List.intersperse] at h
  | cons a t ih =>
    cases t with
    | nil =>
      intro h
      simp [List.intersperse] at h
      exact Or.inr (by simp [h])
    | cons b t' =>
      intro h
      rw [List.intersperse_cons₂] at h
      rcases List.mem_cons.mp h with rfl | h2
      · exact Or.inr (List.mem_cons_self _ _)
      · rcases List.mem_cons.mp h2 with rfl | h3
        · exact Or.inl rfl
        · rcases ih h3 with h4 | h4
          · exact Or.inl h4
          · exact Or.inr (List.mem_cons_of_mem _ h4)

theorem ltFree_intercalate {sep : Str} (hsep : ltFree sep) {L : List Str}
    (h : ∀ l ∈ L, ltFree l) : ltFree (List.intercalate sep L) := by
  intro c hc
  rw [show List.intercalate sep L = (L.intersperse sep).flatten from rfl] at hc
  rcases List.mem_flatten.mp hc with ⟨l, hl, hcl⟩
  rcases mem_intersperse hl with rfl | hl2
  · exact hsep c hcl
  · exact h l hl2 c hcl

theorem ltFree_yamlLines {entry : LexiconEntry} {recipe : Recipe} {today : Str}
    (ht : renderTame entry recipe today) :
    ∀ l ∈ yamlLines entry recipe today, ltFree l := by
  obtain ⟨h1, h2, h3, h4, h5, h6, h7, h8, h9, h10, h11, h12, h13, h14, h15⟩ := ht
  have happ : ∀ {A B : List Str}, (∀ l ∈ A, ltFree l) → (∀ l ∈ B, ltFree l) →
      ∀ l ∈ A ++ B, ltFree l := by
    intro A B hA hB l hl
    rcases List.mem_append.mp hl with h | h
    · exact hA l h
    · exact hB l h
  have hcons : ∀ {a : Str} {B : List Str}, ltFree a → (∀ l ∈ B, ltFree l) →
      ∀ l ∈ a :: B, ltFree l := by
    intro a B ha hB l hl
    rcases List.mem_cons.mp hl with rfl | h
    · exact ha
    · exact hB l h
  have hnil : ∀ l ∈ ([] : List Str), ltFree l := by
    intro l hl
    cases hl
  have hmap : ∀ {f : Str → Str} {xs : List Str},
      (∀ x ∈ xs, ltFree (f x)) → ∀ l ∈ xs.map f, ltFree l := by
    intro f xs hf l hl
    rcases List.mem_map.mp hl with ⟨x, hx, rfl⟩
    exact hf x hx
  have hmapscr : ∀ {f : ScriptureRef → Str} {xs : List ScriptureRef},
      (∀ x ∈ xs, ltFree (f x)) → ∀ l ∈ xs.map f, ltFree l := by
    intro f xs hf l hl
    rcases List.mem_map.mp hl with ⟨x, hx, rfl⟩
    exact hf x hx
  have hmapkey : ∀ {f : SectionKey → Str} {xs : List SectionKey},
      (∀ x ∈ xs, ltFree (f x)) → ∀ l ∈ xs.map f, ltFree l := by
    intro f xs hf l hl
    rcases List.mem_map.mp hl with ⟨x, hx, rfl⟩
    exact hf x hx
  rcases htr : entry.transliteration with _ | t
  all_goals simp only [yamlLines, htr]
  · refine happ (happ (happ (happ (happ (happ (happ (happ (happ (happ (happ
      (happ (happ (happ ?_ ?_) ?_) ?_) ?_) ?_) ?_) ?_) ?_) ?_) ?_) ?_) ?_)
      ?_) ?_
    · exact hcons (by decide) (hcons (by decide)
        (hcons (ltFree_append (by decide) (ltFree_langStr _))
        (hcons (ltFree_append (by decide) h1)
        (hcons (by decide)
        (hcons (ltFree_append (by decide) h2)
        (hcons (by decide)
        (hcons (ltFree_append (by decide) h4)
        (hcons (ltFree_append (by decide) h5)
        (hcons (ltFree_append (by decide) h6)
        (hcons (by decide)
        (hcons (by decide)
        (hcons (ltFree_append (by decide) h1) hnil))))))))))))
    · exact hnil
    · exact hcons (by decide) (hcons (ltFree_append (by decide) h7)
        (hcons (by decide) hnil))
    · exact hmap (fun u hu => ltFree_append (by decide) (h8 u hu))
    · exact hcons (by decide) (hcons (ltFree_append (by decide) h10)
        (hcons (ltFree_append (by decide) h9)
        (hcons (by decide) (hcons (by decide) hnil))))
    · exact hmapkey (fun s _ => ltFree_append (by decide) (ltFree_keyName s))
    · exact hcons (by decide) (hcons (by decide) hnil)
    · exact hmap (fun i hi => ltFree_append
        (ltFree_append (by decide) (h11 i hi)) (by decide))
    · exact hcons (by decide) hnil
    · exact hmap (fun i hi => ltFree_append
        (ltFree_append (by decide) (h12 i hi)) (by decide))
    · exact hcons (by decide) hnil
    · exact hmap (fun i hi => ltFree_append
        (ltFree_append (by decide) (h13 i hi)) (by decide))
    · exact hcons (by decide) hnil
    · exact hmapscr (fun r hr => ltFree_append (ltFree_append (ltFree_append
        (ltFree_append (by decide) ((h14 r hr).2)) (by decide))
        ((h14 r hr).1)) (by decide))
    · exact hcons (by decide)
        (hcons (ltFree_append (by decide) (ltFree_natToDecimal _))
        (hcons (ltFree_append (by decide) h1)
        (hcons (by decide) (hcons (by decide) hnil))))
  · have h3t : ltFree t := by
      rw [htr] at h3
      exact h3
    refine happ (happ (happ (happ (happ (happ (happ (happ (happ (happ (happ
      (happ (happ (happ ?_ ?_) ?_) ?_) ?_) ?_) ?_) ?_) ?_) ?_) ?_) ?_) ?_)
      ?_) ?_
    · exact hcons (by decide) (hcons (by decide)
        (hcons (ltFree_append (by decide) (ltFree_langStr _))
        (hcons (ltFree_append (by decide) h1)
        (hcons (by decide)
        (hcons (ltFree_append (by decide) h2)
        (hcons (ltFree_append (by decide) h3t)
        (hcons (ltFree_append (by decide) h4)
        (hcons (ltFree_append (by decide) h5)
        (hcons (ltFree_append (by decide) h6)
        (hcons (by decide)
        (hcons (by decide)
        (hcons (ltFree_append (by decide) h1) hnil))))))))))))
    · intro l hl
      split at hl
      · cases hl
      · rcases List.mem_singleton.mp hl with rfl
        exact ltFree_append (by decide) h3t
    · exact hcons (by decide) (hcons (ltFree_append (by decide) h7)
        (hcons (by decide) hnil))
    · exact hmap (fun u hu => ltFree_append (by decide) (h8 u hu))
    · exact hcons (by decide) (hcons (ltFree_append (by decide) h10)
        (hcons (ltFree_append (by decide) h9)
        (hcons (by decide) (hcons (by decide) hnil))))
    · exact hmapkey (fun s _ => ltFree_append (by decide) (ltFree_keyName s))
    · exact hcons (by decide) (hcons (by decide) hnil)
    · exact hmap (fun i hi => ltFree_append
        (ltFree_append (by decide) (h11 i hi)) (by decide))
    · exact hcons (by decide) hnil
    · exact hmap (fun i hi => ltFree_append
        (ltFree_append (by decide) (h12 i hi)) (by decide))
    · exact hcons (by decide) hnil
    · exact hmap (fun i hi => ltFree_append
        (ltFree_append (by decide) (h13 i hi)) (by decide))
    · exact hcons (by decide) hnil
    · exact hmapscr (fun r hr => ltFree_append (ltFree_append (ltFree_append
        (ltFree_append (by decide) ((h14 r hr).2)) (by decide))
        ((h14 r hr).1)) (by decide))
    · exact hcons (by decide)
        (hcons (ltFree_append (by decide) (ltFree_natToDecimal _))
        (hcons (ltFree_append (by decide) h1)
        (hcons (by decide) (hcons (by decide) hnil))))

theorem ltFree_titleLine {entry : LexiconEntry} (h1 : ltFree entry.strong)
    (h2 : ltFree (entry.lemma_.getD []))
    (h3 : ltFree (entry.transliteration.getD [])) :
    ltFree (renderTitleLine entry) := by
  intro c hc
  have hbig : ltFree (str "# " ++ entry.strong ++ str " — " ++
      entry.lemma_.getD [] ++ str " (" ++ entry.transliteration.getD [] ++
      str ")") :=
    ltFree_append (ltFree_append (ltFree_append (ltFree_append (ltFree_append
      (ltFree_append (by decide) h1) (by decide)) h2) (by decide)) h3)
      (by decide)
  exact hbig c (mem_of_mem_jsTrim hc)

theorem ltFree_headBodyLines {entry : LexiconEntry} {recipe : Recipe}
    {today : Str} (ht : renderTame entry recipe today) :
    ∀ l ∈ headBodyLines entry, ltFree l := by
  obtain ⟨h1, h2, h3, h4, h5, h6, h7, h8, h9, h10, h11, h12, h13, h14, h15⟩ := ht
  intro l hl
  simp only [headBodyLines, List.mem_cons] at hl
  rcases hl with rfl | rfl | rfl | rfl | rfl | rfl | rfl | rfl | h
  · exact ltFree_titleLine h1 h2 h3
  · decide
  · exact ltFree_append (ltFree_append (by decide) h6) (by decide)
  · exact ltFree_append (ltFree_append (by decide) h4) (by decide)
  · exact ltFree_append (by decide) h7
  · decide
  · decide
  · decide
  · simp at h

theorem ltFree_appTailLines {entry : LexiconEntry} {recipe : Recipe}
    {today : Str} (ht : renderTame entry recipe today) :
    ∀ l ∈ appTailLines entry recipe, ltFree l := by
  obtain ⟨h1, h2, h3, h4, h5, h6, h7, h8, h9, h10, h11, h12, h13, h14, h15⟩ := ht
  intro l hl
  simp only [appTailLines, List.mem_cons] at hl
  rcases hl with rfl | rfl | rfl | rfl | rfl | rfl | rfl | rfl | rfl | rfl |
    rfl | rfl | rfl | h
  · decide
  · decide
  · refine ltFree_intercalate (by decide) ?_
    intro l hl
    rcases List.mem_map.mp hl with ⟨i, hi, rfl⟩
    exact ltFree_append (ltFree_append (by decide) (h11 i hi)) (by decide)
  · decide
  · decide
  · refine ltFree_intercalate (by decide) ?_
    intro l hl
    rcases List.mem_map.mp hl with ⟨i, hi, rfl⟩
    exact ltFree_append (ltFree_append (by decide) (h12 i hi)) (by decide)
  · decide
  · decide
  · refine ltFree_intercalate (by decide) ?_
    intro l hl
    rcases List.mem_map.mp hl with ⟨i, hi, rfl⟩
    exact ltFree_append (ltFree_append (by decide) (h13 i hi)) (by decide)
  · decide
  · decide
  · split
    · refine ltFree_intercalate (by decide) ?_
      intro l hl
      rcases List.mem_map.mp hl with ⟨r, hr, rfl⟩
      exact ltFree_append (ltFree_append (ltFree_append (ltFree_append
        (by decide) ((h14 r hr).2)) (by decide)) ((h14 r hr).1)) (by decide)
    · decide
  · decide
  · simp at h

theorem ltFree_appStr {entry : LexiconEntry} {recipe : Recipe} {today : Str}
    (ht : renderTame entry recipe today) : ltFree (appStr entry recipe) := by
  unfold appStr
  exact ltFree_append (by decide)
    (ltFree_intercalate (by decide) (ltFree_appTailLines ht))

theorem ltFree_renderHead {entry : LexiconEntry} {recipe : Recipe} {today : Str}
    (ht : renderTame entry recipe today) :
    ltFree (renderHead entry recipe today) := by
  unfold renderHead
  refine ltFree_append (ltFree_append
    (ltFree_intercalate (by decide) (ltFree_yamlLines ht))
    (ltFree_intercalate (by decide) (ltFree_headBodyLines ht))) ?_
  split
  · decide
  · decide

theorem blockTame_includedKeys {entry : LexiconEntry} {recipe : Recipe}
    {today : Str} (ht : renderTame entry recipe today) :
    ∀ k ∈ includedKeys recipe, blockTame (entry.blocks k) := by
  intro k hk
  rcases List.mem_filter.mp hk with ⟨_, hdec⟩
  exact ht.2.2.2.2.2.2.2.2.2.2.2.2.2.2 k (of_decide_eq_true hdec)

/-- An entry like `entryC2` but without scripture refs, whose helps
block contains a line matching the heading pattern `\n##\s+`. -/
def entryC2b : LexiconEntry :=
  { strong := str "G1", lang := Lang.greek, lemma_ := none,
    transliteration := none, pronunciation := none, phonetic := none,
    part_of_speech := none, source_primary := str "u", source_alt := [],
    blocks := fun k => if k = SectionKey.helps then str "hey\n## sub" else [],
    links := { see_also := [], related_strongs := [], topical := [],
               scripture := [] } }

/-- An entry like `entryC2b` whose helps block contains a line matching
the marker pattern `\n<!-- imported:` instead. -/
def entryC2c : LexiconEntry :=
  { entryC2b with blocks := fun k =>
      if k = SectionKey.helps then str "a\n<!-- imported: b -->\nc" else [] }

theorem mem_sectionOrder (k : SectionKey) : k ∈ sectionOrder := by
  cases k <;> decide

/-- When scripture linking is inactive the first rendering uses the raw
entry blocks. -/
theorem renderBlocksFor_off (entry : LexiconEntry) (recipe : Recipe)
    (h : LinkType.scripture ∉ recipe.linkTypes ∨ entry.links.scripture = []) :
    renderBlocksFor entry recipe = entry.blocks := by
  unfold renderBlocksFor
  rw [if_neg]
  rintro ⟨hmem, hne⟩
  rcases h with h | h
  · exact h hmem
  · exact hne h

set_option maxRecDepth 20000 in
/-- C2 counterexample: with scripture links enabled, the first rendering
linkifies the helps block to `[[Genesis 1:1]] here`, but the second
upsert's merge splices the raw entry block back in, so the document's
helps block after the merge is the unlinkified text and differs from the
block the first rendering produced.  Moreover, even with scripture
linking inactive the equality needs the blocks to be free of `#` and
`<`: a block with a heading-pattern line (`entryC2b`) or with a
marker-pattern line (`entryC2c`) is truncated at that line by the merge
boundary, so the merged document's helps block differs from the first
rendering's block although scripture is not among the recipe's link
types and helps is an included section. -/
theorem upsert_merge_reverts_linkified_block :
    jsTrim (renderBlocksFor entryC2 recipeC2 SectionKey.helps)
      = str "[[Genesis 1:1]] here" ∧
    sectionBlockOf (mergeIntoFileText
        (renderNew entryC2 recipeC2 (str "2026-10-12")) entryC2 recipeC2)
        SectionKey.helps
      = some (str "Genesis 1:1 here") ∧
    sectionBlockOf (mergeIntoFileText
        (renderNew entryC2 recipeC2 (str "2026-10-12")) entryC2 recipeC2)
        SectionKey.helps
      ≠ some (jsTrim (renderBlocksFor entryC2 recipeC2 SectionKey.helps)) ∧
    LinkType.scripture ∉ recipeC2off.linkTypes ∧
    SectionKey.helps ∈ recipeC2off.includeSections ∧
    sectionBlockOf (mergeIntoFileText
        (renderNew entryC2b recipeC2off (str "2026-10-12")) entryC2b recipeC2off)
        SectionKey.helps
      ≠ some (jsTrim (renderBlocksFor entryC2b recipeC2off SectionKey.helps)) ∧
    sectionBlockOf (mergeIntoFileText
        (renderNew entryC2c recipeC2off (str "2026-10-12")) entryC2c recipeC2off)
        SectionKey.helps
      ≠ some (jsTrim (renderBlocksFor entryC2c recipeC2off SectionKey.helps)) := by
  decide

/-- C2 amended: the merge path never re-applies scripture linkification —
it splices the trimmed raw entry blocks.  (1) When scripture linking is
inactive (link type absent or no refs) the first rendering also uses the
raw blocks; (2) the merge result is independent of the entry's scripture
refs altogether; (3) for every entry, recipe, date and enabled section:
if scripture linking is inactive and the entry and recipe are tame (no
`<` in the strings the writer places around the sections, no `#` or `<`
in the included blocks), the second upsert leaves the document's section
block exactly equal to the trimmed block the first rendering produced. -/
theorem upsert_merge_raw_blocks :
    (∀ (entry : LexiconEntry) (recipe : Recipe),
      (LinkType.scripture ∉ recipe.linkTypes ∨ entry.links.scripture = []) →
      renderBlocksFor entry recipe = entry.blocks) ∧
    (∀ (doc : Str) (entry : LexiconEntry) (recipe : Recipe)
        (scr : List ScriptureRef),
      mergeIntoFileText doc
          { entry with links := { entry.links with scripture := scr } } recipe
        = mergeIntoFileText doc entry recipe) ∧
    (∀ (entry : LexiconEntry) (recipe : Recipe) (today : Str) (k : SectionKey),
      (LinkType.scripture ∉ recipe.linkTypes ∨ entry.links.scripture = []) →
      renderTame entry recipe today →
      k ∈ recipe.includeSections →
      sectionBlockOf
          (mergeIntoFileText (renderNew entry recipe today) entry recipe) k
        = some (jsTrim (renderBlocksFor entry recipe k))) := by
  refine ⟨renderBlocksFor_off, fun doc entry recipe scr => rfl, ?_⟩
  intro entry recipe today k hoff0 htame hk
  have hoff : renderBlocksFor entry recipe = entry.blocks :=
    renderBlocksFor_off entry recipe hoff0
  have hH : ltFree (renderHead entry recipe today) := ltFree_renderHead htame
  have hkeys : k ∈ includedKeys recipe :=
    List.mem_filter.mpr ⟨mem_sectionOrder k, decide_eq_true hk⟩
  have hcs0 : ∀ c ∈ initSeps (includedKeys recipe),
      sepOK c.2 ∧ blockTame (entry.blocks c.1) :=
    initSeps_chunkOK entry (includedKeys recipe) (blockTame_includedKeys htame)
  have hmem0 : ∀ k' ∈ recipe.includeSections,
      k' ∈ (initSeps (includedKeys recipe)).map Prod.fst := by
    intro k' hk'
    rw [map_fst_initSeps]
    exact List.mem_filter.mpr ⟨mem_sectionOrder k', decide_eq_true hk'⟩
  have hmg : mergeIntoFileText (renderNew entry recipe today) entry recipe
      = renderHead entry recipe today ++ chunkSeq entry (appStr entry recipe)
          (List.foldl (fun acc sec => setSep sec acc)
            (initSeps (includedKeys recipe)) recipe.includeSections) := by
    rw [show mergeIntoFileText (renderNew entry recipe today) entry recipe
        = List.foldl (fun text sec =>
            replaceImportedBlock text (sectionKeyName sec) (entry.blocks sec))
          (renderNew entry recipe today) recipe.includeSections from rfl]
    rw [renderNew_decompose entry recipe today hoff]
    exact merge_fold entry (appStr entry recipe) recipe.includeSections
      (initSeps (includedKeys recipe)) (renderHead entry recipe today)
      hH hcs0 hmem0
  rw [hmg, hoff]
  refine (chunk_step entry (appStr entry recipe) k _
      (renderHead entry recipe today)
      (skipOK_of_ltFree (markerFor_head _) hH)
      (fold_chunkOK entry recipe.includeSections _ hcs0) ?_).2 ?_
  · rw [fold_map_fst, map_fst_initSeps]
    exact hkeys
  · exact firstSep_fold recipe.includeSections _
      (by rw [map_fst_initSeps]; exact hkeys) hk

set_option maxRecDepth 20000 in
/-- C2 witness: at the concrete one-section note with scripture links
disabled, the first rendering uses the raw blocks and the second
upsert's merge leaves the helps block equal to the trimmed block the
first rendering produced. -/
theorem upsert_merge_raw_blocks_witness :
    renderBlocksFor entryC2 recipeC2off = entryC2.blocks ∧
    sectionBlockOf (mergeIntoFileText
        (renderNew entryC2 recipeC2off (str "2026-10-12")) entryC2 recipeC2off)
        SectionKey.helps
      = some (jsTrim (renderBlocksFor entryC2 recipeC2off SectionKey.helps)) :=
  ⟨upsert_merge_raw_blocks.1 entryC2 recipeC2off (Or.inl (by decide)),
   upsert_merge_raw_blocks.2.2 entryC2 recipeC2off (str "2026-10-12")
     SectionKey.helps (Or.inl (by decide)) (by decide) (by decide)⟩
